import Mathlib

/-!
# Exact rational arithmetic and polynomial reconstruction

A shallow embedding of `verify_vandermonde.js` (namespace `VerifyVandermonde`),
of the decoder and the Lagrange loop of `solution.js` (namespace `Solution`) and
of `evaluatePolynomialAt` and the point check of `verify.js` (namespace
`Verify`): BigInt values are `Int`, the plain objects `{n, d}` are the structure
`Frac`, thrown exceptions are the `error` side of `Except JsError`, strings are
lists of code points, and every `for` loop is a monadic fold over the list of
indices or characters the loop visits.
-/

namespace VerifyVandermonde

/-- The exceptions the script can raise. -/
inductive JsError where
  /-- `RangeError: Division by zero`, raised by BigInt `/` and `%`. -/
  | rangeError
  /-- `Error("division by zero")`, raised by `divRat`. -/
  | divisionByZero
  /-- `Error("Singular matrix (no pivot)")`, raised by `gaussianSolve`. -/
  | singularMatrix
  /-- `Error("Invalid char in value: " + ch)`, raised by the strict decoder. -/
  | invalidChar
  /-- `Error("Digit >= base")`, raised by the decoders. -/
  | digitTooLarge
  deriving DecidableEq, Repr

/-- The plain object `{n: BigInt, d: BigInt}`. -/
structure Frac where
  n : Int
  d : Int
  deriving DecidableEq, Repr

/-- BigInt `a / b`: truncating division, a `RangeError` when `b` is `0n`. -/
def bigDiv (a b : Int) : Except JsError Int :=
  if b = 0 then .error .rangeError else .ok (a.tdiv b)

/-- The `while (b !== 0n)` loop of `bigintGCD`, run for at most `fuel` tests of
the loop condition. -/
def gcdLoop : Nat → Int → Int → Int
  | 0, a, _ => a
  | fuel + 1, a, b => if b ≠ 0 then gcdLoop fuel b (a.tmod b) else a

/-- `bigintGCD(a, b)`. After the two sign flips the second argument strictly
decreases on every iteration, so `|b| + 1` tests of the condition are enough
(`gcdLoop_eq_gcd`). -/
def bigintGCD (a b : Int) : Int :=
  let a := if a < 0 then -a else a
  let b := if b < 0 then -b else b
  gcdLoop (b.toNat + 1) a b

/-- `normalizeRat(r)`. -/
def normalizeRat (r : Frac) : Except JsError Frac :=
  let r : Frac := if r.d < 0 then { n := -r.n, d := -r.d } else r
  if r.n = 0 then .ok { r with d := 1 }
  else
    let g := bigintGCD (if r.n < 0 then -r.n else r.n) r.d
    (bigDiv r.n g).bind fun n =>
    (bigDiv r.d g).bind fun d =>
    .ok { n := n, d := d }

/-- `addRat(a, b)`. -/
def addRat (a b : Frac) : Except JsError Frac :=
  normalizeRat { n := a.n * b.d + b.n * a.d, d := a.d * b.d }

/-- `subRat(a, b)`. -/
def subRat (a b : Frac) : Except JsError Frac :=
  normalizeRat { n := a.n * b.d - b.n * a.d, d := a.d * b.d }

/-- `mulRat(a, b)`. -/
def mulRat (a b : Frac) : Except JsError Frac :=
  normalizeRat { n := a.n * b.n, d := a.d * b.d }

/-- `divRat(a, b)`. -/
def divRat (a b : Frac) : Except JsError Frac :=
  if b.n = 0 then .error .divisionByZero
  else normalizeRat { n := a.n * b.d, d := a.d * b.n }

/-- `fromBigInt(x)`. -/
def fromBigInt (x : Int) : Except JsError Frac :=
  normalizeRat { n := x, d := 1 }

/-- The rational number a pair denotes. -/
def Frac.val (r : Frac) : ℚ := (r.n : ℚ) / (r.d : ℚ)

/-- Canonical form: positive denominator, numerator and denominator coprime,
and zero written `0/1`. -/
def Frac.Canonical (r : Frac) : Prop :=
  0 < r.d ∧ Int.gcd |r.n| r.d = 1 ∧ (r.n = 0 → r.d = 1)

instance (r : Frac) : Decidable r.Canonical := by
  unfold Frac.Canonical; infer_instance

instance {ε α : Type} [DecidableEq ε] [DecidableEq α] : DecidableEq (Except ε α)
  | .ok a, .ok b => if h : a = b then isTrue (by rw [h]) else isFalse (by intro h1; cases h1; exact h rfl)
  | .error a, .error b => if h : a = b then isTrue (by rw [h]) else isFalse (by intro h1; cases h1; exact h rfl)
  | .ok _, .error _ => isFalse (by intro h; cases h)
  | .error _, .ok _ => isFalse (by intro h; cases h)

/-- The pair `normalizeRat` returns, in closed form. -/
def normForm (r : Frac) : Frac :=
  if r.n = 0 then ⟨0, 1⟩
  else ⟨(if r.d < 0 then -r.n else r.n) / (Int.gcd r.n r.d : Int),
        (if r.d < 0 then -r.d else r.d) / (Int.gcd r.n r.d : Int)⟩

/-- The canonical pair of a rational number. -/
def ofQ (q : ℚ) : Frac := ⟨q.num, q.den⟩

/-- The inner `for (let j = 0; j < k; ++j)` loop of `evaluateLagrangeAt` for the
fixed outer index `i`, run over the indices `js` from the running value `term`. -/
def lagrangeTerm (xs : List Int) (t : Int) (i : Nat) (js : List Nat) (term : Frac) :
    Except JsError Frac :=
  js.foldlM (fun term j =>
    if i = j then pure term
    else do
      let f ← normalizeRat { n := t - xs.getD j 0, d := xs.getD i 0 - xs.getD j 0 }
      mulRat term f) term

/-- The outer `for (let i = 0; i < k; ++i)` loop of `evaluateLagrangeAt`, run over
the indices `is` from the running sum `num`; the inner loop visits `0 .. k-1`. -/
def lagrangeSum (k : Nat) (xs ys : List Int) (t : Int) (is : List Nat) (num : Frac) :
    Except JsError Frac :=
  is.foldlM (fun num i => do
    let term ← fromBigInt (ys.getD i 0)
    let term ← lagrangeTerm xs t i (List.range k) term
    addRat num term) num

/-- `evaluateLagrangeAt(t)`, with the globals `k`, `xs`, `ys` it reads passed as
arguments. Every index the loops use is below `k`, the length of `xs` and `ys`. -/
def evaluateLagrangeAt (k : Nat) (xs ys : List Int) (t : Int) : Except JsError Frac := do
  let num ← lagrangeSum k xs ys t (List.range k) { n := 0, d := 1 }
  normalizeRat num

/-- The `i`-th Lagrange summand `y_i * Π_{j ≠ i} (t - x_j) / (x_i - x_j)`, the
product taken over the indices below `k`. -/
def lagrangeSummand (k : Nat) (xs ys : List Int) (t : Int) (i : Nat) : ℚ :=
  (ys.getD i 0 : ℚ) * (((List.range k).filter (fun j => j ≠ i)).map (fun j =>
    ((t : ℚ) - (xs.getD j 0 : ℚ)) / ((xs.getD i 0 : ℚ) - (xs.getD j 0 : ℚ)))).prod

/-- The matrix cell `M[r][c]`. Inside `gaussianSolve` every index is below `n`,
the number of rows and of columns of the square input. -/
def entry (M : List (List Frac)) (r c : Nat) : Frac :=
  (M.getD r []).getD c { n := 0, d := 1 }

/-- The assignment `M[r][c] = v`. -/
def setEntry (M : List (List Frac)) (r c : Nat) (v : Frac) : List (List Frac) :=
  M.set r ((M.getD r []).set c v)

/-- The vector cell `B[i]`. -/
def bentry (B : List Frac) (i : Nat) : Frac :=
  B.getD i { n := 0, d := 1 }

/-- The pivot search `for (let r = col; r < n; ++r) if (M[r][col].n !== 0n) …`
over the candidate rows `rs`; `none` is `pivot === -1`. -/
def findPivot (M : List (List Frac)) (col : Nat) : List Nat → Option Nat
  | [] => none
  | r :: rs => if (entry M r col).n ≠ 0 then some r else findPivot M col rs

/-- The destructuring swap `[M[pivot], M[col]] = [M[col], M[pivot]]`. -/
def swapRows {α : Type} (M : List α) (dflt : α) (pivot col : Nat) : List α :=
  (M.set pivot (M.getD col dflt)).set col (M.getD pivot dflt)

/-- The loop `for (let c = col; c < n; ++c) M[col][c] = divRat(M[col][c], pivVal)`
over the columns `cs`. -/
def normalizeRow (M : List (List Frac)) (col : Nat) (pivVal : Frac) (cs : List Nat) :
    Except JsError (List (List Frac)) :=
  cs.foldlM (fun M c => do
    let v ← divRat (entry M col c) pivVal
    pure (setEntry M col c v)) M

/-- The loop `for (let c = col; c < n; ++c)
M[r][c] = subRat(M[r][c], mulRat(factor, M[col][c]))` over the columns `cs`. -/
def eliminateRow (M : List (List Frac)) (col r : Nat) (factor : Frac) (cs : List Nat) :
    Except JsError (List (List Frac)) :=
  cs.foldlM (fun M c => do
    let p ← mulRat factor (entry M col c)
    let v ← subRat (entry M r c) p
    pure (setEntry M r c v)) M

/-- The loop `for (let r = col + 1; r < n; ++r)` that eliminates column `col` from
the rows `rs`. -/
def eliminateBelow (n col : Nat) (rs : List Nat) (s : List (List Frac) × List Frac) :
    Except JsError (List (List Frac) × List Frac) :=
  rs.foldlM (fun s r =>
    let factor := entry s.1 r col
    if factor.n = 0 then pure s
    else do
      let M ← eliminateRow s.1 col r factor (List.range' col (n - col))
      let p ← mulRat factor (bentry s.2 col)
      let v ← subRat (bentry s.2 r) p
      pure (M, s.2.set r v)) s

/-- One iteration of the loop `for (let col = 0; col < n; ++col)`. -/
def forwardStep (n col : Nat) (s : List (List Frac) × List Frac) :
    Except JsError (List (List Frac) × List Frac) :=
  match findPivot s.1 col (List.range' col (n - col)) with
  | none => throw JsError.singularMatrix
  | some pivot =>
    let M := if pivot ≠ col then swapRows s.1 [] pivot col else s.1
    let B := if pivot ≠ col then swapRows s.2 { n := 0, d := 1 } pivot col else s.2
    let pivVal := entry M col col
    do
      let M ← normalizeRow M col pivVal (List.range' col (n - col))
      let b ← divRat (bentry B col) pivVal
      eliminateBelow n col (List.range' (col + 1) (n - (col + 1))) (M, B.set col b)

/-- Forward elimination over the columns `cols`. -/
def forward (n : Nat) (cols : List Nat) (s : List (List Frac) × List Frac) :
    Except JsError (List (List Frac) × List Frac) :=
  cols.foldlM (fun s col => forwardStep n col s) s

/-- The inner loop of back substitution,
`for (let j = i + 1; j < n; ++j) sum = addRat(sum, mulRat(M[i][j], x[j]))`. -/
def backSum (M : List (List Frac)) (x : List Frac) (i : Nat) (js : List Nat) (sum : Frac) :
    Except JsError Frac :=
  js.foldlM (fun sum j => do
    let p ← mulRat (entry M i j) (bentry x j)
    addRat sum p) sum

/-- The loop `for (let i = n - 1; i >= 0; --i)` of back substitution over the rows
`is`. -/
def backSubstitute (n : Nat) (M : List (List Frac)) (B : List Frac) (is : List Nat)
    (x : List Frac) : Except JsError (List Frac) :=
  is.foldlM (fun x i => do
    let zero ← fromBigInt 0
    let sum ← backSum M x i (List.range' (i + 1) (n - (i + 1))) zero
    let v ← subRat (bentry B i) sum
    pure (x.set i v)) x

/-- `gaussianSolve(A, bvec)`. The copies `M` and `B` are the arguments themselves,
values being immutable here. -/
def gaussianSolve (A : List (List Frac)) (bvec : List Frac) : Except JsError (List Frac) := do
  let n := A.length
  let s ← forward n (List.range n) (A, bvec)
  let zero ← fromBigInt 0
  backSubstitute n s.1 s.2 (List.range n).reverse (List.replicate n zero)

/-- One row of the Vandermonde matrix: the loop
`for (let j = 0; j < k; ++j) { V[i][j] = fromBigInt(power); power = power * xs[i]; }`
over the columns `js`; the cells are filled from left to right, so each
assignment extends the row by one cell. -/
def vandermondeRow (x : Int) (js : List Nat) (s : List Frac × Int) :
    Except JsError (List Frac × Int) :=
  js.foldlM (fun s _ => do
    let v ← fromBigInt s.2
    pure (s.1 ++ [v], s.2 * x)) s

/-- The Vandermonde matrix `V` of the script, `V[i][j] = x_i^j`, built row by row
over the row indices `is`. -/
def vandermonde (k : Nat) (xs : List Int) (is : List Nat) (V : List (List Frac)) :
    Except JsError (List (List Frac)) :=
  is.foldlM (fun V i => do
    let s ← vandermondeRow (xs.getD i 0) (List.range k) ([], 1)
    pure (V ++ [s.1])) V

/-- The right-hand side `b = ys.map(y => fromBigInt(y))`. -/
def rhs (ys : List Int) : Except JsError (List Frac) :=
  ys.mapM fromBigInt

/-- The loop of `evaluatePolyWithCoeffsAt` over the indices `js`, on the state
`(acc, tPow)`. -/
def polyLoop (coeffs : List Frac) (t : Int) (js : List Nat) (s : Frac × Int) :
    Except JsError (Frac × Int) :=
  js.foldlM (fun s j => do
    let p ← fromBigInt s.2
    let term ← mulRat (bentry coeffs j) p
    let acc ← addRat s.1 term
    pure (acc, s.2 * t)) s

/-- `evaluatePolyWithCoeffsAt(t)`, with the global `coeffs` passed as an argument. -/
def evaluatePolyWithCoeffsAt (coeffs : List Frac) (t : Int) : Except JsError Frac := do
  let s ← polyLoop coeffs t (List.range coeffs.length) ({ n := 0, d := 1 }, 1)
  normalizeRat s.1

/-- The script from the construction of `V` to `coeffs`:
`gaussianSolve(V, b)` for the points `xs`, `ys`. -/
def solveCoeffs (k : Nat) (xs ys : List Int) : Except JsError (List Frac) := do
  let V ← vandermonde k xs (List.range k) []
  let b ← rhs ys
  gaussianSolve V b

/-- A square matrix of side `n`. -/
def Shape (n : Nat) (M : List (List Frac)) : Prop :=
  M.length = n ∧ ∀ i < n, (M.getD i []).length = n

/-- Every cell of the square matrix `M` and of the vector `B` has a non-zero
denominator. -/
def Dens (n : Nat) (M : List (List Frac)) (B : List Frac) : Prop :=
  (∀ i < n, ∀ j < n, (entry M i j).d ≠ 0) ∧ ∀ i < n, (bentry B i).d ≠ 0

/-- The rational value of the cell `M[i][j]`. -/
def mval (M : List (List Frac)) (i j : Nat) : ℚ := (entry M i j).val

/-- The rational value of the cell `B[i]`. -/
def bval (B : List Frac) (i : Nat) : ℚ := (bentry B i).val

/-- The row that the swap of rows `p` and `c` puts at position `i`. -/
def swapIdx (p c i : Nat) : Nat := if i = c then p else if i = p then c else i

/-- The state of the working matrix after `c` elimination steps, on values: in
every column below `c` the diagonal value is 1 and the values under the diagonal
are 0. -/
def Ech (n c : Nat) (A : Nat → Nat → ℚ) : Prop :=
  ∀ i < n, ∀ j < c, (i = j → A i j = 1) ∧ (j < i → A i j = 0)

/-- The value `Σ_{j < n} A[i][j] * a[j]` of row `i` of `A` applied to `a`. -/
def rowSum (n : Nat) (A : Nat → Nat → ℚ) (a : Nat → ℚ) (i : Nat) : ℚ :=
  ∑ j in Finset.range n, A i j * a j

/-- The vector `a` solves the system `A a = lam * b` of side `n`. -/
def Solves (n : Nat) (A : Nat → Nat → ℚ) (b : Nat → ℚ) (lam : ℚ) (a : Nat → ℚ) : Prop :=
  ∀ i < n, rowSum n A a i = lam * b i

/-- The values of the matrix after one elimination step on column `col` with
pivot row `p`: swap, divide the pivot row by the pivot, subtract from the rows
below. -/
def stepVals (col p : Nat) (A : Nat → Nat → ℚ) (i j : Nat) : ℚ :=
  if i = col then A p j / A p col
  else if col < i then
    A (swapIdx p col i) j - A (swapIdx p col i) col * (A p j / A p col)
  else A i j

/-- The values of the right-hand side after one elimination step. -/
def stepRhs (col p : Nat) (A : Nat → Nat → ℚ) (b : Nat → ℚ) (i : Nat) : ℚ :=
  if i = col then b p / A p col
  else if col < i then
    b (swapIdx p col i) - A (swapIdx p col i) col * (b p / A p col)
  else b i

/-- The code points that `String.prototype.trim` strips: the ECMAScript
`WhiteSpace` and `LineTerminator` code points. -/
def isJsSpace (c : Char) : Bool :=
  c.toNat = 0x09 || c.toNat = 0x0A || c.toNat = 0x0B || c.toNat = 0x0C || c.toNat = 0x0D ||
  c.toNat = 0x20 || c.toNat = 0xA0 || c.toNat = 0x1680 ||
  (0x2000 ≤ c.toNat && c.toNat ≤ 0x200A) || c.toNat = 0x2028 || c.toNat = 0x2029 ||
  c.toNat = 0x202F || c.toNat = 0x205F || c.toNat = 0x3000 || c.toNat = 0xFEFF

/-- `s.trim()` on the list of code points of `s`. -/
def jsTrim (s : List Char) : List Char :=
  ((s.dropWhile isJsSpace).reverse.dropWhile isJsSpace).reverse

/-- The lower-case form of one code point, as far as the decoders can tell it
apart: `'A'`-`'Z'` become `'a'`-`'z'`, U+212A (Kelvin sign) becomes `'k'`, U+0130
becomes `'i'` followed by U+0307; these are the only code points whose
lower-case form holds a digit or an ASCII letter. Every other code point is
left in place: neither it nor its lower-case form is in `'0'`-`'9'` or
`'a'`-`'z'`, which is all the decoders test. -/
def jsLowerChar (c : Char) : List Char :=
  if 0x41 ≤ c.toNat ∧ c.toNat ≤ 0x5A then [Char.ofNat (c.toNat + 0x20)]
  else if c.toNat = 0x212A then [Char.ofNat 0x6B]
  else if c.toNat = 0x130 then [Char.ofNat 0x69, Char.ofNat 0x307]
  else [c]

/-- `s.toLowerCase()` on the list of code points of `s`. -/
def jsToLowerCase (s : List Char) : List Char :=
  s.flatMap jsLowerChar

/-- The digit a character stands for in the decoders: `'0'`-`'9'` (code points
48-57) give 0-9, `'a'`-`'z'` (code points 97-122) give 10-35, anything else
none. The comparisons `ch >= '0' && ch <= '9'` compare code units, which for a
single code point is the comparison of code points. -/
def digitOf (ch : Char) : Option Int :=
  if 48 ≤ ch.toNat ∧ ch.toNat ≤ 57 then some ((ch.toNat : Int) - 48)
  else if 97 ≤ ch.toNat ∧ ch.toNat ≤ 122 then some ((ch.toNat : Int) - 97 + 10)
  else none

/-- The body of the loop `for (let ch of s)` of the strict decoder. -/
def parseStep (base : Int) (acc : Int) (ch : Char) : Except JsError Int :=
  match digitOf ch with
  | none => throw JsError.invalidChar
  | some digit =>
    if digit ≥ base then throw JsError.digitTooLarge else pure (acc * base + digit)

/-- The strict `parseBigIntBase(valueStr, baseNum)` of `verify_vandermonde.js`. -/
def parseBigIntBase (valueStr : String) (baseNum : Int) : Except JsError Int :=
  (jsToLowerCase (jsTrim valueStr.toList)).foldlM (parseStep baseNum) 0

/-- The value of a list of digits as a base-`b` numeral, written as the
specification does: `Σ_i digit_i * b^(len - 1 - i)`. -/
def numeralValue (b : Int) (ds : List Int) : Int :=
  ((List.range ds.length).map (fun i => ds.getD i 0 * b ^ (ds.length - 1 - i))).sum

end VerifyVandermonde

namespace Solution
open VerifyVandermonde

/-- The body of the loop `for (let ch of s)` of the lenient decoder: a character
that is no digit is skipped. -/
def parseStep (base : Int) (acc : Int) (ch : Char) : Except JsError Int :=
  match digitOf ch with
  | none => pure acc
  | some digit =>
    if digit ≥ base then throw JsError.digitTooLarge else pure (acc * base + digit)

/-- The lenient `parseBigIntBase(valueStr, baseNum)` of `solution.js`; `verify.js`
carries the same function. -/
def parseBigIntBase (valueStr : String) (baseNum : Int) : Except JsError Int :=
  (jsToLowerCase (jsTrim valueStr.toList)).foldlM (parseStep baseNum) 0

end Solution

namespace VerifyVandermonde

/-- The characters the decoders accept as digits: `'0'`-`'9'` and `'a'`-`'z'`. -/
def isDigitChar (c : Char) : Bool := (digitOf c).isSome

/-- The characters `'0'`-`'9'`, `'a'`-`'z'` and `'A'`-`'Z'`. -/
def isAsciiAlnum (c : Char) : Bool :=
  (48 ≤ c.toNat && c.toNat ≤ 57) || (97 ≤ c.toNat && c.toNat ≤ 122) ||
    (65 ≤ c.toNat && c.toNat ≤ 90)

/-- The statements `num = num * a; den = den * b;
const g = bigintGCD(|num|, |den|); if (g > 1n) { num /= g; den /= g; }` that the
inner loops of `solution.js` and `verify.js` share, on the pair `(num, den)`. -/
def mulReduce (s : Int × Int) (a b : Int) : Except JsError (Int × Int) :=
  let num := s.1 * a
  let den := s.2 * b
  let g := bigintGCD (if num < 0 then -num else num) (if den < 0 then -den else den)
  if g > 1 then do
    let n ← bigDiv num g
    let d ← bigDiv den g
    pure (n, d)
  else pure (num, den)

/-- The statements `const g = bigintGCD(|a|, |b|); a /= g; b /= g;` with which
`solution.js` and `verify.js` reduce a sum, on the pair `(a, b)`. -/
def reducePair (a b : Int) : Except JsError (Int × Int) := do
  let g := bigintGCD (if a < 0 then -a else a) (if b < 0 then -b else b)
  let n ← bigDiv a g
  let d ← bigDiv b g
  pure (n, d)

end VerifyVandermonde

namespace Solution
open VerifyVandermonde

/-- The inner loop `for (let j = 0; j < sel.length; ++j)` of `solution.js` for the
outer index `i`, over the indices `js`, on the pair `(num, den)`. -/
def termLoop (xs : List Int) (i : Nat) (js : List Nat) (s : Int × Int) :
    Except JsError (Int × Int) :=
  js.foldlM (fun s j =>
    if i = j then pure s
    else mulReduce s (-(xs.getD j 0)) (xs.getD i 0 - xs.getD j 0)) s

/-- The body of the outer loop of `solution.js`: the term of index `i` is added
to the running total `(totalNum, totalDen)`. -/
def sumStep (k : Nat) (xs ys : List Int) (total : Int × Int) (i : Nat) :
    Except JsError (Int × Int) := do
  let t ← termLoop xs i (List.range k) (ys.getD i 0, 1)
  reducePair (total.1 * t.2 + t.1 * total.2) (total.2 * t.2)

/-- The outer loop `for (let i = 0; i < sel.length; ++i)` of `solution.js` over
the indices `is`. -/
def sumLoop (k : Nat) (xs ys : List Int) (is : List Nat) (total : Int × Int) :
    Except JsError (Int × Int) :=
  is.foldlM (sumStep k xs ys) total

/-- The Lagrange interpolation at `x = 0` of `solution.js`, lines 76-107: the
loop from `(0n, 1n)` and the final simplification; `k`, `xs`, `ys` are the
length, the x-values and the y-values of `sel`. -/
def lagrangeAtZero (k : Nat) (xs ys : List Int) : Except JsError (Int × Int) := do
  let total ← sumLoop k xs ys (List.range k) (0, 1)
  reducePair total.1 total.2

end Solution

namespace Verify
open VerifyVandermonde

/-- The object `{ num, den }` that `evaluatePolynomialAt` returns. -/
structure NumDen where
  num : Int
  den : Int
  deriving DecidableEq, Repr

/-- The inner loop `for (let t = 0; t < m; ++t)` of `evaluatePolynomialAt` for the
outer index `j`, over the indices `ts`, on the pair `(num, den)`. -/
def termLoop (xs : List Int) (xp : Int) (j : Nat) (ts : List Nat) (s : Int × Int) :
    Except JsError (Int × Int) :=
  ts.foldlM (fun s t =>
    if t = j then pure s
    else mulReduce s (xp - xs.getD t 0) (xs.getD j 0 - xs.getD t 0)) s

/-- The first loop of `evaluatePolynomialAt`, which pushes one numerator and one
denominator per index of `js` onto `nums` and `dens`. -/
def termsLoop (m : Nat) (xs ys : List Int) (xp : Int) (js : List Nat)
    (acc : List Int × List Int) : Except JsError (List Int × List Int) :=
  js.foldlM (fun acc j => do
    let t ← termLoop xs xp j (List.range m) (ys.getD j 0, 1)
    pure (acc.1 ++ [t.1], acc.2 ++ [t.2])) acc

/-- The loop `for (let j = 0; j < m; ++j) { const factor = commonDen / dens[j];
combined += nums[j] * factor; }` over the indices `js`. -/
def combineLoop (nums dens : List Int) (commonDen : Int) (js : List Nat) (combined : Int) :
    Except JsError Int :=
  js.foldlM (fun combined j => do
    let factor ← bigDiv commonDen (dens.getD j 0)
    pure (combined + nums.getD j 0 * factor)) combined

/-- `evaluatePolynomialAt(xp)` of `verify.js`; `m`, `xs`, `ys` are the length, the
x-values and the y-values of `sel`. -/
def evaluatePolynomialAt (m : Nat) (xs ys : List Int) (xp : Int) : Except JsError NumDen := do
  let terms ← termsLoop m xs ys xp (List.range m) ([], [])
  let commonDen := terms.2.foldl (fun c d => c * d) 1
  let combined ← combineLoop terms.1 terms.2 commonDen (List.range m) 0
  let r ← reducePair combined commonDen
  pure { num := r.1, den := r.2 }

/-- The loop of step 2 of `verify.js` over the indices `idxs`: the value of
`allMatch` after the points of these indices have been compared. -/
def checkPoints (m : Nat) (xs ys : List Int) (idxs : List Nat) (allMatch : Bool) :
    Except JsError Bool :=
  idxs.foldlM (fun allMatch idx => do
    let px ← evaluatePolynomialAt m xs ys (xs.getD idx 0)
    if px.den = 1 then
      if px.num ≠ ys.getD idx 0 then pure false else pure allMatch
    else
      if ys.getD idx 0 * px.den ≠ px.num then pure false else pure allMatch) allMatch

end Verify

namespace VerifyVandermonde

/-- The script from the construction of `V` (line 84) to the two evaluations of
one pass of the loop over `checkTs` (lines 179-180): `gaussianSolve(V, b)` of
line 139 runs first, and only when it has returned `coeffs` are
`evaluatePolyWithCoeffsAt(t)` and `evaluateLagrangeAt(t)` called. The console
output of lines 140-145 in between is left out; it reads `coeffs[0]`, which
exists whenever `k` is at least 1. -/
def checkAt (k : Nat) (xs ys : List Int) (t : Int) : Except JsError (Frac × Frac) := do
  let coeffs ← solveCoeffs k xs ys
  let c1 ← evaluatePolyWithCoeffsAt coeffs t
  let c2 ← evaluateLagrangeAt k xs ys t
  pure (c1, c2)

/-! ## Auxiliary lemmas: the gcd loop and normal forms -/

theorem gcdLoop_natCast (fuel x y : Nat) (h : y < fuel) :
    gcdLoop fuel (x : Int) (y : Int) = ((Nat.gcd x y : Nat) : Int) := by
  induction fuel generalizing x y with
  | zero => omega
  | succ f ih =>
    unfold gcdLoop
    by_cases hy : y = 0
    · subst hy; simp
    · have hy0 : (y : Int) ≠ 0 := by exact_mod_cast hy
      rw [if_pos hy0, Int.tmod_eq_emod (Int.natCast_nonneg x) (Int.natCast_nonneg y)]
      have hlt : x % y < f := by
        have := Nat.mod_lt x (Nat.pos_of_ne_zero hy)
        omega
      have := ih y (x % y) hlt
      rw [← Int.natCast_mod]
      rw [this, Nat.gcd_comm x y, Nat.gcd_rec y x, Nat.gcd_comm]

theorem bigintGCD_eq (a b : Int) : bigintGCD a b = ((Int.gcd a b : Nat) : Int) := by
  unfold bigintGCD
  have ha : (if a < 0 then -a else a) = ((a.natAbs : Nat) : Int) := by
    split_ifs <;> omega
  have hb : (if b < 0 then -b else b) = ((b.natAbs : Nat) : Int) := by
    split_ifs <;> omega
  simp only [ha, hb]
  rw [gcdLoop_natCast _ _ _ (by omega), Int.gcd_eq_natAbs]

theorem gcd_abs_left (a b : Int) : Int.gcd |a| b = Int.gcd a b := by
  rw [Int.gcd_eq_natAbs, Int.gcd_eq_natAbs, Int.natAbs_abs]

theorem normalizeRat_eq (r : Frac) : normalizeRat r = .ok (normForm r) := by
  obtain ⟨n, d⟩ := r
  unfold normalizeRat normForm
  by_cases hn : n = 0
  · subst hn
    by_cases hd : d < 0 <;> simp [hd]
  · have hg : ((Int.gcd n d : Nat) : Int) ≠ 0 := by
      have : Int.gcd n d ≠ 0 := by
        rw [Ne, Int.gcd_eq_zero_iff]; tauto
      exact_mod_cast this
    by_cases hd : d < 0
    · have hn2 : -n ≠ 0 := by omega
      have e : (if -n < 0 then - -n else -n) = ((n.natAbs : Nat) : Int) := by split_ifs <;> omega
      simp only [hd, if_true, hn2, hn, if_false, e, bigintGCD_eq]
      have e2 : Int.gcd (↑n.natAbs) (-d) = Int.gcd n d := by
        rw [Int.gcd_neg, Int.gcd_eq_natAbs, Int.gcd_eq_natAbs, Int.natAbs_ofNat]
      rw [e2]
      simp only [bigDiv, hg, if_false, Except.bind]
      rw [Int.tdiv_eq_ediv_of_dvd (Dvd.dvd.neg_right Int.gcd_dvd_left),
        Int.tdiv_eq_ediv_of_dvd (Dvd.dvd.neg_right Int.gcd_dvd_right)]
    · have e : (if n < 0 then -n else n) = ((n.natAbs : Nat) : Int) := by split_ifs <;> omega
      simp only [hd, if_false, hn, e, bigintGCD_eq]
      have e2 : Int.gcd (↑n.natAbs) d = Int.gcd n d := by
        rw [Int.gcd_eq_natAbs, Int.gcd_eq_natAbs, Int.natAbs_ofNat]
      rw [e2]
      simp only [bigDiv, hg, if_false, Except.bind]
      rw [Int.tdiv_eq_ediv_of_dvd Int.gcd_dvd_left,
        Int.tdiv_eq_ediv_of_dvd Int.gcd_dvd_right]

theorem ofQ_canonical (q : ℚ) : (ofQ q).Canonical := by
  refine ⟨?_, ?_, ?_⟩
  · simp [ofQ, q.den_pos]
  · have := q.reduced
    simp only [ofQ, Int.gcd_eq_natAbs, Int.natAbs_abs, Int.natAbs_ofNat]
    exact this
  · intro h
    simp only [ofQ] at h ⊢
    have : q = 0 := Rat.zero_of_num_zero h
    subst this; rfl

theorem val_ofQ (q : ℚ) : (ofQ q).val = q := by
  simp [Frac.val, ofQ, Rat.num_div_den]

theorem Frac.Canonical.eq_ofQ {r : Frac} (h : r.Canonical) : r = ofQ r.val := by
  obtain ⟨n, d⟩ := r
  obtain ⟨h1, h2, -⟩ := h
  simp only at h1 h2
  have hc : n.natAbs.Coprime d.natAbs := by
    rw [gcd_abs_left] at h2
    simpa [Int.gcd_eq_natAbs] using h2
  simp only [ofQ, Frac.val, Frac.mk.injEq]
  exact ⟨(Rat.num_div_eq_of_coprime h1 hc).symm, (Rat.den_div_eq_of_coprime h1 hc).symm⟩

theorem normForm_val (r : Frac) : (normForm r).val = r.val := by
  obtain ⟨n, d⟩ := r
  unfold normForm
  by_cases hn : n = 0
  · subst hn; simp [Frac.val]
  · have hg : Int.gcd n d ≠ 0 := by
      rw [Ne, Int.gcd_eq_zero_iff]; tauto
    have hgq : (((Int.gcd n d : Nat) : Int) : ℚ) ≠ 0 := by exact_mod_cast hg
    simp only [hn, if_false, Frac.val]
    by_cases hd : d < 0
    · simp only [hd, if_true]
      rw [Int.cast_div (Dvd.dvd.neg_right Int.gcd_dvd_left) hgq,
        Int.cast_div (Dvd.dvd.neg_right Int.gcd_dvd_right) hgq]
      rw [div_div_div_cancel_right₀ hgq]
      push_cast
      rw [neg_div_neg_eq]
    · simp only [hd, if_false]
      rw [Int.cast_div Int.gcd_dvd_left hgq, Int.cast_div Int.gcd_dvd_right hgq]
      rw [div_div_div_cancel_right₀ hgq]

theorem normForm_canonical (r : Frac) (hd : r.d ≠ 0) : (normForm r).Canonical := by
  obtain ⟨n, d⟩ := r
  simp only at hd
  unfold normForm
  by_cases hn : n = 0
  · subst hn; simp [Frac.Canonical]
  · simp only [hn, if_false]
    have hg : 0 < Int.gcd n d := Int.gcd_pos_iff.mpr (Or.inl hn)
    have hgi : (0 : Int) < ((Int.gcd n d : Nat) : Int) := by exact_mod_cast hg
    by_cases hd0 : d < 0
    · simp only [hd0, if_true]
      have e : Int.gcd (-n) (-d) = Int.gcd n d := by rw [Int.gcd_neg, Int.neg_gcd]
      have key := @Int.gcd_div_gcd_div_gcd (-n) (-d) (by rw [e]; exact hg)
      rw [e] at key
      refine ⟨?_, ?_, ?_⟩
      · exact Int.ediv_pos_of_pos_of_dvd (by omega) hgi.le (Dvd.dvd.neg_right Int.gcd_dvd_right)
      · rw [gcd_abs_left]; exact key
      · intro h0
        simp only at h0
        have := Int.ediv_mul_cancel (Dvd.dvd.neg_right (@Int.gcd_dvd_left n d))
        rw [h0] at this
        omega
    · simp only [hd0, if_false]
      have key := @Int.gcd_div_gcd_div_gcd n d hg
      refine ⟨?_, ?_, ?_⟩
      · exact Int.ediv_pos_of_pos_of_dvd (by omega) hgi.le Int.gcd_dvd_right
      · rw [gcd_abs_left]; exact key
      · intro h0
        simp only at h0
        have := Int.ediv_mul_cancel (@Int.gcd_dvd_left n d)
        rw [h0] at this
        omega

theorem normalizeRat_of_ne (r : Frac) (hd : r.d ≠ 0) : normalizeRat r = .ok (ofQ r.val) := by
  rw [normalizeRat_eq, (normForm_canonical r hd).eq_ofQ, normForm_val]

/-! ## The arithmetic operations in closed form -/

theorem addRat_eq (a b : Frac) (ha : a.d ≠ 0) (hb : b.d ≠ 0) :
    addRat a b = .ok (ofQ (a.val + b.val)) := by
  unfold addRat
  rw [normalizeRat_of_ne _ (mul_ne_zero ha hb)]
  have ha1 : (a.d : ℚ) ≠ 0 := by exact_mod_cast ha
  have hb1 : (b.d : ℚ) ≠ 0 := by exact_mod_cast hb
  congr 2
  simp only [Frac.val]
  push_cast
  field_simp

theorem subRat_eq (a b : Frac) (ha : a.d ≠ 0) (hb : b.d ≠ 0) :
    subRat a b = .ok (ofQ (a.val - b.val)) := by
  unfold subRat
  rw [normalizeRat_of_ne _ (mul_ne_zero ha hb)]
  have ha1 : (a.d : ℚ) ≠ 0 := by exact_mod_cast ha
  have hb1 : (b.d : ℚ) ≠ 0 := by exact_mod_cast hb
  congr 2
  simp only [Frac.val]
  push_cast
  field_simp
  ring

theorem mulRat_eq (a b : Frac) (ha : a.d ≠ 0) (hb : b.d ≠ 0) :
    mulRat a b = .ok (ofQ (a.val * b.val)) := by
  unfold mulRat
  rw [normalizeRat_of_ne _ (mul_ne_zero ha hb)]
  congr 2
  simp only [Frac.val]
  push_cast
  rw [mul_div_mul_comm]

theorem divRat_eq (a b : Frac) (ha : a.d ≠ 0) (hb : b.n ≠ 0) :
    divRat a b = .ok (ofQ (a.val / b.val)) := by
  unfold divRat
  rw [if_neg hb, normalizeRat_of_ne _ (mul_ne_zero ha hb)]
  congr 2
  simp only [Frac.val]
  push_cast
  rw [div_div_div_eq]

theorem fromBigInt_eq (x : Int) : fromBigInt x = .ok ⟨x, 1⟩ := by
  unfold fromBigInt
  rw [normalizeRat_of_ne _ (by simp)]
  congr 1
  simp [Frac.val, ofQ]

theorem ofQ_intCast (x : Int) : ofQ (x : ℚ) = ⟨x, 1⟩ := by
  simp [ofQ]

theorem ofQ_d_ne (q : ℚ) : (ofQ q).d ≠ 0 := by
  simp [ofQ, q.den_nz]

theorem ofQ_d_pos (q : ℚ) : 0 < (ofQ q).d := (ofQ_canonical q).1

theorem Frac.Canonical.d_ne {r : Frac} (h : r.Canonical) : r.d ≠ 0 := ne_of_gt h.1

theorem ofQ_n_eq_zero_iff (q : ℚ) : (ofQ q).n = 0 ↔ q = 0 := by
  simp [ofQ]

theorem Frac.val_eq_zero_iff (r : Frac) (hd : r.d ≠ 0) : r.val = 0 ↔ r.n = 0 := by
  have : (r.d : ℚ) ≠ 0 := by exact_mod_cast hd
  simp [Frac.val, this]

theorem normForm_zero_den (n : Int) (hn : n ≠ 0) : normForm ⟨n, 0⟩ = ⟨Int.sign n, 0⟩ := by
  have e : n / |n| = Int.sign n := (Int.sign_eq_ediv_abs n).symm
  simp [normForm, hn, e]

theorem normForm_idem (r : Frac) : normForm (normForm r) = normForm r := by
  by_cases hd : r.d = 0
  · obtain ⟨n, d⟩ := r
    simp only at hd
    subst hd
    by_cases hn : n = 0
    · subst hn; simp [normForm]
    · rw [normForm_zero_den n hn]
      rcases lt_or_gt_of_ne hn with h | h
      · rw [Int.sign_eq_neg_one_of_neg h]; decide
      · rw [Int.sign_eq_one_of_pos h]; decide
  · have hc := normForm_canonical r hd
    have h := normalizeRat_eq (normForm r)
    rw [normalizeRat_of_ne _ hc.d_ne, ← hc.eq_ofQ] at h
    exact (Except.ok.inj h).symm

/-! ## Claims about the rational arithmetic layer -/

/-- C7, counterexample: `normalizeRat({n: 1n, d: 0n})` returns `{n: 1n, d: 0n}`,
whose denominator is not positive. -/
theorem normalizeRat_zero_den_counterexample :
    normalizeRat ⟨1, 0⟩ = .ok ⟨1, 0⟩ ∧ ¬ (0 < (⟨1, 0⟩ : Frac).d) := by
  decide

/-- C7, amended: for all integers `n` and `d`, `normalizeRat({n, d})` returns a
pair `r` with `gcd(|r.n|, r.d) = 1`, and `r.d > 0` holds exactly when `d` is
non-zero or `n` is zero; for `d = 0` and `n` non-zero the pair returned is
`{n: sign(n), d: 0n}`. -/
theorem normalizeRat_reduced (n d : Int) :
    ∃ r, normalizeRat ⟨n, d⟩ = .ok r ∧ Int.gcd |r.n| r.d = 1 ∧
      (0 < r.d ↔ (d ≠ 0 ∨ n = 0)) ∧
      (d = 0 → n ≠ 0 → r = { n := Int.sign n, d := 0 }) := by
  refine ⟨normForm ⟨n, d⟩, normalizeRat_eq _, ?_⟩
  by_cases hd : d = 0
  · subst hd
    by_cases hn : n = 0
    · subst hn; simp [normForm]
    · rw [normForm_zero_den n hn]
      refine ⟨?_, by simp [hn], fun _ _ => rfl⟩
      rcases lt_or_gt_of_ne hn with h | h
      · rw [Int.sign_eq_neg_one_of_neg h]; decide
      · rw [Int.sign_eq_one_of_pos h]; decide
  · have hc := normForm_canonical ⟨n, d⟩ hd
    exact ⟨hc.2.1, by simp [hc.1, hd], fun h => absurd h hd⟩

/-- C8: `normalizeRat` is idempotent on every pair of integers `n`, `d`, and it
returns every pair `c` with `c.d > 0` and `gcd(|c.n|, c.d) = 1` unchanged. -/
theorem normalizeRat_idempotent (n d : Int) (c : Frac) (hd : 0 < c.d)
    (hg : Int.gcd |c.n| c.d = 1) :
    (∃ r, normalizeRat ⟨n, d⟩ = .ok r ∧ normalizeRat r = .ok r) ∧
      normalizeRat c = .ok c := by
  refine ⟨⟨normForm ⟨n, d⟩, normalizeRat_eq _, ?_⟩, ?_⟩
  · rw [normalizeRat_eq, normForm_idem]
  · have hc : c.Canonical := by
      refine ⟨hd, hg, fun h0 => ?_⟩
      rw [h0] at hg
      simp only [abs_zero, Int.gcd_zero_left] at hg
      omega
    rw [normalizeRat_of_ne _ hc.d_ne, ← hc.eq_ofQ]

/-- C8, witness: the pair with n = 6, d = -4 and the canonical pair with n = -3, d = 2. -/
theorem normalizeRat_idempotent_witness :
    (0 < (⟨-3, 2⟩ : Frac).d ∧ Int.gcd |(⟨-3, 2⟩ : Frac).n| (⟨-3, 2⟩ : Frac).d = 1) ∧
      ((∃ r, normalizeRat ⟨6, -4⟩ = .ok r ∧ normalizeRat r = .ok r) ∧
        normalizeRat ⟨-3, 2⟩ = .ok ⟨-3, 2⟩) :=
  ⟨by decide, normalizeRat_idempotent 6 (-4) ⟨-3, 2⟩ (by decide) (by decide)⟩

/-- C9: canonical form (`d > 0`, `gcd(|n|, d) = 1`, `n = 0` implies `d = 1`) is
preserved by `addRat`, `subRat` and `mulRat`, and by `divRat` whenever the
divisor's numerator is non-zero, negative numerators included. -/
theorem arithmetic_preserves_canonical (a b : Frac) (ha : a.Canonical)
    (hb : b.Canonical) :
    (∃ r, addRat a b = .ok r ∧ r.Canonical) ∧
    (∃ r, subRat a b = .ok r ∧ r.Canonical) ∧
    (∃ r, mulRat a b = .ok r ∧ r.Canonical) ∧
    (b.n ≠ 0 → ∃ r, divRat a b = .ok r ∧ r.Canonical) :=
  ⟨⟨_, addRat_eq a b ha.d_ne hb.d_ne, ofQ_canonical _⟩,
   ⟨_, subRat_eq a b ha.d_ne hb.d_ne, ofQ_canonical _⟩,
   ⟨_, mulRat_eq a b ha.d_ne hb.d_ne, ofQ_canonical _⟩,
   fun h => ⟨_, divRat_eq a b ha.d_ne h, ofQ_canonical _⟩⟩

/-- C9, witness: `1/2` and `-3/4`, a divisor with a negative numerator. -/
theorem arithmetic_preserves_canonical_witness :
    ((⟨1, 2⟩ : Frac).Canonical ∧ (⟨-3, 4⟩ : Frac).Canonical) ∧
    ((∃ r, addRat ⟨1, 2⟩ ⟨-3, 4⟩ = .ok r ∧ r.Canonical) ∧
     (∃ r, subRat ⟨1, 2⟩ ⟨-3, 4⟩ = .ok r ∧ r.Canonical) ∧
     (∃ r, mulRat ⟨1, 2⟩ ⟨-3, 4⟩ = .ok r ∧ r.Canonical) ∧
     ((⟨-3, 4⟩ : Frac).n ≠ 0 → ∃ r, divRat ⟨1, 2⟩ ⟨-3, 4⟩ = .ok r ∧ r.Canonical)) :=
  ⟨by decide, arithmetic_preserves_canonical ⟨1, 2⟩ ⟨-3, 4⟩ (by decide) (by decide)⟩

/-- C10: for pairs with positive denominators, `addRat`, `subRat` and `mulRat`
return the exact sum, difference and product of the rationals `n / d`. -/
theorem arithmetic_exact (a b : Frac) (ha : 0 < a.d) (hb : 0 < b.d) :
    (∃ r, addRat a b = .ok r ∧ r.val = a.val + b.val) ∧
    (∃ r, subRat a b = .ok r ∧ r.val = a.val - b.val) ∧
    (∃ r, mulRat a b = .ok r ∧ r.val = a.val * b.val) :=
  ⟨⟨_, addRat_eq a b (ne_of_gt ha) (ne_of_gt hb), val_ofQ _⟩,
   ⟨_, subRat_eq a b (ne_of_gt ha) (ne_of_gt hb), val_ofQ _⟩,
   ⟨_, mulRat_eq a b (ne_of_gt ha) (ne_of_gt hb), val_ofQ _⟩⟩

/-- C10, witness: `2/4` and `-5/6`, neither in lowest terms. -/
theorem arithmetic_exact_witness :
    (0 < (⟨2, 4⟩ : Frac).d ∧ 0 < (⟨-5, 6⟩ : Frac).d) ∧
    ((∃ r, addRat ⟨2, 4⟩ ⟨-5, 6⟩ = .ok r ∧ r.val = (⟨2, 4⟩ : Frac).val + (⟨-5, 6⟩ : Frac).val) ∧
     (∃ r, subRat ⟨2, 4⟩ ⟨-5, 6⟩ = .ok r ∧ r.val = (⟨2, 4⟩ : Frac).val - (⟨-5, 6⟩ : Frac).val) ∧
     (∃ r, mulRat ⟨2, 4⟩ ⟨-5, 6⟩ = .ok r ∧ r.val = (⟨2, 4⟩ : Frac).val * (⟨-5, 6⟩ : Frac).val)) :=
  ⟨by decide, arithmetic_exact ⟨2, 4⟩ ⟨-5, 6⟩ (by decide) (by decide)⟩

/-! ## The Lagrange evaluator -/

@[simp] theorem ok_bind {α β : Type} (a : α) (f : α → Except JsError β) :
    (Except.ok a >>= f) = f a := rfl

theorem pure_eq_ok {α : Type} (a : α) : (pure a : Except JsError α) = Except.ok a := rfl

theorem Frac.val_mk (n d : Int) : (Frac.mk n d).val = (n : ℚ) / (d : ℚ) := rfl

theorem lagrangeTerm_nil (xs : List Int) (t : Int) (i : Nat) (term : Frac) :
    lagrangeTerm xs t i [] term = .ok term := rfl

theorem lagrangeTerm_cons_self (xs : List Int) (t : Int) (i : Nat) (js : List Nat)
    (term : Frac) : lagrangeTerm xs t i (i :: js) term = lagrangeTerm xs t i js term := by
  simp [lagrangeTerm, List.foldlM_cons, pure_eq_ok]

theorem lagrangeTerm_cons_ne (xs : List Int) (t : Int) (i j : Nat) (js : List Nat)
    (term : Frac) (h : i ≠ j) :
    lagrangeTerm xs t i (j :: js) term =
      ((normalizeRat { n := t - xs.getD j 0, d := xs.getD i 0 - xs.getD j 0 }) >>=
        fun f => mulRat term f) >>= fun r => lagrangeTerm xs t i js r := by
  simp [lagrangeTerm, List.foldlM_cons, h]

/-- No error: the inner loop returns from every starting value. -/
theorem lagrangeTerm_ok (xs : List Int) (t : Int) (i : Nat) (js : List Nat) (term : Frac) :
    ∃ r, lagrangeTerm xs t i js term = .ok r := by
  induction js generalizing term with
  | nil => exact ⟨term, rfl⟩
  | cons j js ih =>
    by_cases hij : i = j
    · subst hij
      rw [lagrangeTerm_cons_self]; exact ih term
    · rw [lagrangeTerm_cons_ne _ _ _ _ _ _ hij, normalizeRat_eq, ok_bind, mulRat,
        normalizeRat_eq, ok_bind]
      exact ih _

/-- The inner loop multiplies the starting value by every basis factor
`(t - x_j) / (x_i - x_j)` with `j ≠ i`. -/
theorem lagrangeTerm_eq (xs : List Int) (t : Int) (i : Nat) (js : List Nat) (term : Frac)
    (hterm : term.Canonical)
    (hne : ∀ j ∈ js, j ≠ i → xs.getD i 0 ≠ xs.getD j 0) :
    lagrangeTerm xs t i js term = .ok (ofQ (term.val *
      ((js.filter (fun j => j ≠ i)).map (fun j =>
        ((t : ℚ) - (xs.getD j 0 : ℚ)) / ((xs.getD i 0 : ℚ) - (xs.getD j 0 : ℚ)))).prod)) := by
  induction js generalizing term with
  | nil => simp [lagrangeTerm_nil, ← hterm.eq_ofQ]
  | cons j js ih =>
    by_cases hij : i = j
    · subst hij
      rw [lagrangeTerm_cons_self, ih term hterm (fun j hj => hne j (List.mem_cons_of_mem _ hj))]
      simp
    · have hd : xs.getD i 0 - xs.getD j 0 ≠ 0 :=
        sub_ne_zero.mpr (hne j (List.mem_cons_self _ _) (Ne.symm hij))
      rw [lagrangeTerm_cons_ne _ _ _ _ _ _ hij, normalizeRat_of_ne _ hd, ok_bind,
        mulRat_eq _ _ hterm.d_ne (ofQ_d_ne _), ok_bind]
      rw [ih _ (ofQ_canonical _) (fun j hj => hne j (List.mem_cons_of_mem _ hj))]
      have hji : j ≠ i := Ne.symm hij
      simp only [val_ofQ, Frac.val_mk, List.filter_cons, hji, ne_eq, not_false_eq_true,
        decide_True, if_true, List.map_cons, List.prod_cons]
      push_cast
      rw [mul_assoc]

theorem lagrangeSum_nil (k : Nat) (xs ys : List Int) (t : Int) (num : Frac) :
    lagrangeSum k xs ys t [] num = .ok num := rfl

theorem lagrangeSum_cons (k : Nat) (xs ys : List Int) (t : Int) (i : Nat) (is : List Nat)
    (num : Frac) :
    lagrangeSum k xs ys t (i :: is) num =
      (fromBigInt (ys.getD i 0) >>= fun term =>
        lagrangeTerm xs t i (List.range k) term >>= fun term => addRat num term) >>=
        fun r => lagrangeSum k xs ys t is r := by
  simp [lagrangeSum, List.foldlM_cons]

/-- No error: the outer loop returns from every starting value. -/
theorem lagrangeSum_ok (k : Nat) (xs ys : List Int) (t : Int) (is : List Nat) (num : Frac) :
    ∃ r, lagrangeSum k xs ys t is num = .ok r := by
  induction is generalizing num with
  | nil => exact ⟨num, rfl⟩
  | cons i is ih =>
    obtain ⟨r, hr⟩ := lagrangeTerm_ok xs t i (List.range k) ⟨ys.getD i 0, 1⟩
    rw [lagrangeSum_cons, fromBigInt_eq, ok_bind, hr, ok_bind, addRat, normalizeRat_eq, ok_bind]
    exact ih _

theorem lagrangeSum_eq (k : Nat) (xs ys : List Int) (t : Int) (is : List Nat) (num : Frac)
    (hnum : num.Canonical)
    (hne : ∀ i ∈ is, ∀ j < k, j ≠ i → xs.getD i 0 ≠ xs.getD j 0) :
    lagrangeSum k xs ys t is num =
      .ok (ofQ (num.val + (is.map (lagrangeSummand k xs ys t)).sum)) := by
  induction is generalizing num with
  | nil => simp [lagrangeSum_nil, ← hnum.eq_ofQ]
  | cons i is ih =>
    have hc : (Frac.mk (ys.getD i 0) 1).Canonical := by
      have := ofQ_canonical (ys.getD i 0 : ℚ)
      rwa [ofQ_intCast] at this
    rw [lagrangeSum_cons, fromBigInt_eq, ok_bind,
      lagrangeTerm_eq xs t i (List.range k) _ hc
        (fun j hj hji => hne i (List.mem_cons_self _ _) j (List.mem_range.mp hj) hji),
      ok_bind, addRat_eq _ _ hnum.d_ne (ofQ_d_ne _), ok_bind,
      ih _ (ofQ_canonical _) (fun i hi => hne i (List.mem_cons_of_mem _ hi))]
    simp only [val_ofQ, Frac.val_mk, List.map_cons, List.sum_cons, lagrangeSummand]
    push_cast
    rw [div_one, add_assoc]

theorem evaluateLagrangeAt_ok (k : Nat) (xs ys : List Int) (t : Int) :
    ∃ r, evaluateLagrangeAt k xs ys t = .ok r := by
  obtain ⟨r, hr⟩ := lagrangeSum_ok k xs ys t (List.range k) ⟨0, 1⟩
  refine ⟨normForm r, ?_⟩
  show (lagrangeSum k xs ys t (List.range k) ⟨0, 1⟩ >>= fun num => normalizeRat num) = _
  rw [hr, ok_bind, normalizeRat_eq]

theorem evaluateLagrangeAt_eq (k : Nat) (xs ys : List Int) (t : Int)
    (hne : ∀ i < k, ∀ j < k, j ≠ i → xs.getD i 0 ≠ xs.getD j 0) :
    evaluateLagrangeAt k xs ys t =
      .ok (ofQ ((List.range k).map (lagrangeSummand k xs ys t)).sum) := by
  show (lagrangeSum k xs ys t (List.range k) ⟨0, 1⟩ >>= fun num => normalizeRat num) = _
  rw [lagrangeSum_eq k xs ys t _ _ (by decide)
    (fun i hi => hne i (List.mem_range.mp hi)), ok_bind,
    normalizeRat_of_ne _ (ofQ_d_ne _), val_ofQ]
  simp [Frac.val_mk]

theorem toFinset_range_eq (k : Nat) : (List.range k).toFinset = Finset.range k := by
  ext i; simp

theorem sum_lagrangeSummand_eq_interpolate (k : Nat) (xs ys : List Int) (t : Int) :
    ((List.range k).map (lagrangeSummand k xs ys t)).sum =
      Polynomial.eval (t : ℚ) (Lagrange.interpolate (Finset.range k)
        (fun i => (xs.getD i 0 : ℚ)) (fun i => (ys.getD i 0 : ℚ))) := by
  rw [Lagrange.interpolate_apply, Polynomial.eval_finset_sum,
    ← List.sum_toFinset _ (List.nodup_range k), toFinset_range_eq]
  refine Finset.sum_congr rfl fun i _ => ?_
  unfold lagrangeSummand
  rw [Polynomial.eval_mul, Polynomial.eval_C, Lagrange.basis, Polynomial.eval_prod,
    ← List.prod_toFinset _ ((List.nodup_range k).filter _), List.toFinset_filter,
    toFinset_range_eq]
  congr 1
  have : Finset.filter (fun j => decide (j ≠ i) = true) (Finset.range k) =
      (Finset.range k).erase i := by
    ext j; simp [and_comm]
  rw [this]
  refine Finset.prod_congr rfl fun j _ => ?_
  simp [Lagrange.basisDivisor, div_eq_inv_mul]

/-! ## Claims about the Lagrange evaluator -/

theorem getD_map_fst (pts : List (Int × Int)) (i : Nat) (hi : i < pts.length) :
    (pts.map Prod.fst).getD i 0 = (pts.get ⟨i, hi⟩).1 := by
  rw [List.getD_eq_getElem _ _ (by simpa using hi)]
  simp

theorem getD_map_snd (pts : List (Int × Int)) (i : Nat) (hi : i < pts.length) :
    (pts.map Prod.snd).getD i 0 = (pts.get ⟨i, hi⟩).2 := by
  rw [List.getD_eq_getElem _ _ (by simpa using hi)]
  simp

theorem nodup_getD_ne (xs : List Int) (hd : xs.Nodup) :
    ∀ i < xs.length, ∀ j < xs.length, j ≠ i → xs.getD i 0 ≠ xs.getD j 0 := by
  intro i hi j hj hji h
  rw [List.getD_eq_getElem _ _ hi, List.getD_eq_getElem _ _ hj] at h
  exact hji ((List.Nodup.getElem_inj_iff hd).mp h).symm

theorem injOn_nodes (k : Nat) (xs : List Int)
    (hne : ∀ i < k, ∀ j < k, j ≠ i → xs.getD i 0 ≠ xs.getD j 0) :
    Set.InjOn (fun i => (xs.getD i 0 : ℚ)) (Finset.range k : Set Nat) := by
  intro i hi j hj h
  by_contra hij
  simp only [Finset.coe_range, Set.mem_Iio] at hi hj
  have h2 : (xs.getD i 0 : ℚ) = (xs.getD j 0 : ℚ) := h
  exact hne i hi j hj (Ne.symm hij) (by exact_mod_cast h2)

/-- An interpolation condition over the points is one over the indices. -/
theorem forall_mem_iff_index (pts : List (Int × Int)) (P : Int → Int → Prop) :
    (∀ p ∈ pts, P p.1 p.2) ↔
      ∀ i < pts.length, P ((pts.map Prod.fst).getD i 0) ((pts.map Prod.snd).getD i 0) := by
  constructor
  · intro h i hi
    rw [getD_map_fst _ _ hi, getD_map_snd _ _ hi]
    exact h _ (List.get_mem _ _ _)
  · intro h p hp
    obtain ⟨i, hi, rfl⟩ := List.getElem_of_mem hp
    have := h i hi
    rw [getD_map_fst _ _ hi, getD_map_snd _ _ hi] at this
    exact this

theorem natDegree_le_pred_iff (q : Polynomial ℚ) (k : Nat) (hk : 1 ≤ k) :
    q.natDegree ≤ k - 1 ↔ q.degree < (k : WithBot Nat) := by
  by_cases hq : q = 0
  · subst hq
    simp only [Polynomial.natDegree_zero, Polynomial.degree_zero, zero_le, true_iff]
    exact WithBot.bot_lt_coe k
  · rw [← Polynomial.natDegree_lt_iff_degree_lt hq]
    omega

/-- C1: for `k ≥ 1` points with pairwise distinct x-values and every integer
`t`, `evaluateLagrangeAt(t)` returns a reduced pair `{n, d}` (`d > 0`,
`gcd(|n|, d) = 1`) with `n / d = q(t)`, where `q` is the unique rational
polynomial of degree at most `k - 1` through all the points. -/
theorem evaluateLagrangeAt_interpolates (pts : List (Int × Int)) (t : Int)
    (hk : 1 ≤ pts.length) (hd : (pts.map Prod.fst).Nodup) :
    ∃ r, evaluateLagrangeAt pts.length (pts.map Prod.fst) (pts.map Prod.snd) t = .ok r ∧
      0 < r.d ∧ Int.gcd |r.n| r.d = 1 ∧
      ∃ q : Polynomial ℚ, q.natDegree ≤ pts.length - 1 ∧
        (∀ p ∈ pts, q.eval (p.1 : ℚ) = (p.2 : ℚ)) ∧
        (∀ q2 : Polynomial ℚ, q2.natDegree ≤ pts.length - 1 →
          (∀ p ∈ pts, q2.eval (p.1 : ℚ) = (p.2 : ℚ)) → q2 = q) ∧
        (r.n : ℚ) / (r.d : ℚ) = q.eval (t : ℚ) := by
  have hne := nodup_getD_ne _ hd
  rw [List.length_map] at hne
  have hinj := injOn_nodes _ _ hne
  refine ⟨_, evaluateLagrangeAt_eq _ _ _ t hne, (ofQ_canonical _).1, (ofQ_canonical _).2.1,
    Lagrange.interpolate (Finset.range pts.length)
      (fun i => (((pts.map Prod.fst).getD i 0 : Int) : ℚ))
      (fun i => (((pts.map Prod.snd).getD i 0 : Int) : ℚ)), ?_, ?_, ?_, ?_⟩
  · rw [natDegree_le_pred_iff _ _ hk]
    simpa using Lagrange.degree_interpolate_lt
      (fun i => (((pts.map Prod.snd).getD i 0 : Int) : ℚ)) hinj
  · rw [forall_mem_iff_index pts (fun x y => Polynomial.eval (x : ℚ) _ = (y : ℚ))]
    intro i hi
    exact Lagrange.eval_interpolate_at_node
      (fun i => (((pts.map Prod.snd).getD i 0 : Int) : ℚ)) hinj (Finset.mem_range.mpr hi)
  · intro q2 hdeg hq2
    rw [forall_mem_iff_index pts (fun x y => Polynomial.eval (x : ℚ) q2 = (y : ℚ))] at hq2
    refine Lagrange.eq_interpolate_of_eval_eq _ hinj ?_
      (fun i hi => hq2 i (Finset.mem_range.mp hi))
    rw [Finset.card_range]
    exact (natDegree_le_pred_iff _ _ hk).mp hdeg
  · have := val_ofQ ((List.range pts.length).map
      (lagrangeSummand pts.length (pts.map Prod.fst) (pts.map Prod.snd) t)).sum
    rw [Frac.val] at this
    rw [this, sum_lagrangeSummand_eq_interpolate]

/-- C1, witness: the two points (1, 4), (2, 7) at `t = 0`. -/
theorem evaluateLagrangeAt_interpolates_witness :
    (1 ≤ [((1 : Int), (4 : Int)), (2, 7)].length ∧
      ([((1 : Int), (4 : Int)), (2, 7)].map Prod.fst).Nodup) ∧
    ∃ r, evaluateLagrangeAt [((1 : Int), (4 : Int)), (2, 7)].length
        ([((1 : Int), (4 : Int)), (2, 7)].map Prod.fst)
        ([((1 : Int), (4 : Int)), (2, 7)].map Prod.snd) 0 = .ok r ∧
      0 < r.d ∧ Int.gcd |r.n| r.d = 1 ∧
      ∃ q : Polynomial ℚ, q.natDegree ≤ [((1 : Int), (4 : Int)), (2, 7)].length - 1 ∧
        (∀ p ∈ [((1 : Int), (4 : Int)), (2, 7)], q.eval (p.1 : ℚ) = (p.2 : ℚ)) ∧
        (∀ q2 : Polynomial ℚ, q2.natDegree ≤ [((1 : Int), (4 : Int)), (2, 7)].length - 1 →
          (∀ p ∈ [((1 : Int), (4 : Int)), (2, 7)], q2.eval (p.1 : ℚ) = (p.2 : ℚ)) → q2 = q) ∧
        (r.n : ℚ) / (r.d : ℚ) = q.eval ((0 : Int) : ℚ) :=
  ⟨by decide, evaluateLagrangeAt_interpolates [(1, 4), (2, 7)] 0 (by decide) (by decide)⟩

/-- C2: for points with pairwise distinct x-values, `evaluateLagrangeAt(x_i)` is
exactly `{n: y_i, d: 1}` for every point `(x_i, y_i)` of the list. -/
theorem evaluateLagrangeAt_reproduces (pts : List (Int × Int))
    (hd : (pts.map Prod.fst).Nodup) :
    ∀ p ∈ pts, evaluateLagrangeAt pts.length (pts.map Prod.fst) (pts.map Prod.snd) p.1 =
      .ok { n := p.2, d := 1 } := by
  have hne := nodup_getD_ne _ hd
  rw [List.length_map] at hne
  have hinj := injOn_nodes _ _ hne
  rw [forall_mem_iff_index pts (fun x y =>
    evaluateLagrangeAt pts.length (pts.map Prod.fst) (pts.map Prod.snd) x = .ok ⟨y, 1⟩)]
  intro i hi
  rw [evaluateLagrangeAt_eq _ _ _ _ hne, sum_lagrangeSummand_eq_interpolate,
    Lagrange.eval_interpolate_at_node
      (fun i => (((pts.map Prod.snd).getD i 0 : Int) : ℚ)) hinj (Finset.mem_range.mpr hi),
    ofQ_intCast]

/-- C2, witness: the points (1, 4), (2, 7), (3, 12), (6, 39). -/
theorem evaluateLagrangeAt_reproduces_witness :
    ([((1 : Int), (4 : Int)), (2, 7), (3, 12), (6, 39)].map Prod.fst).Nodup ∧
    ∀ p ∈ [((1 : Int), (4 : Int)), (2, 7), (3, 12), (6, 39)],
      evaluateLagrangeAt [((1 : Int), (4 : Int)), (2, 7), (3, 12), (6, 39)].length
        ([((1 : Int), (4 : Int)), (2, 7), (3, 12), (6, 39)].map Prod.fst)
        ([((1 : Int), (4 : Int)), (2, 7), (3, 12), (6, 39)].map Prod.snd) p.1 =
      .ok { n := p.2, d := 1 } :=
  ⟨by decide, evaluateLagrangeAt_reproduces [(1, 4), (2, 7), (3, 12), (6, 39)] (by decide)⟩

/-! ## Gaussian elimination: the loops in closed form -/

theorem getD_set_eq {α : Type} (l : List α) (i j : Nat) (v d : α) (hi : i < l.length) :
    (l.set i v).getD j d = if j = i then v else l.getD j d := by
  by_cases h : j = i
  · subst h
    rw [if_pos rfl, List.getD_eq_getElem _ _ (by simpa using hi)]
    simp
  · rw [if_neg h]
    simp [List.getD_eq_getElem?_getD, List.getElem?_set, Ne.symm h]

theorem entry_setEntry (n : Nat) (M : List (List Frac)) (hM : Shape n M) (r c : Nat)
    (hr : r < n) (hc : c < n) (v : Frac) (i j : Nat) :
    entry (setEntry M r c v) i j = if i = r ∧ j = c then v else entry M i j := by
  unfold entry setEntry
  rw [getD_set_eq _ _ _ _ _ (by rw [hM.1]; exact hr)]
  by_cases hi : i = r
  · subst hi
    rw [if_pos rfl, getD_set_eq _ _ _ _ _ (by rw [hM.2 i hr]; exact hc)]
    by_cases hj : j = c <;> simp [hj]
  · simp [hi]

theorem shape_setEntry (n : Nat) (M : List (List Frac)) (hM : Shape n M) (r c : Nat)
    (v : Frac) : Shape n (setEntry M r c v) := by
  refine ⟨by simp [setEntry, hM.1], fun i hi => ?_⟩
  unfold setEntry
  by_cases hr : r < n
  · rw [getD_set_eq _ _ _ _ _ (by rw [hM.1]; exact hr)]
    by_cases h : i = r
    · subst h
      rw [if_pos rfl, List.length_set]
      exact hM.2 i hi
    · rw [if_neg h]
      exact hM.2 i hi
  · rw [List.set_eq_of_length_le (by rw [hM.1]; omega)]
    exact hM.2 i hi

theorem normalizeRow_nil (M : List (List Frac)) (col : Nat) (pivVal : Frac) :
    normalizeRow M col pivVal [] = .ok M := rfl

theorem normalizeRow_cons (M : List (List Frac)) (col : Nat) (pivVal : Frac) (c : Nat)
    (cs : List Nat) :
    normalizeRow M col pivVal (c :: cs) =
      divRat (entry M col c) pivVal >>= fun v =>
        normalizeRow (setEntry M col c v) col pivVal cs := by
  simp [normalizeRow, List.foldlM_cons, pure_eq_ok]

theorem normalizeRow_spec (n : Nat) (col : Nat) (pivVal : Frac) (hcol : col < n)
    (hp : pivVal.n ≠ 0) (cs : List Nat) (M : List (List Frac)) (hM : Shape n M)
    (hcs : ∀ c ∈ cs, c < n) (hnd : cs.Nodup) (hden : ∀ c ∈ cs, (entry M col c).d ≠ 0) :
    ∃ M2, normalizeRow M col pivVal cs = .ok M2 ∧ Shape n M2 ∧
      ∀ i j, entry M2 i j =
        if i = col ∧ j ∈ cs then ofQ ((entry M col j).val / pivVal.val) else entry M i j := by
  induction cs generalizing M with
  | nil => exact ⟨M, rfl, hM, fun i j => by simp⟩
  | cons c cs ih =>
    have hc : c < n := hcs c (List.mem_cons_self _ _)
    have hcn : c ∉ cs := (List.nodup_cons.mp hnd).1
    rw [normalizeRow_cons, divRat_eq _ _ (hden c (List.mem_cons_self _ _)) hp, ok_bind]
    have hE := entry_setEntry n M hM col c hcol hc
      (ofQ ((entry M col c).val / pivVal.val))
    obtain ⟨M2, h1, h2, h3⟩ := ih (setEntry M col c _) (shape_setEntry n M hM col c _)
      (fun c2 h => hcs c2 (List.mem_cons_of_mem _ h)) (List.nodup_cons.mp hnd).2
      (fun c2 h => by
        rw [hE, if_neg (by rintro ⟨-, rfl⟩; exact hcn h)]
        exact hden c2 (List.mem_cons_of_mem _ h))
    refine ⟨M2, h1, h2, fun i j => ?_⟩
    rw [h3 i j]
    by_cases hi : i = col
    · subst hi
      by_cases hj : j ∈ cs
      · have hjc : j ≠ c := fun h => hcn (h ▸ hj)
        simp [hj, hE, hjc]
      · by_cases hjc : j = c
        · subst hjc; simp [hj, hE]
        · simp [hj, hjc, hE]
    · simp [hi, hE]

theorem eliminateRow_nil (M : List (List Frac)) (col r : Nat) (factor : Frac) :
    eliminateRow M col r factor [] = .ok M := rfl

theorem eliminateRow_cons (M : List (List Frac)) (col r : Nat) (factor : Frac) (c : Nat)
    (cs : List Nat) :
    eliminateRow M col r factor (c :: cs) =
      mulRat factor (entry M col c) >>= fun p => subRat (entry M r c) p >>= fun v =>
        eliminateRow (setEntry M r c v) col r factor cs := by
  simp [eliminateRow, List.foldlM_cons, pure_eq_ok]

theorem eliminateRow_spec (n : Nat) (col r : Nat) (factor : Frac) (hr : r < n)
    (hrc : r ≠ col) (hf : factor.d ≠ 0) (cs : List Nat) (M : List (List Frac))
    (hM : Shape n M) (hcs : ∀ c ∈ cs, c < n) (hnd : cs.Nodup)
    (hden : ∀ c ∈ cs, (entry M col c).d ≠ 0 ∧ (entry M r c).d ≠ 0) :
    ∃ M2, eliminateRow M col r factor cs = .ok M2 ∧ Shape n M2 ∧
      ∀ i j, entry M2 i j =
        if i = r ∧ j ∈ cs then
          ofQ ((entry M r j).val - factor.val * (entry M col j).val)
        else entry M i j := by
  induction cs generalizing M with
  | nil => exact ⟨M, rfl, hM, fun i j => by simp⟩
  | cons c cs ih =>
    have hc : c < n := hcs c (List.mem_cons_self _ _)
    have hcn : c ∉ cs := (List.nodup_cons.mp hnd).1
    obtain ⟨hd1, hd2⟩ := hden c (List.mem_cons_self _ _)
    rw [eliminateRow_cons, mulRat_eq _ _ hf hd1, ok_bind, subRat_eq _ _ hd2 (ofQ_d_ne _),
      ok_bind, val_ofQ]
    have hE := entry_setEntry n M hM r c hr hc
      (ofQ ((entry M r c).val - factor.val * (entry M col c).val))
    obtain ⟨M2, h1, h2, h3⟩ := ih (setEntry M r c _) (shape_setEntry n M hM r c _)
      (fun c2 h => hcs c2 (List.mem_cons_of_mem _ h)) (List.nodup_cons.mp hnd).2
      (fun c2 h => by
        rw [hE, hE, if_neg (by rintro ⟨h0, -⟩; exact hrc h0.symm),
          if_neg (by rintro ⟨-, rfl⟩; exact hcn h)]
        exact hden c2 (List.mem_cons_of_mem _ h))
    refine ⟨M2, h1, h2, fun i j => ?_⟩
    rw [h3 i j]
    have hcr : ¬ col = r := fun h => hrc h.symm
    by_cases hi : i = r
    · subst hi
      by_cases hj : j ∈ cs
      · have hjc : j ≠ c := fun h => hcn (h ▸ hj)
        simp [hj, hE, hjc, hcr]
      · by_cases hjc : j = c
        · subst hjc; simp [hj, hE]
        · simp [hj, hjc, hE]
    · simp [hi, hE]

theorem bentry_set (B : List Frac) (r : Nat) (v : Frac) (hr : r < B.length) (i : Nat) :
    bentry (B.set r v) i = if i = r then v else bentry B i :=
  getD_set_eq B r i v _ hr

theorem eliminateBelow_nil (n col : Nat) (s : List (List Frac) × List Frac) :
    eliminateBelow n col [] s = .ok s := rfl

theorem eliminateBelow_cons_zero (n col r : Nat) (rs : List Nat)
    (s : List (List Frac) × List Frac) (h : (entry s.1 r col).n = 0) :
    eliminateBelow n col (r :: rs) s = eliminateBelow n col rs s := by
  simp [eliminateBelow, List.foldlM_cons, pure_eq_ok, h]

theorem eliminateBelow_cons_ne (n col r : Nat) (rs : List Nat)
    (s : List (List Frac) × List Frac) (h : (entry s.1 r col).n ≠ 0) :
    eliminateBelow n col (r :: rs) s =
      eliminateRow s.1 col r (entry s.1 r col) (List.range' col (n - col)) >>= fun M =>
        mulRat (entry s.1 r col) (bentry s.2 col) >>= fun p =>
          subRat (bentry s.2 r) p >>= fun v =>
            eliminateBelow n col rs (M, s.2.set r v) := by
  simp [eliminateBelow, List.foldlM_cons, pure_eq_ok, h]

theorem mem_range'_iff (col n j : Nat) (hcol : col ≤ n) :
    j ∈ List.range' col (n - col) ↔ col ≤ j ∧ j < n := by
  rw [List.mem_range'_1]; omega

theorem nodup_range' (s m : Nat) : (List.range' s m).Nodup := List.nodup_range' s m

theorem eliminateBelow_spec (n col : Nat) (hcol : col < n) (rs : List Nat)
    (M : List (List Frac)) (B : List Frac) (hM : Shape n M) (hB : B.length = n)
    (hD : Dens n M B) (hrs : ∀ r ∈ rs, r < n ∧ r ≠ col) (hnd : rs.Nodup) :
    ∃ M2 B2, eliminateBelow n col rs (M, B) = .ok (M2, B2) ∧ Shape n M2 ∧ B2.length = n ∧
      (∀ i j, entry M2 i j =
        if i ∈ rs ∧ (entry M i col).n ≠ 0 ∧ (col ≤ j ∧ j < n) then
          ofQ ((entry M i j).val - (entry M i col).val * (entry M col j).val)
        else entry M i j) ∧
      (∀ i, bentry B2 i =
        if i ∈ rs ∧ (entry M i col).n ≠ 0 then
          ofQ ((bentry B i).val - (entry M i col).val * (bentry B col).val)
        else bentry B i) := by
  induction rs generalizing M B with
  | nil => exact ⟨M, B, rfl, hM, hB, fun i j => by simp, fun i => by simp⟩
  | cons r rs ih =>
    obtain ⟨hr, hrc⟩ := hrs r (List.mem_cons_self _ _)
    have hrn : r ∉ rs := (List.nodup_cons.mp hnd).1
    have hrs2 : ∀ r2 ∈ rs, r2 < n ∧ r2 ≠ col := fun r2 h => hrs r2 (List.mem_cons_of_mem _ h)
    by_cases hz : (entry M r col).n = 0
    · rw [eliminateBelow_cons_zero n col r rs (M, B) hz]
      obtain ⟨M2, B2, h1, h2, h3, h4, h5⟩ := ih M B hM hB hD hrs2 (List.nodup_cons.mp hnd).2
      refine ⟨M2, B2, h1, h2, h3, fun i j => ?_, fun i => ?_⟩
      · rw [h4 i j]
        by_cases hi : i = r
        · subst hi; simp [hrn, hz]
        · simp [hi]
      · rw [h5 i]
        by_cases hi : i = r
        · subst hi; simp [hrn, hz]
        · simp [hi]
    · obtain ⟨M1, e1, hM1, hE1⟩ := eliminateRow_spec n col r (entry M r col) hr hrc
        (hD.1 r hr col hcol) (List.range' col (n - col)) M hM
        (fun c hc => ((mem_range'_iff col n c hcol.le).mp hc).2) (nodup_range' _ _)
        (fun c hc => ⟨hD.1 col hcol c ((mem_range'_iff col n c hcol.le).mp hc).2,
          hD.1 r hr c ((mem_range'_iff col n c hcol.le).mp hc).2⟩)
      rw [eliminateBelow_cons_ne n col r rs (M, B) hz]
      simp only []
      rw [e1, ok_bind, mulRat_eq _ _ (hD.1 r hr col hcol) (hD.2 col hcol), ok_bind,
        subRat_eq _ _ (hD.2 r hr) (ofQ_d_ne _), ok_bind, val_ofQ]
      have hB1 := bentry_set B r (ofQ ((bentry B r).val -
        (entry M r col).val * (bentry B col).val)) (by rw [hB]; exact hr)
      have hD1 : Dens n M1 (B.set r (ofQ ((bentry B r).val -
          (entry M r col).val * (bentry B col).val))) := by
        refine ⟨fun i hi j hj => ?_, fun i hi => ?_⟩
        · rw [hE1 i j]
          split_ifs
          · exact ofQ_d_ne _
          · exact hD.1 i hi j hj
        · rw [hB1 i]
          split_ifs
          · exact ofQ_d_ne _
          · exact hD.2 i hi
      obtain ⟨M2, B2, h1, h2, h3, h4, h5⟩ := ih M1 _ hM1 (by rw [List.length_set]; exact hB)
        hD1 hrs2 (List.nodup_cons.mp hnd).2
      refine ⟨M2, B2, h1, h2, h3, fun i j => ?_, fun i => ?_⟩
      · rw [h4 i j]
        have hcr : ¬ col = r := fun h => hrc h.symm
        by_cases hi : i = r
        · subst hi
          simp only [hrn, false_and, if_false, List.mem_cons, true_or, true_and, hz,
            ne_eq, not_false_eq_true, hE1, mem_range'_iff col n j hcol.le]
        · have hic : ∀ j2, entry M1 i j2 = entry M i j2 := fun j2 => by
            rw [hE1]; simp [hi]
          have hcc : ∀ j2, entry M1 col j2 = entry M col j2 := fun j2 => by
            rw [hE1]; simp [hcr]
          simp only [hic, hcc, List.mem_cons, hi, false_or]
      · rw [h5 i]
        have hcr : ¬ col = r := fun h => hrc h.symm
        by_cases hi : i = r
        · subst hi
          simp only [hrn, false_and, if_false, List.mem_cons, true_or, true_and, hz,
            ne_eq, not_false_eq_true, hB1, if_true]
        · have hic : ∀ j2, entry M1 i j2 = entry M i j2 := fun j2 => by
            rw [hE1]; simp [hi]
          simp only [hic, List.mem_cons, hi, false_or, hB1, if_false, hcr]

theorem findPivot_none (M : List (List Frac)) (col : Nat) (rs : List Nat)
    (h : findPivot M col rs = none) : ∀ r ∈ rs, (entry M r col).n = 0 := by
  induction rs with
  | nil => intro r hr; cases hr
  | cons r rs ih =>
    unfold findPivot at h
    by_cases hz : (entry M r col).n = 0
    · simp only [hz, ne_eq, not_true_eq_false, if_false] at h
      intro r2 hr2
      rcases List.mem_cons.mp hr2 with rfl | h2
      · exact hz
      · exact ih h r2 h2
    · simp [hz] at h

theorem findPivot_some (M : List (List Frac)) (col : Nat) (rs : List Nat) (p : Nat)
    (h : findPivot M col rs = some p) : p ∈ rs ∧ (entry M p col).n ≠ 0 := by
  induction rs with
  | nil => cases h
  | cons r rs ih =>
    unfold findPivot at h
    by_cases hz : (entry M r col).n = 0
    · simp only [hz, ne_eq, not_true_eq_false, if_false] at h
      exact ⟨List.mem_cons_of_mem _ (ih h).1, (ih h).2⟩
    · simp only [ne_eq, hz, not_false_eq_true, if_true, Option.some.injEq] at h
      subst h
      exact ⟨List.mem_cons_self _ _, hz⟩

theorem getD_swapRows {α : Type} (l : List α) (d : α) (p c : Nat) (hp : p < l.length)
    (hc : c < l.length) (i : Nat) :
    (swapRows l d p c).getD i d = l.getD (swapIdx p c i) d := by
  unfold swapRows swapIdx
  rw [getD_set_eq _ _ _ _ _ (by rw [List.length_set]; exact hc)]
  by_cases h1 : i = c
  · simp [h1]
  · rw [if_neg h1, if_neg h1, getD_set_eq _ _ _ _ _ hp]
    split_ifs <;> rfl

theorem swapIdx_self (c i : Nat) : swapIdx c c i = i := by
  unfold swapIdx; split_ifs <;> simp_all

theorem swapIdx_lt (n p c i : Nat) (hp : p < n) (hc : c < n) (hi : i < n) :
    swapIdx p c i < n := by
  unfold swapIdx; split_ifs <;> assumption

theorem swapIdx_of_lt (p c i : Nat) (hcp : c ≤ p) (hi : i < c) : swapIdx p c i = i := by
  unfold swapIdx; split_ifs <;> omega

theorem swapIdx_involutive (p c i : Nat) : swapIdx p c (swapIdx p c i) = i := by
  unfold swapIdx; split_ifs <;> simp_all

/-- The rows after the conditional swap of `forwardStep`. -/
theorem swapped_rows (n : Nat) (M : List (List Frac)) (hM : Shape n M) (p col : Nat)
    (hp : p < n) (hcol : col < n) :
    Shape n (if p ≠ col then swapRows M [] p col else M) ∧
      ∀ i j, entry (if p ≠ col then swapRows M [] p col else M) i j =
        entry M (swapIdx p col i) j := by
  by_cases h : p = col
  · subst h
    simpa [swapIdx_self] using hM
  · simp only [ne_eq, h, not_false_eq_true, if_true]
    have key : ∀ i, (swapRows M [] p col).getD i [] = M.getD (swapIdx p col i) [] :=
      getD_swapRows M [] p col (by rw [hM.1]; exact hp) (by rw [hM.1]; exact hcol)
    refine ⟨⟨by simp [swapRows, hM.1], fun i hi => ?_⟩, fun i j => ?_⟩
    · rw [key]; exact hM.2 _ (swapIdx_lt n p col i hp hcol hi)
    · unfold entry; rw [key]

theorem swapped_vec (n : Nat) (B : List Frac) (hB : B.length = n) (p col : Nat)
    (hp : p < n) (hcol : col < n) :
    (if p ≠ col then swapRows B { n := 0, d := 1 } p col else B).length = n ∧
      ∀ i, bentry (if p ≠ col then swapRows B { n := 0, d := 1 } p col else B) i =
        bentry B (swapIdx p col i) := by
  by_cases h : p = col
  · subst h
    simpa [swapIdx_self] using hB
  · simp only [ne_eq, h, not_false_eq_true, if_true]
    exact ⟨by simp [swapRows, hB], fun i =>
      getD_swapRows B _ p col (by rw [hB]; exact hp) (by rw [hB]; exact hcol) i⟩

theorem forwardStep_none (n col : Nat) (s : List (List Frac) × List Frac)
    (h : findPivot s.1 col (List.range' col (n - col)) = none) :
    forwardStep n col s = .error JsError.singularMatrix := by
  unfold forwardStep; rw [h]; rfl

theorem forwardStep_some (n col p : Nat) (s : List (List Frac) × List Frac)
    (h : findPivot s.1 col (List.range' col (n - col)) = some p) :
    forwardStep n col s =
      normalizeRow (if p ≠ col then swapRows s.1 [] p col else s.1) col
        (entry (if p ≠ col then swapRows s.1 [] p col else s.1) col col)
        (List.range' col (n - col)) >>= fun M =>
      divRat (bentry (if p ≠ col then swapRows s.2 { n := 0, d := 1 } p col else s.2) col)
        (entry (if p ≠ col then swapRows s.1 [] p col else s.1) col col) >>= fun b =>
      eliminateBelow n col (List.range' (col + 1) (n - (col + 1)))
        (M, (if p ≠ col then swapRows s.2 { n := 0, d := 1 } p col else s.2).set col b) := by
  unfold forwardStep; rw [h]

/-- One elimination step in closed form: either no row from `col` on has a
non-zero cell in column `col` and the step raises the singular-matrix error, or
the step returns, and its result is described cell by cell through the matrix
`M1` reached after the pivot row has been normalised. -/
theorem forwardStep_spec (n col : Nat) (hcol : col < n) (M : List (List Frac))
    (B : List Frac) (hM : Shape n M) (hB : B.length = n) (hD : Dens n M B) :
    (forwardStep n col (M, B) = .error JsError.singularMatrix ∧
      ∀ r, col ≤ r → r < n → (entry M r col).n = 0) ∨
    ∃ p, col ≤ p ∧ p < n ∧ (entry M p col).n ≠ 0 ∧
      ∃ M1 B1 M2 B2, forwardStep n col (M, B) = .ok (M2, B2) ∧
        Shape n M2 ∧ B2.length = n ∧ Dens n M2 B2 ∧
        (∀ i j, entry M1 i j =
          if i = col ∧ (col ≤ j ∧ j < n) then
            ofQ ((entry M (swapIdx p col i) j).val / (entry M p col).val)
          else entry M (swapIdx p col i) j) ∧
        (∀ i, bentry B1 i =
          if i = col then ofQ ((bentry B (swapIdx p col i)).val / (entry M p col).val)
          else bentry B (swapIdx p col i)) ∧
        (∀ i j, entry M2 i j =
          if (col + 1 ≤ i ∧ i < n) ∧ (entry M1 i col).n ≠ 0 ∧ (col ≤ j ∧ j < n) then
            ofQ ((entry M1 i j).val - (entry M1 i col).val * (entry M1 col j).val)
          else entry M1 i j) ∧
        (∀ i, bentry B2 i =
          if (col + 1 ≤ i ∧ i < n) ∧ (entry M1 i col).n ≠ 0 then
            ofQ ((bentry B1 i).val - (entry M1 i col).val * (bentry B1 col).val)
          else bentry B1 i) := by
  cases hfp : findPivot M col (List.range' col (n - col)) with
  | none =>
    left
    refine ⟨forwardStep_none n col (M, B) hfp, fun r h1 h2 => ?_⟩
    exact findPivot_none M col _ hfp r ((mem_range'_iff col n r hcol.le).mpr ⟨h1, h2⟩)
  | some p =>
    right
    obtain ⟨hpm, hpz⟩ := findPivot_some M col _ p hfp
    obtain ⟨hp1, hp2⟩ := (mem_range'_iff col n p hcol.le).mp hpm
    refine ⟨p, hp1, hp2, hpz, ?_⟩
    have hσ : ∀ i, i < n → swapIdx p col i < n := fun i hi => swapIdx_lt n p col i hp2 hcol hi
    have hcc : swapIdx p col col = p := by simp [swapIdx]
    rw [forwardStep_some n col p (M, B) hfp]
    simp only []
    obtain ⟨hMs, hEs⟩ := swapped_rows n M hM p col hp2 hcol
    obtain ⟨hBs, hEb⟩ := swapped_vec n B hB p col hp2 hcol
    generalize (if p ≠ col then swapRows M [] p col else M) = Ms at hMs hEs ⊢
    generalize (if p ≠ col then swapRows B { n := 0, d := 1 } p col else B) = Bs at hBs hEb ⊢
    have hpiv : entry Ms col col = entry M p col := by rw [hEs, hcc]
    rw [hpiv]
    obtain ⟨M1, e1, hM1, hE1⟩ := normalizeRow_spec n col (entry M p col) hcol hpz
      (List.range' col (n - col)) _ hMs
      (fun c hc => ((mem_range'_iff col n c hcol.le).mp hc).2) (nodup_range' _ _)
      (fun c hc => by
        rw [hEs]
        exact hD.1 _ (hσ col hcol) c ((mem_range'_iff col n c hcol.le).mp hc).2)
    rw [e1, ok_bind, divRat_eq _ _ (by rw [hEb]; exact hD.2 _ (hσ col hcol)) hpz, ok_bind]
    have hE1b : ∀ i j, entry M1 i j =
        if i = col ∧ (col ≤ j ∧ j < n) then
          ofQ ((entry M (swapIdx p col i) j).val / (entry M p col).val)
        else entry M (swapIdx p col i) j := by
      intro i j
      simp only [hE1, mem_range'_iff col n j hcol.le, hEs]
      by_cases hi : i = col
      · subst hi; rfl
      · simp [hi]
    have hB1 : ∀ i, bentry (Bs.set col (ofQ ((bentry Bs col).val / (entry M p col).val))) i =
        if i = col then ofQ ((bentry B (swapIdx p col i)).val / (entry M p col).val)
        else bentry B (swapIdx p col i) := by
      intro i
      rw [bentry_set _ _ _ (by rw [hBs]; exact hcol), hEb, hEb]
      by_cases hi : i = col
      · subst hi; simp
      · simp [hi]
    have hD1 : Dens n M1 (Bs.set col (ofQ ((bentry Bs col).val / (entry M p col).val))) := by
      refine ⟨fun i hi j hj => ?_, fun i hi => ?_⟩
      · rw [hE1b]
        split_ifs
        · exact ofQ_d_ne _
        · exact hD.1 _ (hσ i hi) j hj
      · rw [hB1]
        split_ifs
        · exact ofQ_d_ne _
        · exact hD.2 _ (hσ i hi)
    obtain ⟨M2, B2, e2, hM2, hB2, hE2, hE2b⟩ := eliminateBelow_spec n col hcol
      (List.range' (col + 1) (n - (col + 1))) M1 _ hM1
      (by rw [List.length_set]; exact hBs) hD1
      (fun r hr => by
        have := (mem_range'_iff (col + 1) n r hcol).mp hr
        exact ⟨this.2, by omega⟩) (nodup_range' _ _)
    refine ⟨M1, _, M2, B2, e2, hM2, hB2, ⟨fun i hi j hj => ?_, fun i hi => ?_⟩, hE1b, hB1, ?_, ?_⟩
    · rw [hE2]
      split_ifs
      · exact ofQ_d_ne _
      · exact hD1.1 i hi j hj
    · rw [hE2b]
      split_ifs
      · exact ofQ_d_ne _
      · exact hD1.2 i hi
    · intro i j
      simp only [hE2, mem_range'_iff (col + 1) n i hcol]
    · intro i
      simp only [hE2b, mem_range'_iff (col + 1) n i hcol]

/-! ## Gaussian elimination: row operations on values -/

theorem rowSum_stepVals (n col p : Nat) (A : Nat → Nat → ℚ) (a : Nat → ℚ) (i : Nat) :
    rowSum n (stepVals col p A) a i =
      if i = col then rowSum n A a p / A p col
      else if col < i then
        rowSum n A a (swapIdx p col i) -
          A (swapIdx p col i) col * (rowSum n A a p / A p col)
      else rowSum n A a i := by
  unfold rowSum stepVals
  by_cases h1 : i = col
  · simp only [h1, if_true]
    rw [Finset.sum_div]
    exact Finset.sum_congr rfl fun j _ => by ring
  · by_cases h2 : col < i
    · simp only [h1, h2, if_true, if_false]
      rw [Finset.sum_div, Finset.mul_sum, ← Finset.sum_sub_distrib]
      exact Finset.sum_congr rfl fun j _ => by ring
    · simp only [h1, h2, if_false]

/-- A row operation step keeps the set of solutions, both of `A a = b` (`lam = 1`)
and of `A a = 0` (`lam = 0`). -/
theorem solves_stepVals (n col p : Nat) (hcp : col ≤ p) (hp : p < n)
    (A : Nat → Nat → ℚ) (b : Nat → ℚ) (hpiv : A p col ≠ 0) (lam : ℚ) (a : Nat → ℚ) :
    Solves n (stepVals col p A) (stepRhs col p A b) lam a ↔ Solves n A b lam a := by
  have hcol : col < n := lt_of_le_of_lt hcp hp
  constructor
  · intro h
    have hP : rowSum n A a p = lam * b p := by
      have := h col hcol
      rw [rowSum_stepVals, if_pos rfl] at this
      simp only [stepRhs, if_true] at this
      field_simp at this
      linarith
    intro i hi
    by_cases hip : i = p
    · rw [hip]; exact hP
    · by_cases hic : i = col
      · -- row `col` of `A` sits at position `p` after the swap, and `col < p`
        have hlt : col < p := lt_of_le_of_ne hcp (fun h0 => hip (hic.trans h0))
        have := h p hp
        rw [rowSum_stepVals, if_neg (ne_of_gt hlt), if_pos hlt] at this
        have hs : swapIdx p col p = col := by
          unfold swapIdx; rw [if_neg (ne_of_gt hlt), if_pos rfl]
        simp only [stepRhs, if_neg (ne_of_gt hlt), if_pos hlt, hs] at this
        rw [hP] at this
        rw [hic]
        linear_combination this
      · have hs : swapIdx p col i = i := by
          unfold swapIdx; rw [if_neg hic, if_neg hip]
        have := h i hi
        rw [rowSum_stepVals, if_neg hic] at this
        simp only [stepRhs, if_neg hic, hs] at this
        by_cases h2 : col < i
        · simp only [h2, if_true] at this
          rw [hP] at this
          linear_combination this
        · simpa only [h2, if_false] using this
  · intro h i hi
    rw [rowSum_stepVals]
    unfold stepRhs
    have hP := h p hp
    by_cases h1 : i = col
    · simp only [h1, if_true]
      rw [hP]; ring
    · by_cases h2 : col < i
      · simp only [h1, h2, if_true, if_false]
        rw [hP, h _ (swapIdx_lt n p col i hp hcol hi)]
        ring
      · simp only [h1, h2, if_false]
        exact h i hi

/-- A row operation step extends the echelon condition by one column. -/
theorem ech_stepVals (n col p : Nat) (hcp : col ≤ p) (hp : p < n)
    (A : Nat → Nat → ℚ) (hpiv : A p col ≠ 0) (hE : Ech n col A) :
    Ech n (col + 1) (stepVals col p A) := by
  have hcol : col < n := lt_of_le_of_lt hcp hp
  intro i hi j hj
  unfold stepVals
  by_cases hjc : j = col
  · subst hjc
    refine ⟨fun h => ?_, fun h => ?_⟩
    · rw [if_pos h]; exact div_self hpiv
    · rw [if_neg (ne_of_gt h), if_pos h]
      field_simp
  · have hjlt : j < col := by omega
    by_cases h1 : i = col
    · rw [if_pos h1]
      have h0 : A p j = 0 := (hE p hp j hjlt).2 (by omega)
      refine ⟨fun h => by omega, fun _ => by rw [h0, zero_div]⟩
    · by_cases h2 : col < i
      · rw [if_neg h1, if_pos h2]
        have hs : j < swapIdx p col i := by
          unfold swapIdx; split_ifs <;> omega
        have h0 : A p j = 0 := (hE p hp j hjlt).2 (by omega)
        have h3 : A (swapIdx p col i) j = 0 :=
          (hE _ (swapIdx_lt n p col i hp hcol hi) j hjlt).2 hs
        refine ⟨fun h => by omega, fun _ => by rw [h0, h3]; ring⟩
      · rw [if_neg h1, if_neg h2]
        exact hE i hi j hjlt

theorem mval_eq_zero_iff (n : Nat) (M : List (List Frac)) (B : List Frac) (hD : Dens n M B)
    (i j : Nat) (hi : i < n) (hj : j < n) : mval M i j = 0 ↔ (entry M i j).n = 0 :=
  Frac.val_eq_zero_iff _ (hD.1 i hi j hj)

/-- The values after a successful elimination step are those of the row
operation `stepVals`, `stepRhs`. -/
theorem forwardStep_vals (n col : Nat) (hcol : col < n) (M : List (List Frac))
    (B : List Frac) (hM : Shape n M) (hB : B.length = n) (hD : Dens n M B)
    (hE : Ech n col (mval M)) :
    (forwardStep n col (M, B) = .error JsError.singularMatrix ∧
      ∀ r, col ≤ r → r < n → mval M r col = 0) ∨
    ∃ p, col ≤ p ∧ p < n ∧ mval M p col ≠ 0 ∧
      ∃ M2 B2, forwardStep n col (M, B) = .ok (M2, B2) ∧
        Shape n M2 ∧ B2.length = n ∧ Dens n M2 B2 ∧
        (∀ i < n, ∀ j < n, mval M2 i j = stepVals col p (mval M) i j) ∧
        (∀ i < n, bval B2 i = stepRhs col p (mval M) (bval B) i) := by
  rcases forwardStep_spec n col hcol M B hM hB hD with ⟨he, hz⟩ | ⟨p, hp1, hp2, hpz, M1, B1,
    M2, B2, e, hM2, hB2, hD2, hE1, hB1, hE2, hE2b⟩
  · left
    exact ⟨he, fun r h1 h2 => (mval_eq_zero_iff n M B hD r col h2 hcol).mpr (hz r h1 h2)⟩
  · right
    have hpv : mval M p col ≠ 0 := fun h =>
      hpz ((mval_eq_zero_iff n M B hD p col hp2 hcol).mp h)
    have hσ : ∀ i, i < n → swapIdx p col i < n := fun i hi => swapIdx_lt n p col i hp2 hcol hi
    have hcc : swapIdx p col col = p := by simp [swapIdx]
    -- values after the normalisation of the pivot row
    have hV1 : ∀ i < n, ∀ j < n, (entry M1 i j).val =
        if i = col then mval M p j / mval M p col else mval M (swapIdx p col i) j := by
      intro i hi j hj
      rw [hE1]
      by_cases h1 : i = col
      · subst h1
        by_cases h2 : i ≤ j
        · simp only [h2, hj, and_self, if_true, val_ofQ, hcc, mval]
        · have h0 : mval M p j = 0 := (hE p hp2 j (by omega)).2 (by omega)
          simp only [h2, false_and, and_false, if_false, if_true, hcc]
          rw [h0, zero_div]; exact h0
      · simp only [h1, false_and, if_false, mval]
    have hVb1 : ∀ i < n, (bentry B1 i).val =
        if i = col then bval B p / mval M p col else bval B (swapIdx p col i) := by
      intro i hi
      rw [hB1]
      by_cases h1 : i = col
      · simp only [h1, if_true, val_ofQ, hcc, bval, mval]
      · simp only [h1, if_false, bval]
    have hD1 : ∀ i < n, (entry M1 i col).d ≠ 0 := by
      intro i hi
      rw [hE1]
      split_ifs
      · exact ofQ_d_ne _
      · exact hD.1 _ (hσ i hi) col hcol
    refine ⟨p, hp1, hp2, hpv, M2, B2, e, hM2, hB2, hD2, fun i hi j hj => ?_, fun i hi => ?_⟩
    · show (entry M2 i j).val = stepVals col p (mval M) i j
      unfold stepVals
      rw [hE2]
      by_cases h1 : i = col
      · have hn : ¬ (col + 1 ≤ i ∧ i < n) := by omega
        rw [if_neg (fun h => hn h.1), hV1 i hi j hj, if_pos h1, if_pos h1]
      · by_cases h2 : col < i
        · rw [if_neg h1, if_pos h2]
          by_cases h3 : (entry M1 i col).n = 0
          · have hz : mval M (swapIdx p col i) col = 0 := by
              have := (Frac.val_eq_zero_iff _ (hD1 i hi)).mpr h3
              rwa [hV1 i hi col hcol, if_neg h1] at this
            rw [if_neg (fun h => h.2.1 h3), hV1 i hi j hj, if_neg h1, hz]
            ring
          · by_cases h4 : col ≤ j
            · rw [if_pos ⟨⟨h2, hi⟩, h3, h4, hj⟩, val_ofQ, hV1 i hi j hj, hV1 i hi col hcol,
                hV1 col hcol j hj, if_neg h1, if_pos rfl, if_neg h1]
            · rw [if_neg (fun h => h4 h.2.2.1), hV1 i hi j hj, if_neg h1]
              have h0 : mval M p j = 0 := (hE p hp2 j (by omega)).2 (by omega)
              rw [h0]; ring
        · have hn : ¬ (col + 1 ≤ i ∧ i < n) := by omega
          rw [if_neg (fun h => hn h.1), hV1 i hi j hj, if_neg h1, if_neg h1, if_neg h2,
            swapIdx_of_lt p col i hp1 (by omega)]
    · show (bentry B2 i).val = stepRhs col p (mval M) (bval B) i
      unfold stepRhs
      rw [hE2b]
      by_cases h1 : i = col
      · have hn : ¬ (col + 1 ≤ i ∧ i < n) := by omega
        rw [if_neg (fun h => hn h.1), hVb1 i hi, if_pos h1, if_pos h1]
      · by_cases h2 : col < i
        · rw [if_neg h1, if_pos h2]
          by_cases h3 : (entry M1 i col).n = 0
          · have hz : mval M (swapIdx p col i) col = 0 := by
              have := (Frac.val_eq_zero_iff _ (hD1 i hi)).mpr h3
              rwa [hV1 i hi col hcol, if_neg h1] at this
            rw [if_neg (fun h => h.2 h3), hVb1 i hi, if_neg h1, hz]
            ring
          · rw [if_pos ⟨⟨h2, hi⟩, h3⟩, val_ofQ, hVb1 i hi, hV1 i hi col hcol,
              hVb1 col hcol, if_neg h1, if_pos rfl, if_neg h1]
        · have hn : ¬ (col + 1 ≤ i ∧ i < n) := by omega
          rw [if_neg (fun h => hn h.1), hVb1 i hi, if_neg h1, if_neg h1, if_neg h2,
            swapIdx_of_lt p col i hp1 (by omega)]

theorem rowSum_update (n : Nat) (A : Nat → Nat → ℚ) (a : Nat → ℚ) (i k : Nat) (v : ℚ)
    (hk : k < n) :
    rowSum n A (Function.update a k v) i = rowSum n A a i + A i k * (v - a k) := by
  unfold rowSum
  have h : ∀ j ∈ Finset.range n, A i j * Function.update a k v j =
      A i j * a j + (if j = k then A i k * (v - a k) else 0) := by
    intro j _
    by_cases hj : j = k
    · subst hj; simp; ring
    · simp [hj]
  rw [Finset.sum_congr rfl h, Finset.sum_add_distrib, Finset.sum_ite_eq']
  simp [hk]

/-- With the first `c` columns in echelon form and no non-zero value in column
`c` from row `c` on, the homogeneous system has a solution with `a c = 1`. -/
theorem singular_of_no_pivot (n c : Nat) (hc : c < n) (A : Nat → Nat → ℚ) (b : Nat → ℚ)
    (hE : Ech n c A) (hz : ∀ r, c ≤ r → r < n → A r c = 0) :
    ∃ a : Nat → ℚ, (∃ j < n, a j ≠ 0) ∧ Solves n A b 0 a := by
  have key : ∀ k, k ≤ c → ∃ a : Nat → ℚ, a c = 1 ∧
      ∀ i, c - k ≤ i → i < n → rowSum n A a i = 0 := by
    intro k
    induction k with
    | zero =>
      intro _
      refine ⟨fun j => if j = c then 1 else 0, by simp, fun i hi hin => ?_⟩
      unfold rowSum
      simp only [mul_ite, mul_one, mul_zero, Finset.sum_ite_eq', Finset.mem_range, hc, if_true]
      exact hz i (by omega) hin
    | succ k ih =>
      intro hk
      obtain ⟨a, ha1, ha2⟩ := ih (by omega)
      have hlt : c - (k + 1) < n := by omega
      have hne : c ≠ c - (k + 1) := by omega
      refine ⟨Function.update a (c - (k + 1)) (a (c - (k + 1)) - rowSum n A a (c - (k + 1))),
        by rw [Function.update_noteq hne]; exact ha1, fun i hi hin => ?_⟩
      rw [rowSum_update n A a i _ _ hlt]
      by_cases hi2 : i = c - (k + 1)
      · subst hi2
        rw [(hE _ hin _ (by omega)).1 rfl]; ring
      · rw [(hE i hin (c - (k + 1)) (by omega)).2 (by omega), ha2 i (by omega) hin]; ring
  obtain ⟨a, ha1, ha2⟩ := key c le_rfl
  refine ⟨a, ⟨c, hc, by rw [ha1]; exact one_ne_zero⟩, fun i hi => ?_⟩
  rw [ha2 i (by omega) hi, zero_mul]

/-- A matrix in full echelon form has only the zero solution of the homogeneous
system. -/
theorem kernel_trivial_of_ech (n : Nat) (A : Nat → Nat → ℚ) (b : Nat → ℚ) (hE : Ech n n A)
    (a : Nat → ℚ) (ha : Solves n A b 0 a) : ∀ j < n, a j = 0 := by
  have key : ∀ k, ∀ i, n - k ≤ i → i < n → a i = 0 := by
    intro k
    induction k with
    | zero => intro i h1 h2; omega
    | succ k ih =>
      intro i h1 h2
      by_cases h3 : n - k ≤ i
      · exact ih i h3 h2
      · have hrow := ha i h2
        rw [zero_mul] at hrow
        unfold rowSum at hrow
        rw [Finset.sum_eq_single i] at hrow
        · rw [(hE i h2 i h2).1 rfl, one_mul] at hrow
          exact hrow
        · intro j hj hji
          rcases lt_or_gt_of_ne hji with h | h
          · rw [(hE i h2 j (Finset.mem_range.mp hj)).2 h, zero_mul]
          · rw [ih j (by omega) (Finset.mem_range.mp hj), mul_zero]
        · intro h; exact absurd (Finset.mem_range.mpr h2) h
  intro j hj
  exact key n j (by omega) hj

theorem solves_congr (n : Nat) (A A2 : Nat → Nat → ℚ) (b b2 : Nat → ℚ)
    (hA : ∀ i < n, ∀ j < n, A i j = A2 i j) (hb : ∀ i < n, b i = b2 i) (lam : ℚ)
    (a : Nat → ℚ) : Solves n A b lam a ↔ Solves n A2 b2 lam a := by
  unfold Solves rowSum
  refine forall_congr' fun i => forall_congr' fun hi => ?_
  rw [hb i hi, Finset.sum_congr rfl fun j hj => by rw [hA i hi j (Finset.mem_range.mp hj)]]

theorem ech_congr (n c : Nat) (hc : c ≤ n) (A A2 : Nat → Nat → ℚ)
    (hA : ∀ i < n, ∀ j < n, A i j = A2 i j) (hE : Ech n c A) : Ech n c A2 := by
  intro i hi j hj
  rw [← hA i hi j (by omega)]
  exact hE i hi j hj

@[simp] theorem error_bind {α β : Type} (e : JsError) (f : α → Except JsError β) :
    (Except.error e >>= f) = Except.error e := rfl

theorem forward_nil (n : Nat) (s : List (List Frac) × List Frac) :
    forward n [] s = .ok s := rfl

theorem forward_cons (n c : Nat) (cs : List Nat) (s : List (List Frac) × List Frac) :
    forward n (c :: cs) s = forwardStep n c s >>= fun s2 => forward n cs s2 := by
  simp [forward, List.foldlM_cons]

/-- Forward elimination from column `c` on: it either returns a matrix in full
echelon form whose systems have the same solutions as those of the input, or it
raises the singular-matrix error and the input has a non-zero solution of its
homogeneous system. No other error is possible. -/
theorem forward_spec (n m : Nat) :
    ∀ (c : Nat) (M : List (List Frac)) (B : List Frac), c + m = n → Shape n M →
      B.length = n → Dens n M B → Ech n c (mval M) →
      (∃ M2 B2, forward n (List.range' c m) (M, B) = .ok (M2, B2) ∧ Shape n M2 ∧
        B2.length = n ∧ Dens n M2 B2 ∧ Ech n n (mval M2) ∧
        ∀ lam a, Solves n (mval M2) (bval B2) lam a ↔ Solves n (mval M) (bval B) lam a) ∨
      (forward n (List.range' c m) (M, B) = .error JsError.singularMatrix ∧
        ∃ a : Nat → ℚ, (∃ j < n, a j ≠ 0) ∧ Solves n (mval M) (bval B) 0 a) := by
  induction m with
  | zero =>
    intro c M B hc hM hB hD hE
    left
    have : c = n := by omega
    subst this
    exact ⟨M, B, rfl, hM, hB, hD, hE, fun _ _ => Iff.rfl⟩
  | succ m ih =>
    intro c M B hc hM hB hD hE
    have hcn : c < n := by omega
    rw [List.range'_succ, forward_cons]
    rcases forwardStep_vals n c hcn M B hM hB hD hE with ⟨he, hz⟩ | ⟨p, hp1, hp2, hpv, M1, B1,
      e, hM1, hB1, hD1, hV, hVb⟩
    · right
      rw [he, error_bind]
      exact ⟨rfl, singular_of_no_pivot n c hcn (mval M) (bval B) hE hz⟩
    · rw [e, ok_bind]
      have hE1 : Ech n (c + 1) (mval M1) :=
        ech_congr n (c + 1) (by omega) _ _ (fun i hi j hj => (hV i hi j hj).symm)
          (ech_stepVals n c p hp1 hp2 (mval M) hpv hE)
      have hS : ∀ lam a, Solves n (mval M1) (bval B1) lam a ↔
          Solves n (mval M) (bval B) lam a := fun lam a =>
        (solves_congr n _ _ _ _ hV hVb lam a).trans
          (solves_stepVals n c p hp1 hp2 (mval M) (bval B) hpv lam a)
      rcases ih (c + 1) M1 B1 (by omega) hM1 hB1 hD1 hE1 with
        ⟨M2, B2, e2, hM2, hB2, hD2, hE2, hS2⟩ | ⟨e2, a, ha, hs⟩
      · left
        exact ⟨M2, B2, e2, hM2, hB2, hD2, hE2, fun lam a => (hS2 lam a).trans (hS lam a)⟩
      · right
        exact ⟨e2, a, ha, (hS 0 a).mp hs⟩

/-! ## Back substitution -/

theorem backSum_nil (M : List (List Frac)) (x : List Frac) (i : Nat) (sum : Frac) :
    backSum M x i [] sum = .ok sum := rfl

theorem backSum_cons (M : List (List Frac)) (x : List Frac) (i j : Nat) (js : List Nat)
    (sum : Frac) :
    backSum M x i (j :: js) sum =
      mulRat (entry M i j) (bentry x j) >>= fun p => addRat sum p >>= fun s =>
        backSum M x i js s := by
  simp [backSum, List.foldlM_cons]

theorem backSum_spec (M : List (List Frac)) (x : List Frac) (i : Nat) (js : List Nat)
    (sum : Frac) (hs : sum.Canonical)
    (hd : ∀ j ∈ js, (entry M i j).d ≠ 0 ∧ (bentry x j).d ≠ 0) :
    backSum M x i js sum =
      .ok (ofQ (sum.val + (js.map (fun j => mval M i j * bval x j)).sum)) := by
  induction js generalizing sum with
  | nil => simp [backSum_nil, ← hs.eq_ofQ]
  | cons j js ih =>
    obtain ⟨h1, h2⟩ := hd j (List.mem_cons_self _ _)
    rw [backSum_cons, mulRat_eq _ _ h1 h2, ok_bind, addRat_eq _ _ hs.d_ne (ofQ_d_ne _),
      ok_bind, ih _ (ofQ_canonical _) (fun j2 h => hd j2 (List.mem_cons_of_mem _ h))]
    simp only [val_ofQ, List.map_cons, List.sum_cons, mval, bval, add_assoc]

theorem backSubstitute_nil (n : Nat) (M : List (List Frac)) (B x : List Frac) :
    backSubstitute n M B [] x = .ok x := rfl

theorem backSubstitute_cons (n : Nat) (M : List (List Frac)) (B x : List Frac) (i : Nat)
    (is : List Nat) :
    backSubstitute n M B (i :: is) x =
      fromBigInt 0 >>= fun zero =>
        backSum M x i (List.range' (i + 1) (n - (i + 1))) zero >>= fun sum =>
          subRat (bentry B i) sum >>= fun v => backSubstitute n M B is (x.set i v) := by
  simp [backSubstitute, List.foldlM_cons, pure_eq_ok]

theorem canonical_zero : (Frac.mk 0 1).Canonical := by decide

/-- The tail sum `Σ_{i < j < n} A[i][j] * a[j]` that back substitution computes. -/
theorem backSubstitute_spec (n : Nat) (M : List (List Frac)) (B : List Frac)
    (hD : Dens n M B) (k : Nat) :
    ∀ x : List Frac, k ≤ n → x.length = n → (∀ i < n, (bentry x i).Canonical) →
      (∀ i, k ≤ i → i < n → bval x i = bval B i -
        ((List.range' (i + 1) (n - (i + 1))).map (fun j => mval M i j * bval x j)).sum) →
      ∃ x2, backSubstitute n M B (List.range k).reverse x = .ok x2 ∧ x2.length = n ∧
        (∀ i < n, (bentry x2 i).Canonical) ∧
        ∀ i < n, bval x2 i = bval B i -
          ((List.range' (i + 1) (n - (i + 1))).map (fun j => mval M i j * bval x2 j)).sum := by
  induction k with
  | zero =>
    intro x _ hx hc hs
    exact ⟨x, rfl, hx, hc, fun i hi => hs i (Nat.zero_le _) hi⟩
  | succ k ih =>
    intro x hk hx hc hs
    have hkn : k < n := by omega
    rw [List.range_succ, List.reverse_append, List.reverse_singleton, List.singleton_append,
      backSubstitute_cons, fromBigInt_eq, ok_bind,
      backSum_spec M x k _ _ canonical_zero (fun j hj => by
        have := (mem_range'_iff (k + 1) n j hkn).mp hj
        exact ⟨hD.1 k hkn j this.2, (hc j this.2).d_ne⟩),
      ok_bind, subRat_eq _ _ (hD.2 k hkn) (ofQ_d_ne _), ok_bind, val_ofQ]
    generalize hv : ofQ ((bentry B k).val - ((Frac.mk 0 1).val +
      ((List.range' (k + 1) (n - (k + 1))).map (fun j => mval M k j * bval x j)).sum)) = v
    have hset := bentry_set x k v (by rw [hx]; exact hkn)
    have hb : ∀ i, bval (x.set k v) i = if i = k then v.val else bval x i := by
      intro i
      show (bentry (x.set k v) i).val = _
      rw [hset]
      split_ifs <;> rfl
    have hsame : ∀ i, k ≤ i → ∀ j ∈ List.range' (i + 1) (n - (i + 1)),
        bval (x.set k v) j = bval x j := by
      intro i hi j hj
      have hj2 : i + 1 ≤ j := by
        rw [List.mem_range'_1] at hj; exact hj.1
      rw [hb, if_neg (by omega)]
    refine ih _ (by omega) (by rw [List.length_set]; exact hx) (fun i hi => ?_)
      (fun i hki hi => ?_)
    · rw [hset]
      split_ifs
      · rw [← hv]; exact ofQ_canonical _
      · exact hc i hi
    · rw [List.map_congr_left (fun j hj => by rw [hsame i hki j hj])]
      by_cases hik : i = k
      · subst hik
        rw [hb, if_pos rfl, ← hv, val_ofQ]
        simp [Frac.val_mk, bval]
      · rw [hb, if_neg hik]
        exact hs i (by omega) hi

theorem rowSum_of_ech (n : Nat) (A : Nat → Nat → ℚ) (hE : Ech n n A) (a : Nat → ℚ) (i : Nat)
    (hi : i < n) :
    rowSum n A a i =
      a i + ((List.range' (i + 1) (n - (i + 1))).map (fun j => A i j * a j)).sum := by
  have hl : ((List.range' (i + 1) (n - (i + 1))).map (fun j => A i j * a j)).sum =
      ∑ j in Finset.range n, if i < j then A i j * a j else 0 := by
    rw [← List.sum_toFinset _ (nodup_range' _ _), ← Finset.sum_filter]
    refine Finset.sum_congr ?_ fun _ _ => rfl
    ext j
    simp only [List.mem_toFinset, mem_range'_iff (i + 1) n j hi, Finset.mem_filter,
      Finset.mem_range]
    omega
  have hd : a i = ∑ j in Finset.range n, if j = i then a j else 0 := by
    rw [Finset.sum_ite_eq' (Finset.range n) i a, if_pos (Finset.mem_range.mpr hi)]
  rw [hl, hd, ← Finset.sum_add_distrib]
  unfold rowSum
  refine Finset.sum_congr rfl fun j hj => ?_
  have hj2 := Finset.mem_range.mp hj
  rcases lt_trichotomy j i with h | h | h
  · rw [(hE i hi j hj2).2 h, if_neg (by omega), if_neg (by omega)]; ring
  · subst h
    rw [(hE j hi j hj2).1 rfl, if_pos rfl, if_neg (by omega)]; ring
  · rw [if_neg (by omega), if_pos h]; ring

theorem bentry_replicate (n i : Nat) (v : Frac) (hv : v = Frac.mk 0 1) :
    bentry (List.replicate n v) i = Frac.mk 0 1 := by
  subst hv
  unfold bentry
  by_cases h : i < n
  · rw [List.getD_eq_getElem _ _ (by simpa using h)]; simp
  · rw [List.getD_eq_default _ _ (by simpa using h)]

/-- `gaussianSolve` on a square input whose cells have non-zero denominators:
either it returns a vector of canonical pairs that solves the system, and the
system has no other solution, or it raises the singular-matrix error and the
homogeneous system has a non-zero solution. -/
theorem gaussianSolve_spec (n : Nat) (A : List (List Frac)) (b : List Frac)
    (hA : Shape n A) (hb : b.length = n) (hD : Dens n A b) :
    (∃ x, gaussianSolve A b = .ok x ∧ x.length = n ∧ (∀ i < n, (bentry x i).Canonical) ∧
      Solves n (mval A) (bval b) 1 (bval x) ∧
      ∀ a, Solves n (mval A) (bval b) 0 a → ∀ j < n, a j = 0) ∨
    (gaussianSolve A b = .error JsError.singularMatrix ∧
      ∃ a : Nat → ℚ, (∃ j < n, a j ≠ 0) ∧ Solves n (mval A) (bval b) 0 a) := by
  have hfw := forward_spec n n 0 A b (by omega) hA hb hD (fun i _ j hj => by omega)
  rw [← List.range_eq_range'] at hfw
  have hgs : gaussianSolve A b = forward n (List.range n) (A, b) >>= fun s =>
      fromBigInt 0 >>= fun zero =>
        backSubstitute n s.1 s.2 (List.range n).reverse (List.replicate n zero) := by
    unfold gaussianSolve
    rw [hA.1]
  rcases hfw with ⟨M2, B2, e, hM2, hB2, hD2, hE2, hS⟩ | ⟨e, a, ha, hs⟩
  · left
    rw [hgs, e, ok_bind, fromBigInt_eq, ok_bind]
    obtain ⟨x, hx1, hx2, hx3, hx4⟩ := backSubstitute_spec n M2 B2 hD2 n
      (List.replicate n (Frac.mk 0 1)) le_rfl (by simp)
      (fun i _ => by rw [bentry_replicate n i _ rfl]; exact canonical_zero)
      (fun i h1 h2 => by omega)
    refine ⟨x, hx1, hx2, hx3, (hS 1 _).mp (fun i hi => ?_),
      fun a ha => kernel_trivial_of_ech n (mval M2) (bval B2) hE2 a ((hS 0 a).mpr ha)⟩
    rw [rowSum_of_ech n (mval M2) hE2 _ i hi, one_mul, hx4 i hi]
    ring
  · right
    rw [hgs, e, error_bind]
    exact ⟨rfl, a, ha, hs⟩

/-! ## The Vandermonde system and the coefficient evaluator -/

theorem vandermondeRow_spec (x : Int) (js : List Nat) (row : List Frac) (pw : Int) :
    vandermondeRow x js (row, pw) =
      .ok (row ++ (List.range js.length).map (fun m => Frac.mk (pw * x ^ m) 1),
        pw * x ^ js.length) := by
  induction js generalizing row pw with
  | nil => simp [vandermondeRow, pure_eq_ok]
  | cons j js ih =>
    have hc : vandermondeRow x (j :: js) (row, pw) =
        fromBigInt pw >>= fun v => vandermondeRow x js (row ++ [v], pw * x) := by
      simp [vandermondeRow, List.foldlM_cons, pure_eq_ok]
    have e1 : row ++ [Frac.mk pw 1] ++
          (List.range js.length).map (fun m => Frac.mk (pw * x * x ^ m) 1) =
        row ++ (List.range (j :: js).length).map (fun m => Frac.mk (pw * x ^ m) 1) := by
      rw [List.length_cons, List.range_succ_eq_map, List.map_cons, List.map_map,
        List.append_assoc, List.singleton_append, pow_zero, mul_one]
      congr 2
      refine List.map_congr_left fun m _ => ?_
      simp only [Function.comp, pow_succ]
      congr 1; ring
    have e2 : pw * x * x ^ js.length = pw * x ^ (j :: js).length := by
      rw [List.length_cons, pow_succ]; ring
    rw [hc, fromBigInt_eq, ok_bind, ih, e1, e2]

theorem getD_map_range {α : Type} (k : Nat) (f : Nat → α) (d : α) (i : Nat) (hi : i < k) :
    ((List.range k).map f).getD i d = f i := by
  rw [List.getD_eq_getElem _ _ (by rw [List.length_map, List.length_range]; exact hi)]
  simp

theorem vandermonde_spec (k : Nat) (xs : List Int) (is : List Nat) (V : List (List Frac)) :
    vandermonde k xs is V =
      .ok (V ++ is.map (fun i => (List.range k).map (fun m => Frac.mk (xs.getD i 0 ^ m) 1))) := by
  induction is generalizing V with
  | nil => simp [vandermonde, pure_eq_ok]
  | cons i is ih =>
    have hc : vandermonde k xs (i :: is) V =
        vandermondeRow (xs.getD i 0) (List.range k) ([], 1) >>= fun s =>
          vandermonde k xs is (V ++ [s.1]) := by
      simp [vandermonde, List.foldlM_cons, pure_eq_ok]
    rw [hc, vandermondeRow_spec, ok_bind, ih]
    simp

/-- The matrix `V` of the script: side `k`, `V[i][j] = x_i^j` with denominator 1. -/
theorem vandermonde_entries (k : Nat) (xs : List Int) :
    ∃ V, vandermonde k xs (List.range k) [] = .ok V ∧ Shape k V ∧
      ∀ i < k, ∀ j < k, entry V i j = Frac.mk (xs.getD i 0 ^ j) 1 := by
  refine ⟨_, vandermonde_spec k xs (List.range k) [], ⟨by simp, fun i hi => ?_⟩,
    fun i hi j hj => ?_⟩
  · rw [List.nil_append, getD_map_range k _ _ i hi, List.length_map, List.length_range]
  · unfold entry
    rw [List.nil_append, getD_map_range k _ _ i hi, getD_map_range k _ _ j hj]

theorem rhs_spec (ys : List Int) : rhs ys = .ok (ys.map (fun y => Frac.mk y 1)) := by
  unfold rhs
  induction ys with
  | nil => rfl
  | cons y ys ih =>
    rw [List.mapM_cons, fromBigInt_eq, ok_bind, ih, ok_bind]
    rfl

theorem rhs_entries (ys : List Int) :
    ∃ b, rhs ys = .ok b ∧ b.length = ys.length ∧
      ∀ i < ys.length, bentry b i = Frac.mk (ys.getD i 0) 1 := by
  refine ⟨_, rhs_spec ys, by simp, fun i hi => ?_⟩
  unfold bentry
  rw [List.getD_eq_getElem _ _ (by simpa using hi), List.getD_eq_getElem _ _ hi]
  simp

theorem polyLoop_nil (coeffs : List Frac) (t : Int) (s : Frac × Int) :
    polyLoop coeffs t [] s = .ok s := rfl

theorem polyLoop_cons (coeffs : List Frac) (t : Int) (j : Nat) (js : List Nat)
    (s : Frac × Int) :
    polyLoop coeffs t (j :: js) s =
      fromBigInt s.2 >>= fun p => mulRat (bentry coeffs j) p >>= fun term =>
        addRat s.1 term >>= fun acc => polyLoop coeffs t js (acc, s.2 * t) := by
  simp [polyLoop, List.foldlM_cons, pure_eq_ok]

theorem polyLoop_spec (coeffs : List Frac) (t : Int) (m : Nat) :
    ∀ (s : Nat) (acc : Frac), acc.Canonical →
      (∀ j, s ≤ j → j < s + m → (bentry coeffs j).d ≠ 0) →
      polyLoop coeffs t (List.range' s m) (acc, t ^ s) =
        .ok (ofQ (acc.val + ((List.range' s m).map
          (fun j => bval coeffs j * (t : ℚ) ^ j)).sum), t ^ (s + m)) := by
  induction m with
  | zero =>
    intro s acc hacc _
    simp [polyLoop_nil, ← hacc.eq_ofQ]
  | succ m ih =>
    intro s acc hacc hd
    rw [List.range'_succ, polyLoop_cons]
    simp only []
    rw [fromBigInt_eq, ok_bind, mulRat_eq _ _ (hd s le_rfl (by omega)) (by simp), ok_bind,
      addRat_eq _ _ hacc.d_ne (ofQ_d_ne _), ok_bind, ← pow_succ,
      ih (s + 1) _ (ofQ_canonical _) (fun j h1 h2 => hd j (by omega) (by omega))]
    congr 2
    · simp only [val_ofQ, Frac.val_mk, List.map_cons, List.sum_cons, bval]
      push_cast
      rw [div_one, add_assoc]
    · ring_nf

/-- `evaluatePolyWithCoeffsAt(t)` returns the canonical pair of `Σ_j a_j * t^j`. -/
theorem evaluatePolyWithCoeffsAt_eq (coeffs : List Frac) (t : Int)
    (hd : ∀ j < coeffs.length, (bentry coeffs j).d ≠ 0) :
    evaluatePolyWithCoeffsAt coeffs t =
      .ok (ofQ (∑ j in Finset.range coeffs.length, bval coeffs j * (t : ℚ) ^ j)) := by
  have h := polyLoop_spec coeffs t coeffs.length 0 ⟨0, 1⟩ canonical_zero
    (fun j _ hj => hd j (by omega))
  rw [pow_zero, ← List.range_eq_range'] at h
  show (polyLoop coeffs t (List.range coeffs.length) (⟨0, 1⟩, 1) >>= fun s =>
    normalizeRat s.1) = _
  rw [h, ok_bind, normalizeRat_of_ne _ (ofQ_d_ne _), val_ofQ,
    ← List.sum_toFinset _ (List.nodup_range _), toFinset_range_eq]
  simp [Frac.val_mk]

/-! ## Polynomials behind the Vandermonde system -/

theorem eval_coeffSum (k : Nat) (a : Nat → ℚ) (x : ℚ) :
    Polynomial.eval x (∑ j in Finset.range k, Polynomial.C (a j) * Polynomial.X ^ j) =
      ∑ j in Finset.range k, a j * x ^ j := by
  rw [Polynomial.eval_finset_sum]
  exact Finset.sum_congr rfl fun j _ => by simp

theorem degree_coeffSum_lt (k : Nat) (a : Nat → ℚ) :
    (∑ j in Finset.range k, Polynomial.C (a j) * Polynomial.X ^ j).degree <
      (k : WithBot Nat) := by
  refine lt_of_le_of_lt (Polynomial.degree_sum_le _ _) ?_
  refine (Finset.sup_lt_iff (WithBot.bot_lt_coe k)).mpr ?_
  intro j hj
  refine lt_of_le_of_lt (Polynomial.degree_C_mul_X_pow_le j (a j)) ?_
  exact WithBot.coe_lt_coe.mpr (Finset.mem_range.mp hj)

theorem coeff_coeffSum (k : Nat) (a : Nat → ℚ) (m : Nat) (hm : m < k) :
    (∑ j in Finset.range k, Polynomial.C (a j) * Polynomial.X ^ j).coeff m = a m := by
  rw [Polynomial.finset_sum_coeff]
  simp only [Polynomial.coeff_C_mul_X_pow]
  rw [Finset.sum_ite_eq (Finset.range k) m a, if_pos (Finset.mem_range.mpr hm)]

/-- A coefficient vector that solves the Vandermonde system gives the Lagrange
interpolant, so its polynomial takes the interpolant's value at every `t`. -/
theorem coeffSum_eq_interpolate (k : Nat) (v r : Nat → ℚ) (a : Nat → ℚ)
    (hinj : Set.InjOn v (Finset.range k : Set Nat))
    (h : ∀ i < k, ∑ j in Finset.range k, a j * v i ^ j = r i) (t : ℚ) :
    ∑ j in Finset.range k, a j * t ^ j =
      Polynomial.eval t (Lagrange.interpolate (Finset.range k) v r) := by
  rw [← eval_coeffSum]
  congr 1
  refine Lagrange.eq_interpolate_of_eval_eq r hinj ?_ (fun i hi => ?_)
  · rw [Finset.card_range]; exact degree_coeffSum_lt k a
  · rw [eval_coeffSum]; exact h i (Finset.mem_range.mp hi)

/-- With distinct nodes the homogeneous Vandermonde system has only the zero
solution. -/
theorem vandermonde_kernel_trivial (k : Nat) (v : Nat → ℚ) (a : Nat → ℚ)
    (hinj : Set.InjOn v (Finset.range k : Set Nat))
    (h : ∀ i < k, ∑ j in Finset.range k, a j * v i ^ j = 0) : ∀ j < k, a j = 0 := by
  have hz : (∑ j in Finset.range k, Polynomial.C (a j) * Polynomial.X ^ j) = 0 := by
    have := Lagrange.eq_interpolate_of_eval_eq (fun _ => (0 : ℚ)) hinj
      (by rw [Finset.card_range]; exact degree_coeffSum_lt k a)
      (fun i hi => by rw [eval_coeffSum]; exact h i (Finset.mem_range.mp hi))
    rw [this]
    have h0 : (fun _ : Nat => (0 : ℚ)) = 0 := rfl
    rw [h0, map_zero]
  intro j hj
  rw [← coeff_coeffSum k a j hj, hz, Polynomial.coeff_zero]

/-- With a repeated node the homogeneous Vandermonde system has a non-zero
solution: the coefficients of the product of `X - x_i` over all indices but one
of the two that repeat. -/
theorem vandermonde_kernel_of_duplicate (k : Nat) (v : Nat → ℚ) (p q : Nat) (hp : p < k)
    (hq : q < k) (hpq : p ≠ q) (hv : v p = v q) :
    ∃ a : Nat → ℚ, (∃ j < k, a j ≠ 0) ∧
      ∀ i < k, ∑ j in Finset.range k, a j * v i ^ j = 0 := by
  have hmon : (∏ i in (Finset.range k).erase q,
      (Polynomial.X - Polynomial.C (v i))).Monic :=
    Polynomial.monic_prod_of_monic _ _ fun i _ => Polynomial.monic_X_sub_C (v i)
  have hdeg : (∏ i in (Finset.range k).erase q,
      (Polynomial.X - Polynomial.C (v i))).natDegree < k := by
    rw [Polynomial.natDegree_prod_of_monic _ _ fun i _ => Polynomial.monic_X_sub_C (v i)]
    simp only [Polynomial.natDegree_X_sub_C, Finset.sum_const, smul_eq_mul, mul_one]
    rw [Finset.card_erase_of_mem (Finset.mem_range.mpr hq), Finset.card_range]
    omega
  refine ⟨fun j => (∏ i in (Finset.range k).erase q,
    (Polynomial.X - Polynomial.C (v i))).coeff j, ⟨_, hdeg, ?_⟩, fun i hi => ?_⟩
  · show Polynomial.leadingCoeff _ ≠ 0
    rw [hmon.leadingCoeff]; exact one_ne_zero
  · rw [← Polynomial.eval_eq_sum_range' hdeg, Polynomial.eval_prod]
    by_cases hiq : i = q
    · refine Finset.prod_eq_zero (Finset.mem_erase.mpr ⟨hpq, Finset.mem_range.mpr hp⟩) ?_
      rw [hiq, ← hv]; simp
    · refine Finset.prod_eq_zero (Finset.mem_erase.mpr ⟨hiq, Finset.mem_range.mpr hi⟩) ?_
      simp

/-! ## Claims about the Vandermonde path -/

/-- The system the script builds: `V` and `b` exist, are of side `k`, hold
integers over denominator 1, and their values are `x_i^j` and `y_i`. -/
theorem vandermonde_system (k : Nat) (xs ys : List Int) (hy : ys.length = k) :
    ∃ V b, vandermonde k xs (List.range k) [] = .ok V ∧ rhs ys = .ok b ∧
      (∀ i < k, ∀ j < k, entry V i j = Frac.mk (xs.getD i 0 ^ j) 1) ∧
      (∀ i < k, bentry b i = Frac.mk (ys.getD i 0) 1) ∧
      Shape k V ∧ b.length = k ∧ Dens k V b ∧
      ∀ lam a, Solves k (mval V) (bval b) lam a ↔
        ∀ i < k, ∑ j in Finset.range k, a j * (xs.getD i 0 : ℚ) ^ j =
          lam * (ys.getD i 0 : ℚ) := by
  obtain ⟨V, hV1, hV2, hV3⟩ := vandermonde_entries k xs
  obtain ⟨b, hb1, hb2, hb3⟩ := rhs_entries ys
  rw [hy] at hb2 hb3
  refine ⟨V, b, hV1, hb1, hV3, hb3, hV2, hb2, ⟨fun i hi j hj => ?_, fun i hi => ?_⟩,
    fun lam a => ?_⟩
  · rw [hV3 i hi j hj]; exact one_ne_zero
  · rw [hb3 i hi]; exact one_ne_zero
  · unfold Solves rowSum
    refine forall_congr' fun i => forall_congr' fun hi => ?_
    have e1 : bval b i = (ys.getD i 0 : ℚ) := by
      unfold bval; rw [hb3 i hi]; simp [Frac.val_mk]
    have e2 : ∑ j in Finset.range k, mval V i j * a j =
        ∑ j in Finset.range k, a j * (xs.getD i 0 : ℚ) ^ j := by
      refine Finset.sum_congr rfl fun j hj => ?_
      unfold mval
      rw [hV3 i hi j (Finset.mem_range.mp hj)]
      simp [Frac.val_mk, mul_comm]
    rw [e1, e2]

/-- For distinct nodes the solver returns coefficients whose polynomial is the
Lagrange interpolant: the coefficient evaluator returns the canonical pair of
the interpolant's value at every integer `t`. -/
theorem solve_vandermonde_core (k : Nat) (xs ys : List Int) (hy : ys.length = k)
    (hne : ∀ i < k, ∀ j < k, j ≠ i → xs.getD i 0 ≠ xs.getD j 0) :
    ∃ V b a, vandermonde k xs (List.range k) [] = .ok V ∧ rhs ys = .ok b ∧
      (∀ i < k, ∀ j < k, entry V i j = Frac.mk (xs.getD i 0 ^ j) 1) ∧
      (∀ i < k, bentry b i = Frac.mk (ys.getD i 0) 1) ∧
      gaussianSolve V b = .ok a ∧
      ∀ t : Int, evaluatePolyWithCoeffsAt a t = .ok (ofQ (Polynomial.eval (t : ℚ)
        (Lagrange.interpolate (Finset.range k) (fun i => (xs.getD i 0 : ℚ))
          (fun i => (ys.getD i 0 : ℚ))))) := by
  obtain ⟨V, b, hV, hb, hVe, hbe, hS, hbl, hD, hsol⟩ := vandermonde_system k xs ys hy
  have hinj := injOn_nodes k xs hne
  rcases gaussianSolve_spec k V b hS hbl hD with ⟨a, e, hal, hac, hs, -⟩ | ⟨-, a, ⟨j, hj, haj⟩, hs⟩
  · refine ⟨V, b, a, hV, hb, hVe, hbe, e, fun t => ?_⟩
    rw [evaluatePolyWithCoeffsAt_eq a t (fun j hj => (hac j (by rw [← hal]; exact hj)).d_ne), hal]
    congr 2
    refine coeffSum_eq_interpolate k _ _ (bval a) hinj (fun i hi => ?_) (t : ℚ)
    have := (hsol 1 (bval a)).mp hs i hi
    rw [one_mul] at this
    exact this
  · exfalso
    refine haj (vandermonde_kernel_trivial k _ a hinj (fun i hi => ?_) j hj)
    have := (hsol 0 a).mp hs i hi
    rw [zero_mul] at this
    exact this

/-- C3: for points with pairwise distinct x-values, `gaussianSolve` applied to
the Vandermonde matrix `V[i][j] = x_i^j` and the right-hand side `b[i] = y_i`
returns a coefficient vector `a` without error, and
`evaluatePolyWithCoeffsAt(x_i)` over `a` is exactly `{n: y_i, d: 1}` for every
point. -/
theorem gaussianSolve_vandermonde_reproduces (pts : List (Int × Int))
    (hd : (pts.map Prod.fst).Nodup) :
    ∃ V b a, vandermonde pts.length (pts.map Prod.fst) (List.range pts.length) [] = .ok V ∧
      rhs (pts.map Prod.snd) = .ok b ∧
      (∀ i < pts.length, ∀ j < pts.length,
        entry V i j = Frac.mk ((pts.map Prod.fst).getD i 0 ^ j) 1) ∧
      (∀ i < pts.length, bentry b i = Frac.mk ((pts.map Prod.snd).getD i 0) 1) ∧
      gaussianSolve V b = .ok a ∧
      ∀ p ∈ pts, evaluatePolyWithCoeffsAt a p.1 = .ok { n := p.2, d := 1 } := by
  have hne := nodup_getD_ne _ hd
  rw [List.length_map] at hne
  have hinj := injOn_nodes _ _ hne
  obtain ⟨V, b, a, hV, hb, hVe, hbe, e, hev⟩ :=
    solve_vandermonde_core pts.length (pts.map Prod.fst) (pts.map Prod.snd) (by simp) hne
  refine ⟨V, b, a, hV, hb, hVe, hbe, e, ?_⟩
  rw [forall_mem_iff_index pts (fun x y => evaluatePolyWithCoeffsAt a x = .ok ⟨y, 1⟩)]
  intro i hi
  rw [hev, Lagrange.eval_interpolate_at_node
    (fun i => (((pts.map Prod.snd).getD i 0 : Int) : ℚ)) hinj (Finset.mem_range.mpr hi),
    ofQ_intCast]

/-- C4: for points with pairwise distinct x-values and every integer `t`, the
value `c1` of `evaluatePolyWithCoeffsAt(t)` over the coefficients returned by
`gaussianSolve` and the value `c2` of `evaluateLagrangeAt(t)` satisfy
`c1.n * c2.d = c2.n * c1.d`, the test that prints the match. -/
theorem coefficient_path_matches_lagrange (pts : List (Int × Int)) (t : Int)
    (hd : (pts.map Prod.fst).Nodup) :
    ∃ V b a c1 c2,
      vandermonde pts.length (pts.map Prod.fst) (List.range pts.length) [] = .ok V ∧
      rhs (pts.map Prod.snd) = .ok b ∧ gaussianSolve V b = .ok a ∧
      evaluatePolyWithCoeffsAt a t = .ok c1 ∧
      evaluateLagrangeAt pts.length (pts.map Prod.fst) (pts.map Prod.snd) t = .ok c2 ∧
      c1.n * c2.d = c2.n * c1.d := by
  have hne := nodup_getD_ne _ hd
  rw [List.length_map] at hne
  obtain ⟨V, b, a, hV, hb, -, -, e, hev⟩ :=
    solve_vandermonde_core pts.length (pts.map Prod.fst) (pts.map Prod.snd) (by simp) hne
  refine ⟨V, b, a, _, _, hV, hb, e, hev t, ?_, rfl⟩
  rw [evaluateLagrangeAt_eq _ _ _ t hne, sum_lagrangeSummand_eq_interpolate]

/-- C6: when two positions of the list of x-values hold the same value,
`gaussianSolve` applied to the Vandermonde matrix `V[i][j] = x_i^j` raises the
singular-matrix error for every right-hand side of `k` integers. -/
theorem gaussianSolve_vandermonde_duplicate (xs ys : List Int) (hy : ys.length = xs.length)
    (hdup : ¬ xs.Nodup) :
    ∃ V b, vandermonde xs.length xs (List.range xs.length) [] = .ok V ∧ rhs ys = .ok b ∧
      (∀ i < xs.length, ∀ j < xs.length, entry V i j = Frac.mk (xs.getD i 0 ^ j) 1) ∧
      (∀ i < xs.length, bentry b i = Frac.mk (ys.getD i 0) 1) ∧
      gaussianSolve V b = .error JsError.singularMatrix := by
  obtain ⟨V, b, hV, hb, hVe, hbe, hS, hbl, hD, hsol⟩ := vandermonde_system xs.length xs ys hy
  refine ⟨V, b, hV, hb, hVe, hbe, ?_⟩
  rcases gaussianSolve_spec xs.length V b hS hbl hD with ⟨a, -, -, -, -, hker⟩ | ⟨e, -⟩
  · exfalso
    rw [List.nodup_iff_getElem?_ne_getElem?] at hdup
    push_neg at hdup
    obtain ⟨p, q, hpq, hq, heq⟩ := hdup
    have hp : p < xs.length := by omega
    have hv : (fun i => (xs.getD i 0 : ℚ)) p = (fun i => (xs.getD i 0 : ℚ)) q := by
      simp only [List.getD_eq_getElem?_getD, heq]
    obtain ⟨a, ⟨j, hj, haj⟩, ha⟩ := vandermonde_kernel_of_duplicate xs.length
      (fun i => (xs.getD i 0 : ℚ)) p q hp hq (by omega) hv
    refine haj (hker a ((hsol 0 a).mpr (fun i hi => ?_)) j hj)
    rw [zero_mul]; exact ha i hi
  · exact e

/-- C3, witness: the points (1, 4), (2, 7), (3, 12). -/
theorem gaussianSolve_vandermonde_reproduces_witness :
    ([((1 : Int), (4 : Int)), (2, 7), (3, 12)].map Prod.fst).Nodup ∧
    ∃ V b a, vandermonde [((1 : Int), (4 : Int)), (2, 7), (3, 12)].length
        ([((1 : Int), (4 : Int)), (2, 7), (3, 12)].map Prod.fst)
        (List.range [((1 : Int), (4 : Int)), (2, 7), (3, 12)].length) [] = .ok V ∧
      rhs ([((1 : Int), (4 : Int)), (2, 7), (3, 12)].map Prod.snd) = .ok b ∧
      (∀ i < [((1 : Int), (4 : Int)), (2, 7), (3, 12)].length,
        ∀ j < [((1 : Int), (4 : Int)), (2, 7), (3, 12)].length,
        entry V i j =
          Frac.mk (([((1 : Int), (4 : Int)), (2, 7), (3, 12)].map Prod.fst).getD i 0 ^ j) 1) ∧
      (∀ i < [((1 : Int), (4 : Int)), (2, 7), (3, 12)].length,
        bentry b i = Frac.mk (([((1 : Int), (4 : Int)), (2, 7), (3, 12)].map Prod.snd).getD i 0) 1) ∧
      gaussianSolve V b = .ok a ∧
      ∀ p ∈ [((1 : Int), (4 : Int)), (2, 7), (3, 12)],
        evaluatePolyWithCoeffsAt a p.1 = .ok { n := p.2, d := 1 } :=
  ⟨by decide, gaussianSolve_vandermonde_reproduces [(1, 4), (2, 7), (3, 12)] (by decide)⟩

/-- C4, witness: the points (1, 4), (2, 7), (3, 12) at `t = 5`. -/
theorem coefficient_path_matches_lagrange_witness :
    ([((1 : Int), (4 : Int)), (2, 7), (3, 12)].map Prod.fst).Nodup ∧
    ∃ V b a c1 c2,
      vandermonde [((1 : Int), (4 : Int)), (2, 7), (3, 12)].length
        ([((1 : Int), (4 : Int)), (2, 7), (3, 12)].map Prod.fst)
        (List.range [((1 : Int), (4 : Int)), (2, 7), (3, 12)].length) [] = .ok V ∧
      rhs ([((1 : Int), (4 : Int)), (2, 7), (3, 12)].map Prod.snd) = .ok b ∧
      gaussianSolve V b = .ok a ∧
      evaluatePolyWithCoeffsAt a 5 = .ok c1 ∧
      evaluateLagrangeAt [((1 : Int), (4 : Int)), (2, 7), (3, 12)].length
        ([((1 : Int), (4 : Int)), (2, 7), (3, 12)].map Prod.fst)
        ([((1 : Int), (4 : Int)), (2, 7), (3, 12)].map Prod.snd) 5 = .ok c2 ∧
      c1.n * c2.d = c2.n * c1.d :=
  ⟨by decide, coefficient_path_matches_lagrange [(1, 4), (2, 7), (3, 12)] 5 (by decide)⟩

/-- C6, witness: the x-values 1, 2, 1 with the right-hand side 5, 1, 3. -/
theorem gaussianSolve_vandermonde_duplicate_witness :
    (([5, 1, 3] : List Int).length = ([1, 2, 1] : List Int).length ∧
      ¬ ([1, 2, 1] : List Int).Nodup) ∧
    ∃ V b, vandermonde ([1, 2, 1] : List Int).length [1, 2, 1]
        (List.range ([1, 2, 1] : List Int).length) [] = .ok V ∧
      rhs [5, 1, 3] = .ok b ∧
      (∀ i < ([1, 2, 1] : List Int).length, ∀ j < ([1, 2, 1] : List Int).length,
        entry V i j = Frac.mk (([1, 2, 1] : List Int).getD i 0 ^ j) 1) ∧
      (∀ i < ([1, 2, 1] : List Int).length,
        bentry b i = Frac.mk (([5, 1, 3] : List Int).getD i 0) 1) ∧
      gaussianSolve V b = .error JsError.singularMatrix :=
  ⟨by decide, gaussianSolve_vandermonde_duplicate [1, 2, 1] [5, 1, 3] (by decide) (by decide)⟩

/-! ## Claims about division, constant data and the solver's errors -/

/-- C11: for pairs with positive denominators, `divRat(a, b)` raises the
division-by-zero error exactly when `b.n = 0`; otherwise it returns the
canonical pair whose value is `(a.n / a.d) * (b.d / b.n)`. -/
theorem divRat_error_iff (a b : Frac) (ha : 0 < a.d) (_hb : 0 < b.d) :
    (divRat a b = .error JsError.divisionByZero ↔ b.n = 0) ∧
    (b.n ≠ 0 → ∃ r, divRat a b = .ok r ∧ r.Canonical ∧
      r.val = ((a.n : ℚ) / (a.d : ℚ)) * ((b.d : ℚ) / (b.n : ℚ))) := by
  have key : b.n ≠ 0 → divRat a b = .ok (ofQ (a.val / b.val)) :=
    fun h => divRat_eq a b (ne_of_gt ha) h
  refine ⟨⟨fun h => ?_, fun h => ?_⟩, fun h => ⟨_, key h, ofQ_canonical _, ?_⟩⟩
  · by_contra hn
    rw [key hn] at h
    cases h
  · unfold divRat; rw [if_pos h]
  · rw [val_ofQ, Frac.val, Frac.val, div_div_eq_mul_div, mul_div_assoc]

/-- C11, witness: `1/2` divided by `-3/4`, and by `0/5`. -/
theorem divRat_error_iff_witness :
    (0 < (⟨1, 2⟩ : Frac).d ∧ 0 < (⟨-3, 4⟩ : Frac).d) ∧
    ((divRat ⟨1, 2⟩ ⟨-3, 4⟩ = .error JsError.divisionByZero ↔ (⟨-3, 4⟩ : Frac).n = 0) ∧
    ((⟨-3, 4⟩ : Frac).n ≠ 0 → ∃ r, divRat ⟨1, 2⟩ ⟨-3, 4⟩ = .ok r ∧ r.Canonical ∧
      r.val = (((⟨1, 2⟩ : Frac).n : ℚ) / ((⟨1, 2⟩ : Frac).d : ℚ)) *
        (((⟨-3, 4⟩ : Frac).d : ℚ) / ((⟨-3, 4⟩ : Frac).n : ℚ)))) :=
  ⟨by decide, divRat_error_iff ⟨1, 2⟩ ⟨-3, 4⟩ (by decide) (by decide)⟩

/-- C18: on a square matrix and a vector of the same side whose cells have
positive denominators, the only error `gaussianSolve` can raise is the
singular-matrix one; `divRat`'s division-by-zero error does not occur. -/
theorem gaussianSolve_only_singular (n : Nat) (A : List (List Frac)) (b : List Frac)
    (hA : A.length = n) (hrow : ∀ row ∈ A, row.length = n) (hb : b.length = n)
    (hAd : ∀ row ∈ A, ∀ c ∈ row, 0 < c.d) (hbd : ∀ c ∈ b, 0 < c.d) :
    ∀ e, gaussianSolve A b = .error e → e = JsError.singularMatrix := by
  have hS : Shape n A := by
    refine ⟨hA, fun i hi => ?_⟩
    rw [List.getD_eq_getElem _ _ (by rw [hA]; exact hi)]
    exact hrow _ (List.getElem_mem _)
  have hD : Dens n A b := by
    refine ⟨fun i hi j hj => ?_, fun i hi => ?_⟩
    · unfold entry
      have h1 : i < A.length := by rw [hA]; exact hi
      rw [List.getD_eq_getElem _ _ h1]
      have h2 : j < A[i].length := by rw [hrow _ (List.getElem_mem _)]; exact hj
      rw [List.getD_eq_getElem _ _ h2]
      exact ne_of_gt (hAd _ (List.getElem_mem _) _ (List.getElem_mem _))
    · unfold bentry
      rw [List.getD_eq_getElem _ _ (by rw [hb]; exact hi)]
      exact ne_of_gt (hbd _ (List.getElem_mem _))
  intro e he
  rcases gaussianSolve_spec n A b hS hb hD with ⟨x, hx, -⟩ | ⟨h, -⟩
  · rw [hx] at he; cases he
  · rw [h] at he; cases he; rfl

/-- C18, witness: a system of side 2 whose first pivot needs a row swap. -/
theorem gaussianSolve_only_singular_witness :
    (([[⟨0, 1⟩, ⟨1, 1⟩], [⟨2, 1⟩, ⟨1, 1⟩]] : List (List Frac)).length = 2 ∧
      (∀ row ∈ ([[⟨0, 1⟩, ⟨1, 1⟩], [⟨2, 1⟩, ⟨1, 1⟩]] : List (List Frac)), row.length = 2) ∧
      ([⟨3, 1⟩, ⟨5, 1⟩] : List Frac).length = 2 ∧
      (∀ row ∈ ([[⟨0, 1⟩, ⟨1, 1⟩], [⟨2, 1⟩, ⟨1, 1⟩]] : List (List Frac)),
        ∀ c ∈ row, 0 < c.d) ∧
      (∀ c ∈ ([⟨3, 1⟩, ⟨5, 1⟩] : List Frac), 0 < c.d)) ∧
    ∀ e, gaussianSolve [[⟨0, 1⟩, ⟨1, 1⟩], [⟨2, 1⟩, ⟨1, 1⟩]] [⟨3, 1⟩, ⟨5, 1⟩] = .error e →
      e = JsError.singularMatrix :=
  ⟨by decide, gaussianSolve_only_singular 2 _ _ (by decide) (by decide) (by decide)
    (by decide) (by decide)⟩

/-- C15: for `k ≥ 1` points with pairwise distinct x-values that all carry the
same y-value `c`, `evaluateLagrangeAt(t)` is exactly `{n: c, d: 1}` for every
integer `t`; in particular the points (1, 3), (2, 3) give exactly 3 at `t = 0`
and at `t = 100`. -/
theorem evaluateLagrangeAt_constant (pts : List (Int × Int)) (c t : Int)
    (hk : 1 ≤ pts.length) (hd : (pts.map Prod.fst).Nodup) (hc : ∀ p ∈ pts, p.2 = c) :
    evaluateLagrangeAt pts.length (pts.map Prod.fst) (pts.map Prod.snd) t =
        .ok { n := c, d := 1 } ∧
      evaluateLagrangeAt 2 [1, 2] [3, 3] 0 = .ok { n := 3, d := 1 } ∧
      evaluateLagrangeAt 2 [1, 2] [3, 3] 100 = .ok { n := 3, d := 1 } := by
  refine ⟨?_, by decide, by decide⟩
  have hne := nodup_getD_ne _ hd
  rw [List.length_map] at hne
  have hinj := injOn_nodes _ _ hne
  have hconst : (Polynomial.C (c : ℚ)) = Lagrange.interpolate (Finset.range pts.length)
      (fun i => (((pts.map Prod.fst).getD i 0 : Int) : ℚ))
      (fun i => (((pts.map Prod.snd).getD i 0 : Int) : ℚ)) := by
    refine Lagrange.eq_interpolate_of_eval_eq _ hinj ?_ (fun i hi => ?_)
    · rw [Finset.card_range]
      refine lt_of_le_of_lt Polynomial.degree_C_le ?_
      exact_mod_cast hk
    · rw [Polynomial.eval_C]
      have := (forall_mem_iff_index pts (fun _ y => y = c)).mp hc i (Finset.mem_range.mp hi)
      simp only at this
      rw [this]
  rw [evaluateLagrangeAt_eq _ _ _ t hne, sum_lagrangeSummand_eq_interpolate, ← hconst,
    Polynomial.eval_C, ofQ_intCast]

/-- C15, witness: the points (1, 3), (2, 3) at `t = 7`. -/
theorem evaluateLagrangeAt_constant_witness :
    (1 ≤ [((1 : Int), (3 : Int)), (2, 3)].length ∧
      ([((1 : Int), (3 : Int)), (2, 3)].map Prod.fst).Nodup ∧
      ∀ p ∈ [((1 : Int), (3 : Int)), (2, 3)], p.2 = 3) ∧
    (evaluateLagrangeAt [((1 : Int), (3 : Int)), (2, 3)].length
        ([((1 : Int), (3 : Int)), (2, 3)].map Prod.fst)
        ([((1 : Int), (3 : Int)), (2, 3)].map Prod.snd) 7 = .ok { n := 3, d := 1 } ∧
      evaluateLagrangeAt 2 [1, 2] [3, 3] 0 = .ok { n := 3, d := 1 } ∧
      evaluateLagrangeAt 2 [1, 2] [3, 3] 100 = .ok { n := 3, d := 1 }) :=
  ⟨by decide, evaluateLagrangeAt_constant [(1, 3), (2, 3)] 3 7 (by decide) (by decide)
    (by decide)⟩

/-! ## The working matrix when back substitution starts -/

/-- A property that every successful elimination step carries from column `c`
to column `c + 1` holds after the whole forward elimination. -/
theorem forward_invariant (n : Nat) (Q : Nat → List (List Frac) → Prop)
    (hstep : ∀ c M B M2 B2, c < n → Shape n M → B.length = n → Dens n M B → Q c M →
      forwardStep n c (M, B) = .ok (M2, B2) → Q (c + 1) M2) (m : Nat) :
    ∀ (c : Nat) (M : List (List Frac)) (B : List Frac) (M2 : List (List Frac))
      (B2 : List Frac), c + m = n → Shape n M → B.length = n → Dens n M B → Q c M →
      forward n (List.range' c m) (M, B) = .ok (M2, B2) → Q n M2 := by
  induction m with
  | zero =>
    intro c M B M2 B2 hc _ _ _ hQ h
    have : c = n := by omega
    subst this
    rw [List.range'_zero, forward_nil] at h
    cases h
    exact hQ
  | succ m ih =>
    intro c M B M2 B2 hc hM hB hD hQ h
    have hcn : c < n := by omega
    rw [List.range'_succ, forward_cons] at h
    rcases forwardStep_spec n c hcn M B hM hB hD with ⟨he, -⟩ | ⟨p, -, -, -, M0, B0, M1, B1,
      e, hM1, hB1, hD1, -⟩
    · rw [he, error_bind] at h; cases h
    · rw [e, ok_bind] at h
      exact ih (c + 1) M1 B1 M2 B2 (by omega) hM1 hB1 hD1
        (hstep c M B M1 B1 hcn hM hB hD hQ e) h

/-- After a successful step on column `col` the diagonal cells up to `col` are
exactly `1/1`. -/
theorem forwardStep_diag (n col : Nat) (hcol : col < n) (M : List (List Frac))
    (B : List Frac) (M2 : List (List Frac)) (B2 : List Frac) (hM : Shape n M)
    (hB : B.length = n) (hD : Dens n M B)
    (hQ : ∀ j < col, entry M j j = Frac.mk 1 1)
    (h : forwardStep n col (M, B) = .ok (M2, B2)) :
    ∀ j < col + 1, entry M2 j j = Frac.mk 1 1 := by
  rcases forwardStep_spec n col hcol M B hM hB hD with ⟨he, -⟩ | ⟨p, hp1, hp2, hpz, M1, B1,
    M3, B3, e, -, -, -, hE1, -, hE2, -⟩
  · rw [he] at h; cases h
  · rw [e] at h
    cases h
    intro j hj
    rw [hE2, if_neg (by omega), hE1]
    by_cases hjc : j = col
    · subst hjc
      have hs : swapIdx p j j = p := by simp [swapIdx]
      have hv : (entry M p j).val ≠ 0 := fun h0 =>
        hpz ((Frac.val_eq_zero_iff _ (hD.1 p hp2 j hcol)).mp h0)
      rw [if_pos ⟨rfl, le_rfl, hcol⟩, hs, div_self hv]
      rfl
    · rw [if_neg (fun h0 => hjc h0.1), swapIdx_of_lt p col j hp1 (by omega)]
      exact hQ j (by omega)

/-- A successful step keeps every cell of the matrix in canonical form. -/
theorem forwardStep_canonical (n col : Nat) (hcol : col < n) (M : List (List Frac))
    (B : List Frac) (M2 : List (List Frac)) (B2 : List Frac) (hM : Shape n M)
    (hB : B.length = n) (hD : Dens n M B)
    (hQ : ∀ i < n, ∀ j < n, (entry M i j).Canonical)
    (h : forwardStep n col (M, B) = .ok (M2, B2)) :
    ∀ i < n, ∀ j < n, (entry M2 i j).Canonical := by
  rcases forwardStep_spec n col hcol M B hM hB hD with ⟨he, -⟩ | ⟨p, hp1, hp2, hpz, M1, B1,
    M3, B3, e, -, -, -, hE1, -, hE2, -⟩
  · rw [he] at h; cases h
  · rw [e] at h
    cases h
    intro i hi j hj
    rw [hE2]
    split_ifs
    · exact ofQ_canonical _
    · rw [hE1]
      split_ifs
      · exact ofQ_canonical _
      · exact hQ _ (swapIdx_lt n p col i hp2 hcol hi) j hj

theorem shape_of_rows (n : Nat) (A : List (List Frac)) (hA : A.length = n)
    (hrow : ∀ row ∈ A, row.length = n) : Shape n A := by
  refine ⟨hA, fun i hi => ?_⟩
  rw [List.getD_eq_getElem _ _ (by rw [hA]; exact hi)]
  exact hrow _ (List.getElem_mem _)

theorem entry_mem (n : Nat) (A : List (List Frac)) (hA : A.length = n)
    (hrow : ∀ row ∈ A, row.length = n) (i j : Nat) (hi : i < n) (hj : j < n) :
    ∃ row ∈ A, entry A i j ∈ row := by
  have h1 : i < A.length := by rw [hA]; exact hi
  have h2 : j < A[i].length := by rw [hrow _ (List.getElem_mem _)]; exact hj
  refine ⟨A[i], List.getElem_mem _, ?_⟩
  unfold entry
  rw [List.getD_eq_getElem _ _ h1, List.getD_eq_getElem _ _ h2]
  exact List.getElem_mem _

theorem dens_of_rows (n : Nat) (A : List (List Frac)) (b : List Frac) (hA : A.length = n)
    (hrow : ∀ row ∈ A, row.length = n) (hb : b.length = n)
    (hAd : ∀ row ∈ A, ∀ c ∈ row, c.d ≠ 0) (hbd : ∀ c ∈ b, c.d ≠ 0) : Dens n A b := by
  refine ⟨fun i hi j hj => ?_, fun i hi => ?_⟩
  · obtain ⟨row, h1, h2⟩ := entry_mem n A hA hrow i j hi hj
    exact hAd row h1 _ h2
  · unfold bentry
    rw [List.getD_eq_getElem _ _ (by rw [hb]; exact hi)]
    exact hbd _ (List.getElem_mem _)

/-- C19, counterexample: on the square input with rows `1/1, 0/1` and
`0/2, 1/1` forward elimination completes, and the cell under the diagonal is
still `0/2`, not `0/1`. -/
theorem forward_subdiagonal_counterexample :
    forward 2 (List.range 2) ([[⟨1, 1⟩, ⟨0, 1⟩], [⟨0, 2⟩, ⟨1, 1⟩]], [⟨1, 1⟩, ⟨1, 1⟩]) =
      .ok ([[⟨1, 1⟩, ⟨0, 1⟩], [⟨0, 2⟩, ⟨1, 1⟩]], [⟨1, 1⟩, ⟨1, 1⟩]) ∧
    entry [[⟨1, 1⟩, ⟨0, 1⟩], [⟨0, 2⟩, ⟨1, 1⟩]] 1 0 ≠ Frac.mk 0 1 := by
  decide

/-- C19, amended: for every square input whose cells have non-zero
denominators and on which forward elimination completes without error, the
working matrix `M` at the start of back substitution has `M[i][i]` exactly
`1/1` for every `i` and numerator 0 in `M[i][j]` for every `j < i`; when the
cells of the input matrix are in canonical form, `M[i][j]` is exactly `0/1` for
every `j < i`. -/
theorem forward_unit_upper_triangular (n : Nat) (A : List (List Frac)) (b : List Frac)
    (M : List (List Frac)) (B : List Frac) (hA : A.length = n)
    (hrow : ∀ row ∈ A, row.length = n) (hb : b.length = n)
    (hAd : ∀ row ∈ A, ∀ c ∈ row, c.d ≠ 0) (hbd : ∀ c ∈ b, c.d ≠ 0)
    (h : forward n (List.range n) (A, b) = .ok (M, B)) :
    (∀ i < n, entry M i i = Frac.mk 1 1) ∧
    (∀ i < n, ∀ j < i, (entry M i j).n = 0) ∧
    ((∀ row ∈ A, ∀ c ∈ row, c.Canonical) → ∀ i < n, ∀ j < i, entry M i j = Frac.mk 0 1) := by
  have hS := shape_of_rows n A hA hrow
  have hD := dens_of_rows n A b hA hrow hb hAd hbd
  rw [List.range_eq_range'] at h
  have hzero : ∀ i < n, ∀ j < i, (entry M i j).n = 0 ∧ (entry M i j).d ≠ 0 := by
    rcases forward_spec n n 0 A b (by omega) hS hb hD (fun i _ j hj => by omega) with
      ⟨M2, B2, e, -, -, hD2, hE2, -⟩ | ⟨e, -⟩
    · rw [e] at h
      cases h
      intro i hi j hj
      exact ⟨(mval_eq_zero_iff n M B hD2 i j hi (by omega)).mp ((hE2 i hi j (by omega)).2 hj),
        hD2.1 i hi j (by omega)⟩
    · rw [e] at h; cases h
  refine ⟨fun i hi => ?_, fun i hi j hj => (hzero i hi j hj).1, fun hc i hi j hj => ?_⟩
  · exact forward_invariant n (fun c M => ∀ j < c, entry M j j = Frac.mk 1 1)
      (fun c M B M2 B2 hc hM hB hD hQ e => forwardStep_diag n c hc M B M2 B2 hM hB hD hQ e)
      n 0 A b M B (by omega) hS hb hD (fun j hj => by omega) h i hi
  · have hcan := forward_invariant n (fun _ M => ∀ i < n, ∀ j < n, (entry M i j).Canonical)
      (fun c M B M2 B2 hc hM hB hD hQ e => forwardStep_canonical n c hc M B M2 B2 hM hB hD hQ e)
      n 0 A b M B (by omega) hS hb hD
      (fun i hi j hj => by
        obtain ⟨row, h1, h2⟩ := entry_mem n A hA hrow i j hi hj
        exact hc row h1 _ h2) h i hi j (by omega)
    rw [hcan.eq_ofQ, (Frac.val_eq_zero_iff _ (hzero i hi j hj).2).mpr (hzero i hi j hj).1]
    rfl

/-- C19, witness: the system with rows `0/1, 1/1` and `2/1, 1/1`, whose first
step swaps the rows. -/
theorem forward_unit_upper_triangular_witness :
    (([[⟨0, 1⟩, ⟨1, 1⟩], [⟨2, 1⟩, ⟨1, 1⟩]] : List (List Frac)).length = 2 ∧
      (∀ row ∈ ([[⟨0, 1⟩, ⟨1, 1⟩], [⟨2, 1⟩, ⟨1, 1⟩]] : List (List Frac)), row.length = 2) ∧
      ([⟨3, 1⟩, ⟨5, 1⟩] : List Frac).length = 2 ∧
      (∀ row ∈ ([[⟨0, 1⟩, ⟨1, 1⟩], [⟨2, 1⟩, ⟨1, 1⟩]] : List (List Frac)),
        ∀ c ∈ row, c.d ≠ 0) ∧
      (∀ c ∈ ([⟨3, 1⟩, ⟨5, 1⟩] : List Frac), c.d ≠ 0) ∧
      forward 2 (List.range 2) ([[⟨0, 1⟩, ⟨1, 1⟩], [⟨2, 1⟩, ⟨1, 1⟩]], [⟨3, 1⟩, ⟨5, 1⟩]) =
        .ok ([[⟨1, 1⟩, ⟨1, 2⟩], [⟨0, 1⟩, ⟨1, 1⟩]], [⟨5, 2⟩, ⟨3, 1⟩])) ∧
    ((∀ i < 2, entry [[⟨1, 1⟩, ⟨1, 2⟩], [⟨0, 1⟩, ⟨1, 1⟩]] i i = Frac.mk 1 1) ∧
    (∀ i < 2, ∀ j < i, (entry [[⟨1, 1⟩, ⟨1, 2⟩], [⟨0, 1⟩, ⟨1, 1⟩]] i j).n = 0) ∧
    ((∀ row ∈ ([[⟨0, 1⟩, ⟨1, 1⟩], [⟨2, 1⟩, ⟨1, 1⟩]] : List (List Frac)),
        ∀ c ∈ row, c.Canonical) →
      ∀ i < 2, ∀ j < i, entry [[⟨1, 1⟩, ⟨1, 2⟩], [⟨0, 1⟩, ⟨1, 1⟩]] i j = Frac.mk 0 1)) :=
  ⟨by decide, forward_unit_upper_triangular 2 [[⟨0, 1⟩, ⟨1, 1⟩], [⟨2, 1⟩, ⟨1, 1⟩]]
    [⟨3, 1⟩, ⟨5, 1⟩] [[⟨1, 1⟩, ⟨1, 2⟩], [⟨0, 1⟩, ⟨1, 1⟩]] [⟨5, 2⟩, ⟨3, 1⟩] (by decide)
    (by decide) (by decide) (by decide) (by decide) (by decide)⟩

/-! ## The digit decoders -/

theorem numeralValue_nil (b : Int) : numeralValue b [] = 0 := rfl

theorem numeralValue_cons (b d : Int) (ds : List Int) :
    numeralValue b (d :: ds) = d * b ^ ds.length + numeralValue b ds := by
  unfold numeralValue
  rw [List.length_cons, List.range_succ_eq_map, List.map_cons, List.sum_cons, List.map_map]
  congr 1
  refine congrArg List.sum (List.map_congr_left fun i hi => ?_)
  have hi2 : i < ds.length := List.mem_range.mp hi
  simp only [Function.comp, List.getD_cons_succ]
  congr 2
  simp only [Nat.succ_eq_add_one]
  omega

theorem horner_eq_numeral (b : Int) (ds : List Int) (acc : Int) :
    ds.foldl (fun a d => a * b + d) acc = acc * b ^ ds.length + numeralValue b ds := by
  induction ds generalizing acc with
  | nil => simp [numeralValue_nil]
  | cons d ds ih =>
    rw [List.foldl_cons, ih, numeralValue_cons, List.length_cons, pow_succ]
    ring

theorem numeralValue_nonneg (b : Int) (hb : 0 ≤ b) (ds : List Int) (hds : ∀ d ∈ ds, 0 ≤ d) :
    0 ≤ numeralValue b ds := by
  induction ds with
  | nil => simp [numeralValue_nil]
  | cons d ds ih =>
    rw [numeralValue_cons]
    have h1 := hds d (List.mem_cons_self _ _)
    have h2 := ih (fun x hx => hds x (List.mem_cons_of_mem _ hx))
    have h3 : 0 ≤ b ^ ds.length := pow_nonneg hb _
    positivity

theorem digitOf_nonneg (c : Char) (d : Int) (h : digitOf c = some d) : 0 ≤ d := by
  unfold digitOf at h
  split_ifs at h with h1 h2
  · cases h; omega
  · cases h; omega

theorem strict_fold_ok (b : Int) (cs : List Char) (acc : Int)
    (h : ∀ c ∈ cs, ∃ d, digitOf c = some d ∧ d < b) :
    cs.foldlM (parseStep b) acc =
      .ok ((cs.filterMap digitOf).foldl (fun a d => a * b + d) acc) := by
  induction cs generalizing acc with
  | nil => rfl
  | cons c cs ih =>
    obtain ⟨d, hd, hlt⟩ := h c (List.mem_cons_self _ _)
    rw [List.foldlM_cons]
    have hs : parseStep b acc c = .ok (acc * b + d) := by
      unfold parseStep; rw [hd]; simp only []; rw [if_neg (not_le.mpr hlt)]; rfl
    rw [hs, ok_bind, ih _ (fun x hx => h x (List.mem_cons_of_mem _ hx)),
      List.filterMap_cons_some hd, List.foldl_cons]

theorem strict_fold_error (b : Int) (cs : List Char) (acc : Int)
    (h : ¬ ∀ c ∈ cs, ∃ d, digitOf c = some d ∧ d < b) :
    ∃ e, cs.foldlM (parseStep b) acc = .error e := by
  induction cs generalizing acc with
  | nil => exact absurd (fun c hc => by cases hc) h
  | cons c cs ih =>
    rw [List.foldlM_cons]
    cases hd : digitOf c with
    | none =>
      refine ⟨JsError.invalidChar, ?_⟩
      have hs : parseStep b acc c = .error JsError.invalidChar := by
        unfold parseStep; rw [hd]; rfl
      rw [hs, error_bind]
    | some d =>
      by_cases hlt : d < b
      · have hs : parseStep b acc c = .ok (acc * b + d) := by
          unfold parseStep; rw [hd]; simp only []; rw [if_neg (not_le.mpr hlt)]; rfl
        rw [hs, ok_bind]
        refine ih _ (fun hall => h (fun x hx => ?_))
        rcases List.mem_cons.mp hx with rfl | hx2
        · exact ⟨d, hd, hlt⟩
        · exact hall x hx2
      · refine ⟨JsError.digitTooLarge, ?_⟩
        have hs : parseStep b acc c = .error JsError.digitTooLarge := by
          unfold parseStep; rw [hd]; simp only []; rw [if_pos (not_lt.mp hlt)]; rfl
        rw [hs, error_bind]

/-- C12: for a base `b` with `2 ≤ b ≤ 36` and a string `s`, the strict decoder
succeeds exactly when every character of the trimmed, lower-cased `s` is a
digit `'0'`-`'9'` or `'a'`-`'z'` with digit value below `b`; it then returns the
non-negative value `Σ_i digit_i * b^(len - 1 - i)`, otherwise it raises an
error; `"ff"` in base 16 gives 255 and `"1010"` in base 2 gives 10. -/
theorem parseBigIntBase_strict (s : String) (b : Int) (h2 : 2 ≤ b) (_h36 : b ≤ 36) :
    ((∃ v, parseBigIntBase s b = .ok v) ↔
      ∀ c ∈ jsToLowerCase (jsTrim s.toList), ∃ d, digitOf c = some d ∧ d < b) ∧
    ((∀ c ∈ jsToLowerCase (jsTrim s.toList), ∃ d, digitOf c = some d ∧ d < b) →
      parseBigIntBase s b =
        .ok (numeralValue b ((jsToLowerCase (jsTrim s.toList)).filterMap digitOf)) ∧
      0 ≤ numeralValue b ((jsToLowerCase (jsTrim s.toList)).filterMap digitOf)) ∧
    ((¬ ∀ c ∈ jsToLowerCase (jsTrim s.toList), ∃ d, digitOf c = some d ∧ d < b) →
      ∃ e, parseBigIntBase s b = .error e) ∧
    parseBigIntBase "ff" 16 = .ok 255 ∧ parseBigIntBase "1010" 2 = .ok 10 := by
  have hok : (∀ c ∈ jsToLowerCase (jsTrim s.toList), ∃ d, digitOf c = some d ∧ d < b) →
      parseBigIntBase s b =
        .ok (numeralValue b ((jsToLowerCase (jsTrim s.toList)).filterMap digitOf)) := by
    intro h
    unfold parseBigIntBase
    rw [strict_fold_ok b _ 0 h, horner_eq_numeral, zero_mul, zero_add]
  have herr : (¬ ∀ c ∈ jsToLowerCase (jsTrim s.toList), ∃ d, digitOf c = some d ∧ d < b) →
      ∃ e, parseBigIntBase s b = .error e := fun h => strict_fold_error b _ 0 h
  refine ⟨⟨fun ⟨v, hv⟩ => ?_, fun h => ⟨_, hok h⟩⟩, fun h => ⟨hok h, ?_⟩, herr,
    by decide, by decide⟩
  · by_contra hn
    obtain ⟨e, he⟩ := herr hn
    rw [he] at hv; cases hv
  · refine numeralValue_nonneg b (by omega) _ (fun d hd => ?_)
    obtain ⟨c, -, hc⟩ := List.mem_filterMap.mp hd
    exact digitOf_nonneg c d hc

/-- C12, witness: the string `" 1F "` in base 16. -/
theorem parseBigIntBase_strict_witness :
    ((2 : Int) ≤ 16 ∧ (16 : Int) ≤ 36) ∧
    (((∃ v, parseBigIntBase " 1F " 16 = .ok v) ↔
      ∀ c ∈ jsToLowerCase (jsTrim " 1F ".toList), ∃ d, digitOf c = some d ∧ d < 16) ∧
    ((∀ c ∈ jsToLowerCase (jsTrim " 1F ".toList), ∃ d, digitOf c = some d ∧ d < 16) →
      parseBigIntBase " 1F " 16 =
        .ok (numeralValue 16 ((jsToLowerCase (jsTrim " 1F ".toList)).filterMap digitOf)) ∧
      0 ≤ numeralValue 16 ((jsToLowerCase (jsTrim " 1F ".toList)).filterMap digitOf)) ∧
    ((¬ ∀ c ∈ jsToLowerCase (jsTrim " 1F ".toList), ∃ d, digitOf c = some d ∧ d < 16) →
      ∃ e, parseBigIntBase " 1F " 16 = .error e) ∧
    parseBigIntBase "ff" 16 = .ok 255 ∧ parseBigIntBase "1010" 2 = .ok 10) :=
  ⟨by decide, parseBigIntBase_strict " 1F " 16 (by decide) (by decide)⟩

theorem toNat_ofNat_small (n : Nat) (h : n < 0xd800) : (Char.ofNat n).toNat = n := by
  have hv : n.isValidChar := Or.inl h
  unfold Char.ofNat
  rw [dif_pos hv]
  simp [Char.ofNatAux, Char.toNat, UInt32.toNat]

theorem isDigitChar_iff (c : Char) :
    isDigitChar c = true ↔ (48 ≤ c.toNat ∧ c.toNat ≤ 57) ∨ (97 ≤ c.toNat ∧ c.toNat ≤ 122) := by
  unfold isDigitChar digitOf
  split_ifs with h1 h2
  · simp [h1]
  · simp [h2]
  · simp [h1, h2]

theorem not_space_of_digit (c : Char) (h : isDigitChar c = true) : isJsSpace c = false := by
  rw [isDigitChar_iff] at h
  unfold isJsSpace
  simp only [Bool.or_eq_false_iff, Bool.and_eq_false_iff, decide_eq_false_iff_not]
  omega

theorem jsLowerChar_digit (c : Char) (h : isDigitChar c = true) : jsLowerChar c = [c] := by
  rw [isDigitChar_iff] at h
  unfold jsLowerChar
  rw [if_neg (by omega), if_neg (by omega), if_neg (by omega)]

theorem dropWhile_eq_self_of_forall {α : Type} (p : α → Bool) (l : List α)
    (h : ∀ c ∈ l, p c = false) : l.dropWhile p = l := by
  cases l with
  | nil => rfl
  | cons c cs => rw [List.dropWhile_cons, if_neg (by rw [h c (List.mem_cons_self _ _)]; simp)]

theorem jsTrim_digits (l : List Char) (h : ∀ c ∈ l, isDigitChar c = true) : jsTrim l = l := by
  unfold jsTrim
  rw [dropWhile_eq_self_of_forall _ l (fun c hc => not_space_of_digit c (h c hc)),
    dropWhile_eq_self_of_forall _ l.reverse
      (fun c hc => not_space_of_digit c (h c (List.mem_reverse.mp hc))),
    List.reverse_reverse]

theorem jsToLowerCase_digits (l : List Char) (h : ∀ c ∈ l, isDigitChar c = true) :
    jsToLowerCase l = l := by
  unfold jsToLowerCase
  induction l with
  | nil => rfl
  | cons c cs ih =>
    rw [List.flatMap_cons, jsLowerChar_digit c (h c (List.mem_cons_self _ _)),
      ih (fun x hx => h x (List.mem_cons_of_mem _ hx))]
    rfl

/-- The lenient loop is the strict loop on the digit characters. -/
theorem lenient_fold_eq (b : Int) (cs : List Char) (acc : Int) :
    cs.foldlM (Solution.parseStep b) acc =
      (cs.filter isDigitChar).foldlM (parseStep b) acc := by
  induction cs generalizing acc with
  | nil => rfl
  | cons c cs ih =>
    rw [List.foldlM_cons]
    cases hd : digitOf c with
    | none =>
      have hs : Solution.parseStep b acc c = .ok acc := by
        unfold Solution.parseStep; rw [hd]; rfl
      have hf : isDigitChar c = false := by unfold isDigitChar; rw [hd]; rfl
      rw [hs, ok_bind, ih, List.filter_cons_of_neg (by rw [hf]; simp)]
    | some d =>
      have hs : Solution.parseStep b acc c = parseStep b acc c := by
        unfold Solution.parseStep parseStep; rw [hd]
      have hf : isDigitChar c = true := by unfold isDigitChar; rw [hd]; rfl
      rw [hs, List.filter_cons_of_pos hf, List.foldlM_cons]
      congr 1
      funext a
      exact ih a

/-- The lenient decoder is the strict decoder applied to the digit characters of
the trimmed, lower-cased string. -/
theorem lenient_eq_strict (s : String) (b : Int) :
    Solution.parseBigIntBase s b =
      parseBigIntBase (String.mk ((jsToLowerCase (jsTrim s.toList)).filter isDigitChar)) b := by
  have hall : ∀ c ∈ (jsToLowerCase (jsTrim s.toList)).filter isDigitChar,
      isDigitChar c = true := fun c hc => (List.mem_filter.mp hc).2
  unfold Solution.parseBigIntBase parseBigIntBase
  rw [lenient_fold_eq]
  show _ = List.foldlM (parseStep b) 0 (jsToLowerCase (jsTrim
    ((jsToLowerCase (jsTrim s.toList)).filter isDigitChar)))
  rw [jsTrim_digits _ hall, jsToLowerCase_digits _ hall]

theorem isAsciiAlnum_iff (c : Char) :
    isAsciiAlnum c = true ↔ (48 ≤ c.toNat ∧ c.toNat ≤ 57) ∨ (97 ≤ c.toNat ∧ c.toNat ≤ 122) ∨
      (65 ≤ c.toNat ∧ c.toNat ≤ 90) := by
  unfold isAsciiAlnum
  simp only [Bool.or_eq_true, Bool.and_eq_true, decide_eq_true_eq, or_assoc]

theorem not_space_of_alnum (c : Char) (h : isAsciiAlnum c = true) : isJsSpace c = false := by
  rw [isAsciiAlnum_iff] at h
  unfold isJsSpace
  simp only [Bool.or_eq_false_iff, Bool.and_eq_false_iff, decide_eq_false_iff_not]
  omega

theorem jsTrim_of_no_space (l : List Char) (h : ∀ c ∈ l, isJsSpace c = false) :
    jsTrim l = l := by
  unfold jsTrim
  rw [dropWhile_eq_self_of_forall _ l h,
    dropWhile_eq_self_of_forall _ l.reverse (fun c hc => h c (List.mem_reverse.mp hc)),
    List.reverse_reverse]

theorem filter_dropWhile {α : Type} (p q : α → Bool) (hpq : ∀ c, q c = true → p c = false)
    (l : List α) : (l.dropWhile q).filter p = l.filter p := by
  induction l with
  | nil => rfl
  | cons c cs ih =>
    rw [List.dropWhile_cons]
    by_cases hq : q c = true
    · rw [if_pos hq, ih, List.filter_cons_of_neg (by rw [hpq c hq]; simp)]
    · rw [if_neg hq]

theorem filter_jsTrim (l : List Char) :
    (jsTrim l).filter isAsciiAlnum = l.filter isAsciiAlnum := by
  have hpq : ∀ c, isJsSpace c = true → isAsciiAlnum c = false := by
    intro c hc
    by_contra h
    rw [Bool.not_eq_false] at h
    rw [not_space_of_alnum c h] at hc
    cases hc
  unfold jsTrim
  rw [List.filter_reverse, filter_dropWhile _ _ hpq, List.filter_reverse,
    List.reverse_reverse, filter_dropWhile _ _ hpq]

theorem mem_of_mem_jsTrim (l : List Char) (c : Char) (h : c ∈ jsTrim l) : c ∈ l := by
  unfold jsTrim at h
  rw [List.mem_reverse] at h
  have h2 := (List.dropWhile_suffix isJsSpace).subset h
  rw [List.mem_reverse] at h2
  exact (List.dropWhile_suffix isJsSpace).subset h2

theorem filter_jsLowerChar (c : Char) (hK : c.toNat ≠ 0x212A) (hI : c.toNat ≠ 0x130) :
    (jsLowerChar c).filter isDigitChar = if isAsciiAlnum c = true then jsLowerChar c else [] := by
  unfold jsLowerChar
  by_cases hu : 0x41 ≤ c.toNat ∧ c.toNat ≤ 0x5A
  · have ha : isAsciiAlnum c = true := (isAsciiAlnum_iff c).mpr (by omega)
    have hd : isDigitChar (Char.ofNat (c.toNat + 0x20)) = true := by
      rw [isDigitChar_iff, toNat_ofNat_small _ (by omega)]; omega
    rw [if_pos hu, if_pos ha, List.filter_cons_of_pos hd, List.filter_nil]
  · rw [if_neg hu, if_neg hK, if_neg hI]
    by_cases hd : isDigitChar c = true
    · have ha : isAsciiAlnum c = true :=
        (isAsciiAlnum_iff c).mpr (by have := (isDigitChar_iff c).mp hd; omega)
      rw [if_pos ha, List.filter_cons_of_pos hd, List.filter_nil]
    · have ha : ¬ isAsciiAlnum c = true := by
        intro ha
        have h1 := (isAsciiAlnum_iff c).mp ha
        exact hd ((isDigitChar_iff c).mpr (by omega))
      rw [if_neg ha, List.filter_cons_of_neg hd, List.filter_nil]

theorem filter_jsToLowerCase (l : List Char)
    (h : ∀ c ∈ l, c.toNat ≠ 0x212A ∧ c.toNat ≠ 0x130) :
    (jsToLowerCase l).filter isDigitChar = jsToLowerCase (l.filter isAsciiAlnum) := by
  unfold jsToLowerCase
  induction l with
  | nil => rfl
  | cons c cs ih =>
    obtain ⟨hK, hI⟩ := h c (List.mem_cons_self _ _)
    rw [List.flatMap_cons, List.filter_append, filter_jsLowerChar c hK hI,
      ih (fun x hx => h x (List.mem_cons_of_mem _ hx))]
    by_cases ha : isAsciiAlnum c = true
    · rw [if_pos ha, List.filter_cons_of_pos ha, List.flatMap_cons]
    · rw [if_neg ha, List.filter_cons_of_neg ha, List.nil_append]

/-- C13, counterexample: for the one-character string U+212A (Kelvin sign) in
base 36 the lenient decoder returns 20, its lower-case form being `'k'`, while
the strict decoder applied to the string with every character other than
`'0'`-`'9'`, `'a'`-`'z'`, `'A'`-`'Z'` removed returns 0. -/
theorem lenient_kelvin_counterexample :
    Solution.parseBigIntBase (String.mk [Char.ofNat 0x212A]) 36 = .ok 20 ∧
    parseBigIntBase
      (String.mk ((String.mk [Char.ofNat 0x212A]).toList.filter isAsciiAlnum)) 36 = .ok 0 := by
  decide

/-- C13, amended: for every base `b` and string `s` the lenient decoder of
`solution.js` gives the same outcome as the strict decoder applied to the
trimmed, lower-cased `s` with every character other than `'0'`-`'9'`, `'a'`-`'z'`
removed; when `s` holds neither U+212A nor U+0130 this is the strict decoder
applied to `s` with every character other than `'0'`-`'9'`, `'a'`-`'z'`,
`'A'`-`'Z'` removed. A digit character with digit value `≥ b` is an error, and
an input with no digit character yields 0. -/
theorem lenient_decoder_refines_strict (s : String) (b : Int) :
    Solution.parseBigIntBase s b =
      parseBigIntBase (String.mk ((jsToLowerCase (jsTrim s.toList)).filter isDigitChar)) b ∧
    ((∀ c ∈ s.toList, c.toNat ≠ 0x212A ∧ c.toNat ≠ 0x130) →
      Solution.parseBigIntBase s b =
        parseBigIntBase (String.mk (s.toList.filter isAsciiAlnum)) b) ∧
    ((∃ c ∈ jsToLowerCase (jsTrim s.toList), ∃ d, digitOf c = some d ∧ b ≤ d) →
      ∃ e, Solution.parseBigIntBase s b = .error e) ∧
    ((∀ c ∈ jsToLowerCase (jsTrim s.toList), digitOf c = none) →
      Solution.parseBigIntBase s b = .ok 0) := by
  have hfold : Solution.parseBigIntBase s b =
      ((jsToLowerCase (jsTrim s.toList)).filter isDigitChar).foldlM (parseStep b) 0 := by
    unfold Solution.parseBigIntBase
    exact lenient_fold_eq b _ 0
  refine ⟨lenient_eq_strict s b, fun hs => ?_, fun ⟨c, hc, d, hd, hbd⟩ => ?_, fun h => ?_⟩
  · have hal : ∀ c ∈ s.toList.filter isAsciiAlnum, isJsSpace c = false :=
      fun c hc => not_space_of_alnum c (List.mem_filter.mp hc).2
    rw [hfold]
    show _ = List.foldlM (parseStep b) 0
      (jsToLowerCase (jsTrim (s.toList.filter isAsciiAlnum)))
    rw [jsTrim_of_no_space _ hal,
      filter_jsToLowerCase _ (fun c hc => hs c (mem_of_mem_jsTrim _ c hc)), filter_jsTrim]
  · rw [hfold]
    refine strict_fold_error b _ 0 (fun hall => ?_)
    have hcm : c ∈ (jsToLowerCase (jsTrim s.toList)).filter isDigitChar :=
      List.mem_filter.mpr ⟨hc, by unfold isDigitChar; rw [hd]; rfl⟩
    obtain ⟨d2, hd2, hlt⟩ := hall c hcm
    rw [hd] at hd2
    cases hd2
    omega
  · rw [hfold]
    have hnil : (jsToLowerCase (jsTrim s.toList)).filter isDigitChar = [] := by
      rw [List.filter_eq_nil_iff]
      intro c hc
      unfold isDigitChar
      rw [h c hc]
      simp
    rw [hnil]
    rfl

/-- C13, witness: the string `"1 Z"` in base 36. -/
theorem lenient_decoder_refines_strict_witness :
    (∀ c ∈ "1 Z".toList, c.toNat ≠ 0x212A ∧ c.toNat ≠ 0x130) ∧
    Solution.parseBigIntBase "1 Z" 36 =
      parseBigIntBase (String.mk ("1 Z".toList.filter isAsciiAlnum)) 36 :=
  ⟨by decide, (lenient_decoder_refines_strict "1 Z" 36).2.1 (by decide)⟩

/-! ## The Lagrange loops of solution.js and verify.js -/

theorem bigintGCD_abs (a b : Int) :
    bigintGCD (if a < 0 then -a else a) (if b < 0 then -b else b) =
      ((Int.gcd a b : Nat) : Int) := by
  rw [bigintGCD_eq]
  split_ifs <;> simp [Int.gcd_neg, Int.neg_gcd]

theorem div_gcd_facts (a b : Int) (hb : b ≠ 0) :
    b / ((Int.gcd a b : Nat) : Int) ≠ 0 ∧
    Int.gcd (a / ((Int.gcd a b : Nat) : Int)) (b / ((Int.gcd a b : Nat) : Int)) = 1 ∧
    ((a / ((Int.gcd a b : Nat) : Int) : Int) : ℚ) / ((b / ((Int.gcd a b : Nat) : Int) : Int) : ℚ) =
      (a : ℚ) / (b : ℚ) := by
  have hg : 0 < Int.gcd a b := Int.gcd_pos_iff.mpr (Or.inr hb)
  have hgq : (((Int.gcd a b : Nat) : Int) : ℚ) ≠ 0 := by exact_mod_cast (ne_of_gt hg)
  refine ⟨fun h0 => ?_, Int.gcd_div_gcd_div_gcd hg, ?_⟩
  · have := Int.ediv_mul_cancel (@Int.gcd_dvd_right a b)
    rw [h0, zero_mul] at this
    exact hb this.symm
  · rw [Int.cast_div Int.gcd_dvd_left hgq, Int.cast_div Int.gcd_dvd_right hgq,
      div_div_div_cancel_right₀ hgq]

/-- The reduction of a pair with non-zero second component returns a coprime
pair of the same value. -/
theorem reducePair_ok (a b : Int) (hb : b ≠ 0) :
    ∃ n d, reducePair a b = .ok (n, d) ∧ d ≠ 0 ∧ Int.gcd n d = 1 ∧
      (n : ℚ) / (d : ℚ) = (a : ℚ) / (b : ℚ) := by
  have hg : ((Int.gcd a b : Nat) : Int) ≠ 0 := by
    have : 0 < Int.gcd a b := Int.gcd_pos_iff.mpr (Or.inr hb)
    exact_mod_cast (ne_of_gt this)
  obtain ⟨h1, h2, h3⟩ := div_gcd_facts a b hb
  refine ⟨_, _, ?_, h1, h2, h3⟩
  unfold reducePair
  simp only [bigintGCD_abs, bigDiv, hg, if_false]
  rw [Int.tdiv_eq_ediv_of_dvd Int.gcd_dvd_left, Int.tdiv_eq_ediv_of_dvd Int.gcd_dvd_right]
  rfl

/-- One multiplication with reduction keeps the denominator non-zero and
multiplies the value by `a / b`. -/
theorem mulReduce_ok (s : Int × Int) (a b : Int) (hs : s.2 ≠ 0) (hb : b ≠ 0) :
    ∃ n d, mulReduce s a b = .ok (n, d) ∧ d ≠ 0 ∧
      (n : ℚ) / (d : ℚ) = (s.1 : ℚ) / (s.2 : ℚ) * ((a : ℚ) / (b : ℚ)) := by
  have hden : s.2 * b ≠ 0 := mul_ne_zero hs hb
  have hval : ((s.1 * a : Int) : ℚ) / ((s.2 * b : Int) : ℚ) =
      (s.1 : ℚ) / (s.2 : ℚ) * ((a : ℚ) / (b : ℚ)) := by
    push_cast; rw [mul_div_mul_comm]
  unfold mulReduce
  simp only [bigintGCD_abs]
  by_cases hg : ((Int.gcd (s.1 * a) (s.2 * b) : Nat) : Int) > 1
  · have hg0 : ((Int.gcd (s.1 * a) (s.2 * b) : Nat) : Int) ≠ 0 := by omega
    obtain ⟨h1, -, h3⟩ := div_gcd_facts (s.1 * a) (s.2 * b) hden
    refine ⟨_, _, ?_, h1, h3.trans hval⟩
    rw [if_pos hg]
    simp only [bigDiv, hg0, if_false]
    rw [Int.tdiv_eq_ediv_of_dvd Int.gcd_dvd_left, Int.tdiv_eq_ediv_of_dvd Int.gcd_dvd_right]
    rfl
  · exact ⟨_, _, by rw [if_neg hg]; rfl, hden, hval⟩

/-- The inner loops of both scripts: a fold that skips the indices satisfying
`p` and multiplies by `f j / g j` otherwise. -/
theorem termFold_ok (p : Nat → Prop) [DecidablePred p] (f g : Nat → Int) (js : List Nat)
    (s : Int × Int) (hs : s.2 ≠ 0) (hg : ∀ j ∈ js, ¬ p j → g j ≠ 0) :
    ∃ n d, js.foldlM (fun s j => if p j then (pure s : Except JsError (Int × Int))
        else mulReduce s (f j) (g j)) s = .ok (n, d) ∧ d ≠ 0 ∧
      (n : ℚ) / (d : ℚ) = (s.1 : ℚ) / (s.2 : ℚ) *
        ((js.filter (fun j => ¬ p j)).map (fun j => (f j : ℚ) / (g j : ℚ))).prod := by
  induction js generalizing s with
  | nil => exact ⟨s.1, s.2, rfl, hs, by simp⟩
  | cons j js ih =>
    rw [List.foldlM_cons]
    by_cases hp : p j
    · obtain ⟨n, d, h1, h2, h3⟩ := ih s hs (fun x hx => hg x (List.mem_cons_of_mem _ hx))
      refine ⟨n, d, ?_, h2, ?_⟩
      · rw [if_pos hp, pure_eq_ok, ok_bind]; exact h1
      · rw [h3, List.filter_cons_of_neg (by simpa using hp)]
    · obtain ⟨n1, d1, e1, hd1, hv1⟩ := mulReduce_ok s (f j) (g j) hs
        (hg j (List.mem_cons_self _ _) hp)
      obtain ⟨n, d, h1, h2, h3⟩ := ih (n1, d1) hd1
        (fun x hx => hg x (List.mem_cons_of_mem _ hx))
      refine ⟨n, d, ?_, h2, ?_⟩
      · rw [if_neg hp, e1, ok_bind]; exact h1
      · rw [h3, hv1, List.filter_cons_of_pos (by simpa using hp), List.map_cons,
          List.prod_cons, mul_assoc]

/-- The inner loop of `solution.js` computes the `i`-th Lagrange summand at 0. -/
theorem solution_termLoop_ok (k : Nat) (xs ys : List Int) (i : Nat)
    (hne : ∀ j < k, j ≠ i → xs.getD i 0 ≠ xs.getD j 0) :
    ∃ n d, Solution.termLoop xs i (List.range k) (ys.getD i 0, 1) = .ok (n, d) ∧ d ≠ 0 ∧
      (n : ℚ) / (d : ℚ) = lagrangeSummand k xs ys 0 i := by
  obtain ⟨n, d, h1, h2, h3⟩ := termFold_ok (fun j => i = j) (fun j => -(xs.getD j 0))
    (fun j => xs.getD i 0 - xs.getD j 0) (List.range k) (ys.getD i 0, 1) one_ne_zero
    (fun j hj hp => sub_ne_zero.mpr (hne j (List.mem_range.mp hj) (fun h => hp h.symm)))
  refine ⟨n, d, h1, h2, ?_⟩
  rw [h3]
  unfold lagrangeSummand
  have hf : (List.range k).filter (fun j => decide ¬ i = j) =
      (List.range k).filter (fun j => decide (j ≠ i)) :=
    List.filter_congr (fun j _ => by simp [eq_comm])
  rw [hf]
  simp only [Int.cast_one, div_one]
  congr 2
  refine List.map_congr_left fun j _ => ?_
  push_cast
  ring

/-- The inner loop of `verify.js` computes the `j`-th Lagrange summand at `xp`. -/
theorem verify_termLoop_ok (m : Nat) (xs ys : List Int) (xp : Int) (j : Nat)
    (hne : ∀ t < m, t ≠ j → xs.getD j 0 ≠ xs.getD t 0) :
    ∃ n d, Verify.termLoop xs xp j (List.range m) (ys.getD j 0, 1) = .ok (n, d) ∧ d ≠ 0 ∧
      (n : ℚ) / (d : ℚ) = lagrangeSummand m xs ys xp j := by
  obtain ⟨n, d, h1, h2, h3⟩ := termFold_ok (fun t => t = j) (fun t => xp - xs.getD t 0)
    (fun t => xs.getD j 0 - xs.getD t 0) (List.range m) (ys.getD j 0, 1) one_ne_zero
    (fun t ht hp => sub_ne_zero.mpr (hne t (List.mem_range.mp ht) hp))
  refine ⟨n, d, h1, h2, ?_⟩
  rw [h3]
  unfold lagrangeSummand
  simp only [Int.cast_one, div_one]
  congr 2
  refine List.map_congr_left fun t _ => ?_
  push_cast
  ring

theorem sumLoop_nil (k : Nat) (xs ys : List Int) (total : Int × Int) :
    Solution.sumLoop k xs ys [] total = .ok total := rfl

theorem sumLoop_cons (k : Nat) (xs ys : List Int) (i : Nat) (is : List Nat)
    (total : Int × Int) :
    Solution.sumLoop k xs ys (i :: is) total =
      Solution.sumStep k xs ys total i >>= fun t => Solution.sumLoop k xs ys is t := by
  simp [Solution.sumLoop, List.foldlM_cons]

/-- One addition of `solution.js`: the new running total has a non-zero
denominator, is coprime, and its value is the old value plus the summand. -/
theorem sumStep_ok (k : Nat) (xs ys : List Int) (total : Int × Int) (i : Nat)
    (ht : total.2 ≠ 0) (hne : ∀ j < k, j ≠ i → xs.getD i 0 ≠ xs.getD j 0) :
    ∃ tn td, Solution.sumStep k xs ys total i = .ok (tn, td) ∧ td ≠ 0 ∧ Int.gcd tn td = 1 ∧
      (tn : ℚ) / (td : ℚ) = (total.1 : ℚ) / (total.2 : ℚ) + lagrangeSummand k xs ys 0 i := by
  obtain ⟨n, d, e1, hd, hv⟩ := solution_termLoop_ok k xs ys i hne
  obtain ⟨tn, td, e2, h1, h2, h3⟩ := reducePair_ok (total.1 * d + n * total.2) (total.2 * d)
    (mul_ne_zero ht hd)
  refine ⟨tn, td, ?_, h1, h2, ?_⟩
  · show (Solution.termLoop xs i (List.range k) (ys.getD i 0, 1) >>= fun t =>
      reducePair (total.1 * t.2 + t.1 * total.2) (total.2 * t.2)) = _
    rw [e1, ok_bind]; exact e2
  · have ht1 : (total.2 : ℚ) ≠ 0 := by exact_mod_cast ht
    have hd1 : (d : ℚ) ≠ 0 := by exact_mod_cast hd
    rw [h3, ← hv]
    push_cast
    field_simp

/-- The running total of `solution.js` after the additions of the indices `is`. -/
theorem sumLoop_ok (k : Nat) (xs ys : List Int) (is : List Nat) (total : Int × Int)
    (ht : total.2 ≠ 0) (hc : Int.gcd total.1 total.2 = 1)
    (hne : ∀ i ∈ is, ∀ j < k, j ≠ i → xs.getD i 0 ≠ xs.getD j 0) :
    ∃ tn td, Solution.sumLoop k xs ys is total = .ok (tn, td) ∧ td ≠ 0 ∧ Int.gcd tn td = 1 ∧
      (tn : ℚ) / (td : ℚ) =
        (total.1 : ℚ) / (total.2 : ℚ) + (is.map (lagrangeSummand k xs ys 0)).sum := by
  induction is generalizing total with
  | nil => exact ⟨total.1, total.2, rfl, ht, hc, by simp⟩
  | cons i is ih =>
    obtain ⟨n1, d1, e1, h1, h2, h3⟩ := sumStep_ok k xs ys total i ht
      (hne i (List.mem_cons_self _ _))
    obtain ⟨tn, td, e2, h4, h5, h6⟩ := ih (n1, d1) h1 h2
      (fun x hx => hne x (List.mem_cons_of_mem _ hx))
    refine ⟨tn, td, ?_, h4, h5, ?_⟩
    · rw [sumLoop_cons, e1, ok_bind]; exact e2
    · rw [h6, h3, List.map_cons, List.sum_cons, add_assoc]

/-- The result of the Lagrange interpolation of `solution.js`: a coprime pair
with non-zero denominator whose value is the Lagrange sum at 0. -/
theorem lagrangeAtZero_ok (k : Nat) (xs ys : List Int)
    (hne : ∀ i < k, ∀ j < k, j ≠ i → xs.getD i 0 ≠ xs.getD j 0) :
    ∃ tn td, Solution.lagrangeAtZero k xs ys = .ok (tn, td) ∧ td ≠ 0 ∧ Int.gcd tn td = 1 ∧
      (tn : ℚ) / (td : ℚ) = ((List.range k).map (lagrangeSummand k xs ys 0)).sum := by
  obtain ⟨n1, d1, e1, h1, -, h3⟩ := sumLoop_ok k xs ys (List.range k) (0, 1) one_ne_zero
    (by decide) (fun i hi => hne i (List.mem_range.mp hi))
  obtain ⟨tn, td, e2, h4, h5, h6⟩ := reducePair_ok n1 d1 h1
  refine ⟨tn, td, ?_, h4, h5, ?_⟩
  · show (Solution.sumLoop k xs ys (List.range k) (0, 1) >>= fun total =>
      reducePair total.1 total.2) = _
    rw [e1, ok_bind]; exact e2
  · rw [h6, h3]; simp

theorem gcd_abs_abs (a b : Int) : Int.gcd |a| |b| = Int.gcd a b := by
  rw [Int.gcd_eq_natAbs, Int.gcd_eq_natAbs, Int.natAbs_abs, Int.natAbs_abs]

/-- C16, counterexample: for the points (1, 4), (2, 7) the running total of
`solution.js` is the pair (-8, -1) after the first addition and (-1, -1) after the final
simplification, so the denominator is not positive. -/
theorem solution_total_counterexample :
    ([((1 : Int), (4 : Int)), (2, 7)].map Prod.fst).Nodup ∧
    Solution.sumLoop 2 [1, 2] [4, 7] (List.range 1) (0, 1) = .ok (-8, -1) ∧
    Solution.lagrangeAtZero 2 [1, 2] [4, 7] = .ok (-1, -1) ∧ ¬ ((0 : Int) < -1) := by
  decide

/-- C16, amended: for points with pairwise distinct x-values, the running total
`(totalNum, totalDen)` of `solution.js` after each addition and after the final
simplification satisfies `totalDen ≠ 0` and `gcd(|totalNum|, |totalDen|) = 1`,
and `totalNum = 0` implies `|totalDen| = 1`. -/
theorem solution_total_reduced (pts : List (Int × Int)) (hd : (pts.map Prod.fst).Nodup) :
    (∀ m ≤ pts.length, ∃ tn td,
      Solution.sumLoop pts.length (pts.map Prod.fst) (pts.map Prod.snd) (List.range m) (0, 1) =
        .ok (tn, td) ∧
      td ≠ 0 ∧ Int.gcd |tn| |td| = 1 ∧ (tn = 0 → |td| = 1)) ∧
    ∃ tn td, Solution.lagrangeAtZero pts.length (pts.map Prod.fst) (pts.map Prod.snd) =
        .ok (tn, td) ∧
      td ≠ 0 ∧ Int.gcd |tn| |td| = 1 ∧ (tn = 0 → |td| = 1) := by
  have hne := nodup_getD_ne _ hd
  rw [List.length_map] at hne
  have hz : ∀ tn td : Int, Int.gcd tn td = 1 → tn = 0 → |td| = 1 := by
    intro tn td h h0
    rw [h0, Int.gcd_zero_left] at h
    rw [Int.abs_eq_natAbs, h]; rfl
  refine ⟨fun m hm => ?_, ?_⟩
  · obtain ⟨tn, td, e, h1, h2, -⟩ := sumLoop_ok pts.length (pts.map Prod.fst)
      (pts.map Prod.snd) (List.range m) (0, 1) one_ne_zero (by decide)
      (fun i hi => hne i (by have := List.mem_range.mp hi; omega))
    exact ⟨tn, td, e, h1, by rw [gcd_abs_abs]; exact h2, hz tn td h2⟩
  · obtain ⟨tn, td, e, h1, h2, -⟩ := lagrangeAtZero_ok pts.length (pts.map Prod.fst)
      (pts.map Prod.snd) hne
    exact ⟨tn, td, e, h1, by rw [gcd_abs_abs]; exact h2, hz tn td h2⟩

/-- C16, witness: the points (1, 4), (3, 7). -/
theorem solution_total_reduced_witness :
    ([((1 : Int), (4 : Int)), (3, 7)].map Prod.fst).Nodup ∧
    ((∀ m ≤ [((1 : Int), (4 : Int)), (3, 7)].length, ∃ tn td,
      Solution.sumLoop [((1 : Int), (4 : Int)), (3, 7)].length
        ([((1 : Int), (4 : Int)), (3, 7)].map Prod.fst)
        ([((1 : Int), (4 : Int)), (3, 7)].map Prod.snd) (List.range m) (0, 1) = .ok (tn, td) ∧
      td ≠ 0 ∧ Int.gcd |tn| |td| = 1 ∧ (tn = 0 → |td| = 1)) ∧
    ∃ tn td, Solution.lagrangeAtZero [((1 : Int), (4 : Int)), (3, 7)].length
        ([((1 : Int), (4 : Int)), (3, 7)].map Prod.fst)
        ([((1 : Int), (4 : Int)), (3, 7)].map Prod.snd) = .ok (tn, td) ∧
      td ≠ 0 ∧ Int.gcd |tn| |td| = 1 ∧ (tn = 0 → |td| = 1)) :=
  ⟨by decide, solution_total_reduced [(1, 4), (3, 7)] (by decide)⟩

theorem termsLoop_nil (m : Nat) (xs ys : List Int) (xp : Int) (acc : List Int × List Int) :
    Verify.termsLoop m xs ys xp [] acc = .ok acc := rfl

theorem termsLoop_cons (m : Nat) (xs ys : List Int) (xp : Int) (j : Nat) (js : List Nat)
    (acc : List Int × List Int) :
    Verify.termsLoop m xs ys xp (j :: js) acc =
      Verify.termLoop xs xp j (List.range m) (ys.getD j 0, 1) >>= fun t =>
        Verify.termsLoop m xs ys xp js (acc.1 ++ [t.1], acc.2 ++ [t.2]) := by
  simp [Verify.termsLoop, List.foldlM_cons, pure_eq_ok]

/-- The first loop of `evaluatePolynomialAt` appends, for each index of `js`, a
numerator and a non-zero denominator whose quotient is the Lagrange summand. -/
theorem termsLoop_ok (m : Nat) (xs ys : List Int) (xp : Int) (js : List Nat)
    (acc : List Int × List Int)
    (hne : ∀ j ∈ js, ∀ t < m, t ≠ j → xs.getD j 0 ≠ xs.getD t 0) :
    ∃ nums dens, Verify.termsLoop m xs ys xp js acc = .ok (acc.1 ++ nums, acc.2 ++ dens) ∧
      nums.length = js.length ∧ dens.length = js.length ∧ (∀ d ∈ dens, d ≠ 0) ∧
      ∀ idx < js.length, (nums.getD idx 0 : ℚ) / (dens.getD idx 0 : ℚ) =
        lagrangeSummand m xs ys xp (js.getD idx 0) := by
  induction js generalizing acc with
  | nil => exact ⟨[], [], by simp [termsLoop_nil], rfl, rfl, by simp, fun _ h => by cases h⟩
  | cons j js ih =>
    obtain ⟨n, d, e1, hd, hv⟩ := verify_termLoop_ok m xs ys xp j
      (hne j (List.mem_cons_self _ _))
    obtain ⟨nums, dens, e2, h1, h2, h3, h4⟩ := ih (acc.1 ++ [n], acc.2 ++ [d])
      (fun x hx => hne x (List.mem_cons_of_mem _ hx))
    refine ⟨n :: nums, d :: dens, ?_, by simp [h1], by simp [h2], ?_, ?_⟩
    · rw [termsLoop_cons, e1, ok_bind, e2]
      simp
    · intro x hx
      rcases List.mem_cons.mp hx with rfl | hx2
      · exact hd
      · exact h3 x hx2
    · intro idx hidx
      cases idx with
      | zero => simpa using hv
      | succ idx =>
        simp only [List.getD_cons_succ]
        exact h4 idx (by simpa using hidx)

theorem combineLoop_nil (nums dens : List Int) (cd c : Int) :
    Verify.combineLoop nums dens cd [] c = .ok c := rfl

theorem combineLoop_cons (nums dens : List Int) (cd c : Int) (j : Nat) (js : List Nat) :
    Verify.combineLoop nums dens cd (j :: js) c =
      bigDiv cd (dens.getD j 0) >>= fun factor =>
        Verify.combineLoop nums dens cd js (c + nums.getD j 0 * factor) := by
  simp [Verify.combineLoop, List.foldlM_cons, pure_eq_ok]

/-- The second loop of `evaluatePolynomialAt`: with non-zero denominators that
divide `commonDen`, the quotient `combined / commonDen` grows by
`nums[j] / dens[j]` for each index. -/
theorem combineLoop_ok (nums dens : List Int) (cd : Int) (hcd : cd ≠ 0) (js : List Nat)
    (c : Int) (hd : ∀ j ∈ js, dens.getD j 0 ≠ 0 ∧ dens.getD j 0 ∣ cd) :
    ∃ c2, Verify.combineLoop nums dens cd js c = .ok c2 ∧
      (c2 : ℚ) / (cd : ℚ) = (c : ℚ) / (cd : ℚ) +
        (js.map (fun j => (nums.getD j 0 : ℚ) / (dens.getD j 0 : ℚ))).sum := by
  induction js generalizing c with
  | nil => exact ⟨c, rfl, by simp⟩
  | cons j js ih =>
    obtain ⟨h0, hdvd⟩ := hd j (List.mem_cons_self _ _)
    obtain ⟨c2, e, hv⟩ := ih (c + nums.getD j 0 * (cd / dens.getD j 0))
      (fun x hx => hd x (List.mem_cons_of_mem _ hx))
    refine ⟨c2, ?_, ?_⟩
    · rw [combineLoop_cons]
      simp only [bigDiv, h0, if_false]
      rw [ok_bind, Int.tdiv_eq_ediv_of_dvd hdvd]
      exact e
    · have hq : (dens.getD j 0 : ℚ) ≠ 0 := by exact_mod_cast h0
      have hcq : (cd : ℚ) ≠ 0 := by exact_mod_cast hcd
      rw [hv, List.map_cons, List.sum_cons]
      push_cast
      rw [Int.cast_div hdvd hq]
      field_simp
      ring

theorem getD_range (m idx : Nat) (h : idx < m) : (List.range m).getD idx 0 = idx := by
  rw [List.getD_eq_getElem _ _ (by rw [List.length_range]; exact h), List.getElem_range]

/-- `evaluatePolynomialAt(xp)` returns a coprime pair with non-zero denominator
whose value is the Lagrange sum at `xp`. -/
theorem evaluatePolynomialAt_ok (m : Nat) (xs ys : List Int) (xp : Int)
    (hne : ∀ i < m, ∀ j < m, j ≠ i → xs.getD i 0 ≠ xs.getD j 0) :
    ∃ num den, Verify.evaluatePolynomialAt m xs ys xp = .ok { num := num, den := den } ∧
      den ≠ 0 ∧ Int.gcd num den = 1 ∧
      (num : ℚ) / (den : ℚ) = ((List.range m).map (lagrangeSummand m xs ys xp)).sum := by
  obtain ⟨nums, dens, e1, hl1, hl2, hnz, hv⟩ := termsLoop_ok m xs ys xp (List.range m) ([], [])
    (fun j hj => hne j (List.mem_range.mp hj))
  rw [List.length_range] at hl1 hl2 hv
  simp only [List.nil_append] at e1
  have hprod : dens.foldl (fun c d => c * d) 1 = dens.prod := (List.prod_eq_foldl).symm
  have hcd : dens.prod ≠ 0 := List.prod_ne_zero (fun h0 => hnz 0 h0 rfl)
  obtain ⟨c2, e2, hv2⟩ := combineLoop_ok nums dens dens.prod hcd (List.range m) 0
    (fun j hj => by
      have hj2 : j < dens.length := by rw [hl2]; exact List.mem_range.mp hj
      rw [List.getD_eq_getElem _ _ hj2]
      exact ⟨hnz _ (List.getElem_mem _), List.dvd_prod (List.getElem_mem _)⟩)
  obtain ⟨num, den, e3, h1, h2, h3⟩ := reducePair_ok c2 dens.prod hcd
  refine ⟨num, den, ?_, h1, h2, ?_⟩
  · unfold Verify.evaluatePolynomialAt
    rw [e1, ok_bind]
    simp only []
    rw [hprod, e2, ok_bind, e3, ok_bind]
    rfl
  · rw [h3, hv2]
    simp only [Int.cast_zero, zero_div, zero_add]
    refine congrArg List.sum (List.map_congr_left fun j hj => ?_)
    have := hv j (List.mem_range.mp hj)
    rw [getD_range m j (List.mem_range.mp hj)] at this
    exact this

/-- At the x-value of index `i`, `evaluatePolynomialAt` returns a pair with
`num = y_i * den`. -/
theorem evaluatePolynomialAt_node (k : Nat) (xs ys : List Int)
    (hne : ∀ i < k, ∀ j < k, j ≠ i → xs.getD i 0 ≠ xs.getD j 0) (i : Nat) (hi : i < k) :
    ∃ num den, Verify.evaluatePolynomialAt k xs ys (xs.getD i 0) =
        .ok { num := num, den := den } ∧
      den ≠ 0 ∧ num = ys.getD i 0 * den := by
  obtain ⟨num, den, e, h1, -, h3⟩ := evaluatePolynomialAt_ok k xs ys (xs.getD i 0) hne
  refine ⟨num, den, e, h1, ?_⟩
  have hinj := injOn_nodes k xs hne
  rw [sum_lagrangeSummand_eq_interpolate, Lagrange.eval_interpolate_at_node
    (fun i => ((ys.getD i 0 : Int) : ℚ)) hinj (Finset.mem_range.mpr hi)] at h3
  have hq : (den : ℚ) ≠ 0 := by exact_mod_cast h1
  rw [div_eq_iff hq] at h3
  exact_mod_cast h3

theorem checkPoints_nil (m : Nat) (xs ys : List Int) (b : Bool) :
    Verify.checkPoints m xs ys [] b = .ok b := rfl

theorem checkPoints_cons (m : Nat) (xs ys : List Int) (idx : Nat) (idxs : List Nat)
    (b : Bool) :
    Verify.checkPoints m xs ys (idx :: idxs) b =
      (Verify.evaluatePolynomialAt m xs ys (xs.getD idx 0) >>= fun px =>
        if px.den = 1 then
          (if px.num ≠ ys.getD idx 0 then (pure false : Except JsError Bool) else pure b)
        else (if ys.getD idx 0 * px.den ≠ px.num then pure false else pure b)) >>=
      fun b2 => Verify.checkPoints m xs ys idxs b2 := by
  simp [Verify.checkPoints, List.foldlM_cons]

theorem checkPoints_ok (k : Nat) (xs ys : List Int)
    (hne : ∀ i < k, ∀ j < k, j ≠ i → xs.getD i 0 ≠ xs.getD j 0) (idxs : List Nat)
    (hidx : ∀ i ∈ idxs, i < k) (b : Bool) :
    Verify.checkPoints k xs ys idxs b = .ok b := by
  induction idxs with
  | nil => rfl
  | cons idx idxs ih =>
    obtain ⟨num, den, e, h1, h2⟩ := evaluatePolynomialAt_node k xs ys hne idx
      (hidx idx (List.mem_cons_self _ _))
    rw [checkPoints_cons, e, ok_bind]
    simp only []
    by_cases hd1 : den = 1
    · rw [if_pos hd1, if_neg (by rw [h2, hd1, mul_one]; simp), pure_eq_ok, ok_bind]
      exact ih (fun x hx => hidx x (List.mem_cons_of_mem _ hx))
    · rw [if_neg hd1, if_neg (by rw [h2]; simp), pure_eq_ok, ok_bind]
      exact ih (fun x hx => hidx x (List.mem_cons_of_mem _ hx))

/-- C17: for selected points with pairwise distinct x-values, the
point-reproduction check of `verify.js` passes for every point:
`evaluatePolynomialAt(x_i)` returns `{num, den}` with `den` non-zero and
`num = y_i * den` (so `num = y_i` when `den = 1`), and `allMatch` is still true
after the loop. -/
theorem verify_reproduces_points (pts : List (Int × Int)) (hd : (pts.map Prod.fst).Nodup) :
    (∀ p ∈ pts, ∃ num den,
      Verify.evaluatePolynomialAt pts.length (pts.map Prod.fst) (pts.map Prod.snd) p.1 =
        .ok { num := num, den := den } ∧
      den ≠ 0 ∧ num = p.2 * den ∧ (den = 1 → num = p.2)) ∧
    Verify.checkPoints pts.length (pts.map Prod.fst) (pts.map Prod.snd)
      (List.range pts.length) true = .ok true := by
  have hne := nodup_getD_ne _ hd
  rw [List.length_map] at hne
  refine ⟨?_, checkPoints_ok _ _ _ hne _ (fun i hi => List.mem_range.mp hi) true⟩
  rw [forall_mem_iff_index pts (fun x y => ∃ num den,
    Verify.evaluatePolynomialAt pts.length (pts.map Prod.fst) (pts.map Prod.snd) x =
      .ok { num := num, den := den } ∧ den ≠ 0 ∧ num = y * den ∧ (den = 1 → num = y))]
  intro i hi
  obtain ⟨num, den, e, h1, h2⟩ := evaluatePolynomialAt_node _ _ _ hne i hi
  exact ⟨num, den, e, h1, h2, fun h => by rw [h2, h, mul_one]⟩

/-- C17, witness: the points (1, 4), (3, 7), whose interpolant has denominators
other than 1 on the way. -/
theorem verify_reproduces_points_witness :
    ([((1 : Int), (4 : Int)), (3, 7)].map Prod.fst).Nodup ∧
    ((∀ p ∈ [((1 : Int), (4 : Int)), (3, 7)], ∃ num den,
      Verify.evaluatePolynomialAt [((1 : Int), (4 : Int)), (3, 7)].length
        ([((1 : Int), (4 : Int)), (3, 7)].map Prod.fst)
        ([((1 : Int), (4 : Int)), (3, 7)].map Prod.snd) p.1 =
        .ok { num := num, den := den } ∧
      den ≠ 0 ∧ num = p.2 * den ∧ (den = 1 → num = p.2)) ∧
    Verify.checkPoints [((1 : Int), (4 : Int)), (3, 7)].length
      ([((1 : Int), (4 : Int)), (3, 7)].map Prod.fst)
      ([((1 : Int), (4 : Int)), (3, 7)].map Prod.snd)
      (List.range [((1 : Int), (4 : Int)), (3, 7)].length) true = .ok true) :=
  ⟨by decide, verify_reproduces_points [(1, 4), (3, 7)] (by decide)⟩

/-! ## Claims across the three scripts -/

/-- C20: for points with pairwise distinct x-values, the final
`(totalNum, totalDen)` of `solution.js`, the pair `{num, den}` of
`evaluatePolynomialAt(0)` in `verify.js` and the pair `{n, d}` of
`evaluateLagrangeAt(0)` in `verify_vandermonde.js` all have non-zero
denominators and denote the same rational: `totalNum * d = n * totalDen` and
`num * d = n * den`. -/
theorem three_lagrange_agree (pts : List (Int × Int)) (hd : (pts.map Prod.fst).Nodup) :
    ∃ tn td num den n d,
      Solution.lagrangeAtZero pts.length (pts.map Prod.fst) (pts.map Prod.snd) =
        .ok (tn, td) ∧
      Verify.evaluatePolynomialAt pts.length (pts.map Prod.fst) (pts.map Prod.snd) 0 =
        .ok { num := num, den := den } ∧
      evaluateLagrangeAt pts.length (pts.map Prod.fst) (pts.map Prod.snd) 0 =
        .ok { n := n, d := d } ∧
      td ≠ 0 ∧ den ≠ 0 ∧ d ≠ 0 ∧ tn * d = n * td ∧ num * d = n * den := by
  have hne := nodup_getD_ne _ hd
  rw [List.length_map] at hne
  obtain ⟨tn, td, e1, h1, -, hv1⟩ := lagrangeAtZero_ok pts.length (pts.map Prod.fst)
    (pts.map Prod.snd) hne
  obtain ⟨num, den, e2, h2, -, hv2⟩ := evaluatePolynomialAt_ok pts.length (pts.map Prod.fst)
    (pts.map Prod.snd) 0 hne
  have e3 := evaluateLagrangeAt_eq pts.length (pts.map Prod.fst) (pts.map Prod.snd) 0 hne
  have hv3 := val_ofQ ((List.range pts.length).map
    (lagrangeSummand pts.length (pts.map Prod.fst) (pts.map Prod.snd) 0)).sum
  have h3 := ofQ_d_ne ((List.range pts.length).map
    (lagrangeSummand pts.length (pts.map Prod.fst) (pts.map Prod.snd) 0)).sum
  generalize ofQ ((List.range pts.length).map
    (lagrangeSummand pts.length (pts.map Prod.fst) (pts.map Prod.snd) 0)).sum = r at e3 hv3 h3
  have hq1 : (td : ℚ) ≠ 0 := by exact_mod_cast h1
  have hq2 : (den : ℚ) ≠ 0 := by exact_mod_cast h2
  have hq3 : (r.d : ℚ) ≠ 0 := by exact_mod_cast h3
  unfold Frac.val at hv3
  refine ⟨tn, td, num, den, r.n, r.d, e1, e2, e3, h1, h2, h3, ?_, ?_⟩
  · have := hv1.trans hv3.symm
    rw [div_eq_div_iff hq1 hq3] at this
    exact_mod_cast this
  · have := hv2.trans hv3.symm
    rw [div_eq_div_iff hq2 hq3] at this
    exact_mod_cast this

/-- C20, witness: the points (1, 4), (3, 7), whose value at 0 is `5/2`. -/
theorem three_lagrange_agree_witness :
    ([((1 : Int), (4 : Int)), (3, 7)].map Prod.fst).Nodup ∧
    ∃ tn td num den n d,
      Solution.lagrangeAtZero [((1 : Int), (4 : Int)), (3, 7)].length
        ([((1 : Int), (4 : Int)), (3, 7)].map Prod.fst)
        ([((1 : Int), (4 : Int)), (3, 7)].map Prod.snd) = .ok (tn, td) ∧
      Verify.evaluatePolynomialAt [((1 : Int), (4 : Int)), (3, 7)].length
        ([((1 : Int), (4 : Int)), (3, 7)].map Prod.fst)
        ([((1 : Int), (4 : Int)), (3, 7)].map Prod.snd) 0 = .ok { num := num, den := den } ∧
      evaluateLagrangeAt [((1 : Int), (4 : Int)), (3, 7)].length
        ([((1 : Int), (4 : Int)), (3, 7)].map Prod.fst)
        ([((1 : Int), (4 : Int)), (3, 7)].map Prod.snd) 0 = .ok { n := n, d := d } ∧
      td ≠ 0 ∧ den ≠ 0 ∧ d ≠ 0 ∧ tn * d = n * td ∧ num * d = n * den :=
  ⟨by decide, three_lagrange_agree [(1, 4), (3, 7)] (by decide)⟩

/-- C14, counterexample: for the points (1, 4), (2, 7), (3, 12), (6, 39) the
Lagrange evaluation at `t = 0` is not `2/1` and the coefficient vector returned
by `gaussianSolve` on the Vandermonde system is not `[2, 1, 1, 0]`. -/
theorem scenario_counterexample :
    evaluateLagrangeAt 4 [1, 2, 3, 6] [4, 7, 12, 39] 0 ≠ .ok { n := 2, d := 1 } ∧
    solveCoeffs 4 [1, 2, 3, 6] [4, 7, 12, 39] ≠ .ok [⟨2, 1⟩, ⟨1, 1⟩, ⟨1, 1⟩, ⟨0, 1⟩] := by
  decide

/-- C14, amended: the y-values decode from `"4"`, `"7"`, `"12"`, `"39"` in base 10
to 4, 7, 12, 39, and for the points (1, 4), (2, 7), (3, 12), (6, 39) the Lagrange
evaluation at `t = 0` yields exactly `3/1`, `gaussianSolve` on the Vandermonde
system yields exactly the coefficient vector `[3, 0, 1, 0]` with denominators 1,
and the interpolation of `solution.js` ends with the total `3/1`. -/
theorem scenario_values :
    parseBigIntBase "4" 10 = .ok 4 ∧ parseBigIntBase "7" 10 = .ok 7 ∧
    parseBigIntBase "12" 10 = .ok 12 ∧ parseBigIntBase "39" 10 = .ok 39 ∧
    evaluateLagrangeAt 4 [1, 2, 3, 6] [4, 7, 12, 39] 0 = .ok { n := 3, d := 1 } ∧
    solveCoeffs 4 [1, 2, 3, 6] [4, 7, 12, 39] = .ok [⟨3, 1⟩, ⟨0, 1⟩, ⟨1, 1⟩, ⟨0, 1⟩] ∧
    Solution.lagrangeAtZero 4 [1, 2, 3, 6] [4, 7, 12, 39] = .ok (3, 1) := by
  decide

/-! ## The script's gate before the Lagrange evaluator -/

theorem solveCoeffs_eq (k : Nat) (xs ys : List Int) :
    solveCoeffs k xs ys =
      vandermonde k xs (List.range k) [] >>= fun V => rhs ys >>= fun b => gaussianSolve V b :=
  rfl

/-- With a repeated x-value the script stops at `gaussianSolve(V, b)`. -/
theorem solveCoeffs_duplicate (xs ys : List Int) (hy : ys.length = xs.length)
    (hdup : ¬ xs.Nodup) :
    solveCoeffs xs.length xs ys = .error JsError.singularMatrix := by
  obtain ⟨V, b, hV, hb, -, -, hS, hbl, hD, hsol⟩ := vandermonde_system xs.length xs ys hy
  rw [solveCoeffs_eq, hV, ok_bind, hb, ok_bind]
  rcases gaussianSolve_spec xs.length V b hS hbl hD with ⟨a, -, -, -, -, hker⟩ | ⟨e, -⟩
  · exfalso
    rw [List.nodup_iff_getElem?_ne_getElem?] at hdup
    push_neg at hdup
    obtain ⟨p, q, hpq, hq, heq⟩ := hdup
    have hp : p < xs.length := by omega
    have hv : (fun i => (xs.getD i 0 : ℚ)) p = (fun i => (xs.getD i 0 : ℚ)) q := by
      simp only [List.getD_eq_getElem?_getD, heq]
    obtain ⟨a, ⟨j, hj, haj⟩, ha⟩ := vandermonde_kernel_of_duplicate xs.length
      (fun i => (xs.getD i 0 : ℚ)) p q hp hq (by omega) hv
    refine haj (hker a ((hsol 0 a).mpr (fun i hi => ?_)) j hj)
    rw [zero_mul]; exact ha i hi
  · exact e

/-- C5, counterexample: an input with the keys `2`, `02` and `3`, holding 5
under `2` and 7 under `3`, gives the script `xs = [2, 2, 3]` and
`ys = [5, 5, 7]`, two positions sharing the x-value 2. The error of that run is
the one `gaussianSolve(V, b)` raises; the body of `evaluateLagrangeAt(0)` on
these lists raises no error, singular or other, and computes `{n: 28n, d: 1n}`:
the evaluator holds no check of its own. -/
theorem evaluateLagrangeAt_duplicate_counterexample :
    ¬ ([2, 2, 3] : List Int).Nodup ∧
    solveCoeffs 3 [2, 2, 3] [5, 5, 7] = .error JsError.singularMatrix ∧
    evaluateLagrangeAt 3 [2, 2, 3] [5, 5, 7] 0 = .ok { n := 28, d := 1 } := by
  decide

/-- C5, amended: for every point list in which two points at different
positions share the same x-value, and for every integer `t`, the script returns
no numeric result from `evaluateLagrangeAt(t)`: `gaussianSolve(V, b)`, which the
script runs on the same points before the evaluator is called, raises the
singular-matrix error, and the pass of the comparison loop for `t` ends with
that error. -/
theorem duplicate_stops_before_lagrange (pts : List (Int × Int)) (t : Int)
    (hdup : ¬ (pts.map Prod.fst).Nodup) :
    solveCoeffs pts.length (pts.map Prod.fst) (pts.map Prod.snd) =
        .error JsError.singularMatrix ∧
    checkAt pts.length (pts.map Prod.fst) (pts.map Prod.snd) t =
        .error JsError.singularMatrix := by
  have h : solveCoeffs pts.length (pts.map Prod.fst) (pts.map Prod.snd) =
      .error JsError.singularMatrix := by
    have h0 := solveCoeffs_duplicate (pts.map Prod.fst) (pts.map Prod.snd)
      (by rw [List.length_map, List.length_map]) hdup
    rwa [List.length_map] at h0
  refine ⟨h, ?_⟩
  show (solveCoeffs pts.length (pts.map Prod.fst) (pts.map Prod.snd) >>= fun coeffs =>
    evaluatePolyWithCoeffsAt coeffs t >>= fun c1 =>
      evaluateLagrangeAt pts.length (pts.map Prod.fst) (pts.map Prod.snd) t >>= fun c2 =>
        pure (c1, c2)) = _
  rw [h, error_bind]

/-- C5, witness: the points (2, 5), (2, 5), (3, 7) at `t = 0`. -/
theorem duplicate_stops_before_lagrange_witness :
    ¬ ([((2 : Int), (5 : Int)), (2, 5), (3, 7)].map Prod.fst).Nodup ∧
    solveCoeffs [((2 : Int), (5 : Int)), (2, 5), (3, 7)].length
        ([((2 : Int), (5 : Int)), (2, 5), (3, 7)].map Prod.fst)
        ([((2 : Int), (5 : Int)), (2, 5), (3, 7)].map Prod.snd) =
      .error JsError.singularMatrix ∧
    checkAt [((2 : Int), (5 : Int)), (2, 5), (3, 7)].length
        ([((2 : Int), (5 : Int)), (2, 5), (3, 7)].map Prod.fst)
        ([((2 : Int), (5 : Int)), (2, 5), (3, 7)].map Prod.snd) 0 =
      .error JsError.singularMatrix :=
  ⟨by decide, duplicate_stops_before_lagrange [(2, 5), (2, 5), (3, 7)] 0 (by decide)⟩

end VerifyVandermonde
